import Mathlib

set_option maxRecDepth 100000

/-!
Verification of the crc-forge crate: GF(2) polynomial arithmetic on
bit-reflected fixed-width integers (src/math.rs), the table-driven CRC32
engine and the forgery algorithms (src/lib.rs).

Machine integers are embedded as `Nat` with explicit masking where the Rust
semantics truncates.  A `Polynomial<T>` value is its stored (bit-reflected)
integer: bit i of the stored width-w integer holds the coefficient of
X^(w-1-i).
-/

namespace CRCForge

/-- Error enum (src/error.rs); payloads carried by the I/O layer are elided. -/
inductive Error where
  | OverflowError
  | NonInvertibleError
  | IOError
  | EncodingError
  | OutOfBoundsError
deriving DecidableEq

/-- Reverse bit notation in a u32 (src/math.rs, reverse_u32): iterations
i in 0..16 set bits i and 31-i of the result from bits 31-i and i of n. -/
def reverse_u32 (n : Nat) : Nat :=
  (List.range 16).foldl
    (fun res i => res ||| (((n >>> (31 - i)) &&& 1) <<< i) |||
      (((n >>> i) &&& 1) <<< (31 - i))) 0

/-- Reverse bit notation in a u64 (src/math.rs, reverse_u64). -/
def reverse_u64 (n : Nat) : Nat :=
  (List.range 32).foldl
    (fun res i => res ||| (((n >>> (63 - i)) &&& 1) <<< i) |||
      (((n >>> i) &&& 1) <<< (63 - i))) 0

/-- Reverse bit notation in a u128 (src/math.rs, reverse_u128). -/
def reverse_u128 (n : Nat) : Nat :=
  (List.range 64).foldl
    (fun res i => res ||| (((n >>> (127 - i)) &&& 1) <<< i) |||
      (((n >>> i) &&& 1) <<< (127 - i))) 0

/-- Loop of Polynomial::deg (src/math.rs): scan the stored bits from the LSB;
at the first set bit, met at position i, return maxdeg - i; the fuel counts
the remaining positions, so the returned fuel value equals maxdeg - i. -/
def degGo : Nat → Nat → Nat
  | _, 0 => 0
  | bits, f + 1 => if bits &&& 1 == 1 then f else degGo (bits >>> 1) f

/-- Polynomial::deg for a stored value of bit width w (w = 8 * size_of T). -/
def deg (w v : Nat) : Nat := degGo v w

/-- From<Polynomial<u32>> for Polynomial<u64>: widening places the stored
value in the high bits (src/math.rs line 114). -/
def widen_32_64 (v : Nat) : Nat := v <<< 32

/-- From<Polynomial<u64>> for Polynomial<u128> (src/math.rs line 102). -/
def widen_64_128 (v : Nat) : Nat := v <<< 64

/-- From<Polynomial<u32>> for Polynomial<u128> (src/math.rs line 108). -/
def widen_32_128 (v : Nat) : Nat := widen_64_128 (widen_32_64 v)

/-- TryFrom<Polynomial<u128>> for Polynomial<u64> (src/math.rs line 72). -/
def narrow_128_64 (v : Nat) : Except Error Nat :=
  if v &&& 0xffffffffffffffff != 0 then .error .OverflowError else .ok (v >>> 64)

/-- TryFrom<Polynomial<u128>> for Polynomial<u32> (src/math.rs line 82). -/
def narrow_128_32 (v : Nat) : Except Error Nat :=
  if v &&& 0xffffffffffffffffffffffff != 0 then .error .OverflowError
  else .ok (v >>> 96)

/-- TryFrom<Polynomial<u64>> for Polynomial<u32> (src/math.rs line 92). -/
def narrow_64_32 (v : Nat) : Except Error Nat :=
  if v &&& 0xffffffff != 0 then .error .OverflowError else .ok (v >>> 32)

/-- Mul<T> for Polynomial<u64> (src/math.rs line 139): the loop runs i from 63
down to 0 shifting self right, so at the iteration for i it inspects bit
k = 63 - i of self and xors rhs <<< (64 - i) = rhs <<< (k + 1); product is a
stored u128. -/
def mul64 (a b : Nat) : Nat :=
  (List.range 64).foldl
    (fun res k => if (a >>> k) &&& 1 == 1 then res ^^^ (b <<< (k + 1)) else res) 0

/-- Mul<Polynomial<u32>> for Polynomial<u32> (src/math.rs line 159): widen both
to u64, multiply, narrow the u128 product back to u64.  The source narrows with
try_into().unwrap(); the checked condition always holds (low 64 bits of the
product of two high-aligned u64 values are clear, see mul64_low_bits below),
so the unwrap is embedded as the plain shift the check guards. -/
def mul_32_32 (a b : Nat) : Nat := (mul64 (widen_32_64 a) (widen_32_64 b)) >>> 64

/-- Shared body of the Rem/Div division loops (src/math.rs lines 249 and 196,
self-updating part): div = self & 1; self >>= 1; if div, self ^= modulo_bits. -/
def remSteps (mb : Nat) : Nat → Nat → Nat
  | s, 0 => s
  | s, f + 1 => remSteps mb ((s >>> 1) ^^^ (if s &&& 1 == 1 then mb else 0)) f

/-- Rem<Polynomial<u128>> for Polynomial<u128> (src/math.rs line 239).
overflowing_shr / overflowing_shl wrap the shift amount mod 128, and shl
discards bits above the width. -/
def rem128 (a m : Nat) : Nat :=
  let steps := 128 - deg 128 m
  let mb := m >>> (steps % 128)
  ((remSteps mb a steps) <<< (steps % 128)) % 2 ^ 128

/-- Loop of Div<T> for Polynomial<u128> (src/math.rs line 196): res <<= 1;
div = self & 1; self >>= 1; if div, res ^= 1 and self ^= rhs_bits. -/
def divSteps (rb : Nat) : Nat → Nat → Nat → Nat × Nat
  | s, res, 0 => (s, res)
  | s, res, f + 1 =>
    let res := (res <<< 1) % 2 ^ 128
    if s &&& 1 == 1 then divSteps rb ((s >>> 1) ^^^ rb) (res ^^^ 1) f
    else divSteps rb (s >>> 1) res f

/-- Div<T> for Polynomial<u128> (src/math.rs line 180): the accumulated
quotient is in normal representation and is reversed on return. -/
def div128 (a m : Nat) : Nat :=
  let steps := 128 - deg 128 m
  let rb := m >>> (steps % 128)
  reverse_u128 (divSteps rb a 0 steps).2

/-- Rem<Polynomial<u64>> for Polynomial<u64> (src/math.rs line 287): widen the
modulus (and implicitly the dividend) to u128, take rem128, narrow.  The
narrowing try_into().unwrap() never trips for u64 inputs (see
rem_64_64_low_bits below), so it is embedded as the shift. -/
def rem_64_64 (a m : Nat) : Nat := (rem128 (widen_64_128 a) (widen_64_128 m)) >>> 64

/-- Rem<Polynomial<u64>> for Polynomial<u128> (src/math.rs line 279). -/
def rem_128_64 (x m : Nat) : Nat := (rem128 x (widen_64_128 m)) >>> 64

/-- Div<T> for Polynomial<u64> (src/math.rs line 211). -/
def div_64_64 (a m : Nat) : Nat := (div128 (widen_64_128 a) (widen_64_128 m)) >>> 64

/-- Stored form of the constant polynomial 1 at width 64
(Polynomial::from(PolynomialRepr::Normal(1u64))). -/
def one64 : Nat := reverse_u64 1

/-- Loop of Polynomial::<u64>::inv_mod (src/math.rs line 362), the extended
Euclidean algorithm.  The Rust loop is unbounded; fuel 128 is sufficient for
every modulus of degree >= 1 (the degree of b strictly decreases except on the
two-step detour through b = 1, see the loop lemmas below). -/
def invModLoop (p : Nat) : Nat → Nat → Nat → Nat → Nat → Except Error Nat
  | _, _, _, _, 0 => .error .NonInvertibleError
  | a, b, vn, vn1, f + 1 =>
    if b == 0 then .error .NonInvertibleError
    else
      let q := div_64_64 a b
      let r := rem_64_64 a b
      let prod := rem_128_64 (mul64 vn1 q) p
      let vn1x := vn ^^^ prod
      if r == one64 then .ok (rem_64_64 vn1x p)
      else invModLoop p b r vn1 vn1x f

/-- Polynomial::<u64>::inv_mod (src/math.rs line 351). -/
def inv_mod (self p : Nat) : Except Error Nat :=
  invModLoop p p (rem_64_64 self p) 0 one64 128

/-- Loop of precompute_table (src/lib.rs line 39): 8 one-bit reflected
division steps of the register against the stripped reflected generator. -/
def precomputeGo (g : Nat) : Nat → Nat → Nat
  | r, 0 => r
  | r, f + 1 => precomputeGo g ((r >>> 1) ^^^ (if r &&& 1 == 1 then g else 0)) f

/-- precompute_table (src/lib.rs line 39): register mask at index, for the
reflected stripped generator g. -/
def precompute_table (index g : Nat) : Nat := precomputeGo g index 8

/-- CRC32 engine state (src/lib.rs struct CRC32).  The lookup table is a
function of props_g; see CRC32.table. -/
structure CRC32 where
  props_g : Nat
  props_i : Nat
  props_f : Nat
  g : Nat
  xn_inv : Nat
deriving DecidableEq

/-- The 256-entry lookup table built by CRC32::new (src/lib.rs line 57). -/
def CRC32.table (c : CRC32) (i : Nat) : Nat := precompute_table i (reverse_u32 c.props_g)

/-- CRC32::new (src/lib.rs line 54): build the full generator
G = X^32 + g and precompute (X^32)^-1 mod G. -/
def CRC32.new (g i f : Nat) : Except Error CRC32 := do
  let xn := reverse_u64 ((1 : Nat) <<< 32)
  let gfull := xn ^^^ widen_32_64 (reverse_u32 g)
  let xi ← inv_mod xn gfull
  let xn_inv ← narrow_64_32 xi
  .ok { props_g := g, props_i := i, props_f := f, g := gfull, xn_inv := xn_inv }

/-- CRC32::step (src/lib.rs line 77): one one-byte division step via table. -/
def CRC32.step (c : CRC32) (register next_byte : Nat) : Nat :=
  let mask := c.table (register &&& 0xff)
  ((register >>> 8) ||| (next_byte <<< 24)) ^^^ mask

/-- CRC32::fast_rem (src/lib.rs line 87): populate the register from the
first four bytes (fewer if data is short), xor the initial register value,
then step through the remaining bytes. -/
def CRC32.fast_rem (c : CRC32) (data : List Nat) (register : Nat) : Nat :=
  let reg := (data.take 4).foldl (fun reg b => (reg >>> 8) ||| (b <<< 24)) 0
  (data.drop 4).foldl (fun reg b => c.step reg b) (reg ^^^ register)

/-- CRC32::checksum (src/lib.rs line 118): fast_rem of data with four zero
bytes appended, init-xor as the starting register, final-xor at the end. -/
def CRC32.checksum (c : CRC32) (data : List Nat) : Nat :=
  c.fast_rem (data ++ [0, 0, 0, 0]) c.props_i ^^^ c.props_f

/-- CRC32::generator_remainder (src/lib.rs line 129): p mod G, narrowed
u128 -> u64 -> u32.  Both checked narrowings always succeed because the
remainder by the degree-32 generator has degree at most 31 (see
generator_remainder_low_bits below); the unwraps are embedded as shifts. -/
def CRC32.generator_remainder (c : CRC32) (p : Nat) : Nat :=
  (rem_128_64 p c.g) >>> 32

/-- CRC32::compute_suffix_polynomial (src/lib.rs line 138):
((C' + F) * (X^N)^-1 mod G) + C + F, all in stored u32 form. -/
def CRC32.compute_suffix_polynomial (c : CRC32) (data : List Nat) (target_crc : Nat) : Nat :=
  let cc := c.checksum data
  let f := c.props_f
  let res := c.generator_remainder (widen_64_128 (mul_32_32 (target_crc ^^^ f) c.xn_inv))
  res ^^^ cc ^^^ f

/-- u32 value to the 4 bytes of to_le_bytes. -/
def toLEBytes4 (v : Nat) : List Nat :=
  [v &&& 0xff, (v >>> 8) &&& 0xff, (v >>> 16) &&& 0xff, (v >>> 24) &&& 0xff]

/-- CRC32::compute_suffix (src/lib.rs line 151): the stored (reflected)
representation of the suffix polynomial, in little-endian bytes. -/
def CRC32.compute_suffix (c : CRC32) (data : List Nat) (target_crc : Nat) : List Nat :=
  toLEBytes4 (c.compute_suffix_polynomial data target_crc)

/-- Modelled from the spec: Polynomial::pow is invoked by
compute_inserted_polynomial (src/lib.rs line 182) but its definition is not
among the sources; spec section 4.1 describes the degree-raising power as X
mod-exponentiated to an arbitrary exponent modulo G by repeated
shift-and-reduce.  Here: self^e mod m by e multiply-by-self-and-reduce steps,
starting from the polynomial 1. -/
def powMod (self e m : Nat) : Nat :=
  match e with
  | 0 => one64
  | e + 1 => rem_128_64 (mul64 (powMod self e m) self) m

/-- CRC32::compute_inserted_polynomial (src/lib.rs line 161).  The source
unwraps the narrowing of X^M and the inversion (X^M)^-1; those panics are
unreachable for engines built by CRC32::new (X is invertible mod G whenever
X^32 is), and are embedded as propagated errors. -/
def CRC32.compute_inserted_polynomial (c : CRC32) (data : List Nat) (offset target_crc : Nat) :
    Except Error Nat := do
  let end_offset ←
    if offset ≤ data.length then Except.ok (data.length - offset)
    else Except.error Error.OverflowError
  let suffix := data.drop offset
  let suffix_poly := c.fast_rem suffix 0
  let xm ← narrow_64_32 (powMod (reverse_u64 2) (8 * end_offset) c.g)
  let xmi ← inv_mod (widen_32_64 xm) c.g
  let xm_inv ← narrow_64_32 xmi
  let inserted := c.compute_suffix_polynomial data target_crc
  let inserted := inserted ^^^ suffix_poly
  let inserted := inserted ^^^
    c.generator_remainder (mul64 (reverse_u64 ((1 : Nat) <<< 32)) (widen_32_64 suffix_poly))
  let inserted := c.generator_remainder (widen_64_128 (mul_32_32 inserted xm_inv))
  .ok inserted

/-- CRC32::compute_inserted (src/lib.rs line 204). -/
def CRC32.compute_inserted (c : CRC32) (data : List Nat) (offset target_crc : Nat) :
    Except Error (List Nat) := do
  let p ← c.compute_inserted_polynomial data offset target_crc
  .ok (toLEBytes4 p)

/-- The published canonical reflected CRC32 lookup table: the 256 constants
asserted bit-for-bit by the repository test test_table (src/lib.rs). -/
def canonical_crc32_table : List Nat := [
  0x0, 0x77073096, 0xee0e612c, 0x990951ba, 0x76dc419, 0x706af48f, 0xe963a535, 0x9e6495a3, 
  0xedb8832, 0x79dcb8a4, 0xe0d5e91e, 0x97d2d988, 0x9b64c2b, 0x7eb17cbd, 0xe7b82d07, 
  0x90bf1d91, 0x1db71064, 0x6ab020f2, 0xf3b97148, 0x84be41de, 0x1adad47d, 0x6ddde4eb, 
  0xf4d4b551, 0x83d385c7, 0x136c9856, 0x646ba8c0, 0xfd62f97a, 0x8a65c9ec, 0x14015c4f, 
  0x63066cd9, 0xfa0f3d63, 0x8d080df5, 0x3b6e20c8, 0x4c69105e, 0xd56041e4, 0xa2677172, 
  0x3c03e4d1, 0x4b04d447, 0xd20d85fd, 0xa50ab56b, 0x35b5a8fa, 0x42b2986c, 0xdbbbc9d6, 
  0xacbcf940, 0x32d86ce3, 0x45df5c75, 0xdcd60dcf, 0xabd13d59, 0x26d930ac, 0x51de003a, 
  0xc8d75180, 0xbfd06116, 0x21b4f4b5, 0x56b3c423, 0xcfba9599, 0xb8bda50f, 0x2802b89e, 
  0x5f058808, 0xc60cd9b2, 0xb10be924, 0x2f6f7c87, 0x58684c11, 0xc1611dab, 0xb6662d3d, 
  0x76dc4190, 0x1db7106, 0x98d220bc, 0xefd5102a, 0x71b18589, 0x6b6b51f, 0x9fbfe4a5, 
  0xe8b8d433, 0x7807c9a2, 0xf00f934, 0x9609a88e, 0xe10e9818, 0x7f6a0dbb, 0x86d3d2d, 
  0x91646c97, 0xe6635c01, 0x6b6b51f4, 0x1c6c6162, 0x856530d8, 0xf262004e, 0x6c0695ed, 
  0x1b01a57b, 0x8208f4c1, 0xf50fc457, 0x65b0d9c6, 0x12b7e950, 0x8bbeb8ea, 0xfcb9887c, 
  0x62dd1ddf, 0x15da2d49, 0x8cd37cf3, 0xfbd44c65, 0x4db26158, 0x3ab551ce, 0xa3bc0074, 
  0xd4bb30e2, 0x4adfa541, 0x3dd895d7, 0xa4d1c46d, 0xd3d6f4fb, 0x4369e96a, 0x346ed9fc, 
  0xad678846, 0xda60b8d0, 0x44042d73, 0x33031de5, 0xaa0a4c5f, 0xdd0d7cc9, 0x5005713c, 
  0x270241aa, 0xbe0b1010, 0xc90c2086, 0x5768b525, 0x206f85b3, 0xb966d409, 0xce61e49f, 
  0x5edef90e, 0x29d9c998, 0xb0d09822, 0xc7d7a8b4, 0x59b33d17, 0x2eb40d81, 0xb7bd5c3b, 
  0xc0ba6cad, 0xedb88320, 0x9abfb3b6, 0x3b6e20c, 0x74b1d29a, 0xead54739, 0x9dd277af, 
  0x4db2615, 0x73dc1683, 0xe3630b12, 0x94643b84, 0xd6d6a3e, 0x7a6a5aa8, 0xe40ecf0b, 
  0x9309ff9d, 0xa00ae27, 0x7d079eb1, 0xf00f9344, 0x8708a3d2, 0x1e01f268, 0x6906c2fe, 
  0xf762575d, 0x806567cb, 0x196c3671, 0x6e6b06e7, 0xfed41b76, 0x89d32be0, 0x10da7a5a, 
  0x67dd4acc, 0xf9b9df6f, 0x8ebeeff9, 0x17b7be43, 0x60b08ed5, 0xd6d6a3e8, 0xa1d1937e, 
  0x38d8c2c4, 0x4fdff252, 0xd1bb67f1, 0xa6bc5767, 0x3fb506dd, 0x48b2364b, 0xd80d2bda, 
  0xaf0a1b4c, 0x36034af6, 0x41047a60, 0xdf60efc3, 0xa867df55, 0x316e8eef, 0x4669be79, 
  0xcb61b38c, 0xbc66831a, 0x256fd2a0, 0x5268e236, 0xcc0c7795, 0xbb0b4703, 0x220216b9, 
  0x5505262f, 0xc5ba3bbe, 0xb2bd0b28, 0x2bb45a92, 0x5cb36a04, 0xc2d7ffa7, 0xb5d0cf31, 
  0x2cd99e8b, 0x5bdeae1d, 0x9b64c2b0, 0xec63f226, 0x756aa39c, 0x26d930a, 0x9c0906a9, 
  0xeb0e363f, 0x72076785, 0x5005713, 0x95bf4a82, 0xe2b87a14, 0x7bb12bae, 0xcb61b38, 
  0x92d28e9b, 0xe5d5be0d, 0x7cdcefb7, 0xbdbdf21, 0x86d3d2d4, 0xf1d4e242, 0x68ddb3f8, 
  0x1fda836e, 0x81be16cd, 0xf6b9265b, 0x6fb077e1, 0x18b74777, 0x88085ae6, 0xff0f6a70, 
  0x66063bca, 0x11010b5c, 0x8f659eff, 0xf862ae69, 0x616bffd3, 0x166ccf45, 0xa00ae278, 
  0xd70dd2ee, 0x4e048354, 0x3903b3c2, 0xa7672661, 0xd06016f7, 0x4969474d, 0x3e6e77db, 
  0xaed16a4a, 0xd9d65adc, 0x40df0b66, 0x37d83bf0, 0xa9bcae53, 0xdebb9ec5, 0x47b2cf7f, 
  0x30b5ffe9, 0xbdbdf21c, 0xcabac28a, 0x53b39330, 0x24b4a3a6, 0xbad03605, 0xcdd70693, 
  0x54de5729, 0x23d967bf, 0xb3667a2e, 0xc4614ab8, 0x5d681b02, 0x2a6f2b94, 0xb40bbe37, 
  0xc30c8ea1, 0x5a05df1b, 0x2d02ef8d]


/-! ## Little-endian polynomial semantics

`natPoly n` reads a natural number as a polynomial over GF(2) with bit i the
coefficient of X^i.  The meaning of a stored width-w value v is
`pval w v = reflect (w-1) (natPoly v)`. -/

open Polynomial

noncomputable def natPoly (n : Nat) : Polynomial (ZMod 2) :=
  ∑ i ∈ Finset.range n, if n.testBit i then X ^ i else 0

/-- Meaning of a stored width-w value: reverse the bit order, so that the
coefficient of X^i is bit w-1-i of the stored integer. -/
noncomputable def pval (w v : Nat) : Polynomial (ZMod 2) :=
  reflect (w - 1) (natPoly v)

/-- The stored 64-bit full generator X^32 + g built inside CRC32::new. -/
def gfullOf (g : Nat) : Nat :=
  reverse_u64 ((1 : Nat) <<< 32) ^^^ widen_32_64 (reverse_u32 g)

/-- What a successful CRC32::new guarantees about the engine record. -/
structure CRC32.wf (c : CRC32) : Prop where
  hg : c.props_g < 2 ^ 32
  hi : c.props_i < 2 ^ 32
  hf : c.props_f < 2 ^ 32
  hfull : c.g = gfullOf c.props_g
  hxi : c.xn_inv < 2 ^ 32
  hinv : (X ^ 32 + natPoly c.props_g) ∣ (X ^ 32 * pval 32 c.xn_inv + 1)

/-- A byte list as one little-endian natural: byte i sits at bit 8*i. -/
def natLE : List Nat → Nat
  | [] => 0
  | b :: bs => b + 2 ^ 8 * natLE bs

/-- The CRC message polynomial of a byte stream: the little-endian value read
through the width-8L reflected meaning map, so the first byte's least
significant bit carries the highest-degree coefficient (the standard
reflected-CRC bit order). -/
noncomputable def dataPoly (bs : List Nat) : Polynomial (ZMod 2) :=
  pval (8 * bs.length) (natLE bs)

/-- a and b are congruent modulo m: in characteristic 2, m divides a + b. -/
def pcong (m a b : Polynomial (ZMod 2)) : Prop := m ∣ (a + b)

instance {E A : Type} [DecidableEq E] [DecidableEq A] : DecidableEq (Except E A) :=
  fun a b =>
    match a, b with
    | .error e1, .error e2 =>
      if h : e1 = e2 then .isTrue (by rw [h])
      else .isFalse (fun hc => h (by injection hc))
    | .error _, .ok _ => .isFalse (fun hc => Except.noConfusion hc)
    | .ok _, .error _ => .isFalse (fun hc => Except.noConfusion hc)
    | .ok v1, .ok v2 =>
      if h : v1 = v2 then .isTrue (by rw [h])
      else .isFalse (fun hc => h (by injection hc))

/-- The engine CRC32::new builds for the standard parameters
(generator 0x04C11DB7, init-xor and final-xor 0xFFFFFFFF). -/
def stdEngine : CRC32 :=
  { props_g := 0x04C11DB7, props_i := 0xFFFFFFFF, props_f := 0xFFFFFFFF,
    g := 0xEDB8832080000000, xn_inv := 0x5B358FD3 }


theorem zmod2_add_self (a : ZMod 2) : a + a = 0 := by revert a; decide

theorem poly2_add_self (p : Polynomial (ZMod 2)) : p + p = 0 := by
  ext i
  simp [zmod2_add_self]

theorem poly2_sub_eq_add (p q : Polynomial (ZMod 2)) : p - q = p + q := by
  rw [sub_eq_iff_eq_add, add_assoc, poly2_add_self, add_zero]

theorem poly2_add_cancel {a b c : Polynomial (ZMod 2)} (h : a = b + c) :
    b = a + c := by
  rw [h, add_assoc, poly2_add_self, add_zero]

theorem natPoly_coeff (n i : Nat) :
    (natPoly n).coeff i = if n.testBit i then 1 else 0 := by
  rw [natPoly, finset_sum_coeff]
  by_cases hi : i ∈ Finset.range n
  · rw [Finset.sum_eq_single i]
    · by_cases h : n.testBit i <;> simp [h]
    · intro b _ hb
      by_cases h : n.testBit b
      · have hbi : i ≠ b := Ne.symm hb
        simp [h, coeff_X_pow, hbi]
      · simp [h]
    · intro h
      exact absurd hi h
  · rw [Finset.sum_eq_zero]
    · have hn : n.testBit i = false := by
        apply Nat.testBit_lt_two_pow
        calc n ≤ i := by simpa [Finset.mem_range, Nat.not_lt] using hi
        _ < 2 ^ i := Nat.lt_two_pow i
      simp [hn]
    · intro b hb
      by_cases h : n.testBit b
      · have hbi : i ≠ b := by
          rintro rfl
          exact hi hb
        simp [h, coeff_X_pow, hbi]
      · simp [h]

theorem natPoly_zero : natPoly 0 = 0 := by
  ext i
  simp [natPoly_coeff]

theorem natPoly_eq_zero_iff (n : Nat) : natPoly n = 0 ↔ n = 0 := by
  constructor
  · intro h
    apply Nat.eq_of_testBit_eq
    intro i
    have h2 := congrArg (fun p => Polynomial.coeff p i) h
    simp only [natPoly_coeff, coeff_zero] at h2
    by_cases hb : n.testBit i
    · rw [hb] at h2; simp at h2
    · simp [hb]
  · rintro rfl; exact natPoly_zero

theorem natPoly_inj {a b : Nat} (h : natPoly a = natPoly b) : a = b := by
  apply Nat.eq_of_testBit_eq
  intro i
  have h2 := congrArg (fun p => Polynomial.coeff p i) h
  simp only [natPoly_coeff] at h2
  by_cases ha : a.testBit i <;> by_cases hb : b.testBit i <;>
    simp [ha, hb] at h2 ⊢

theorem natPoly_one : natPoly 1 = 1 := by
  ext i
  rcases i with _ | j
  · simp [natPoly_coeff]
  · simp [natPoly_coeff, Nat.testBit_succ, coeff_one, Nat.zero_testBit]

theorem natPoly_xor (a b : Nat) : natPoly (a ^^^ b) = natPoly a + natPoly b := by
  ext i
  simp only [natPoly_coeff, coeff_add, Nat.testBit_xor]
  by_cases ha : a.testBit i <;> by_cases hb : b.testBit i <;>
    simp only [ha, hb] <;> decide

theorem natPoly_shiftLeft (a k : Nat) : natPoly (a <<< k) = X ^ k * natPoly a := by
  ext i
  rw [natPoly_coeff, coeff_X_pow_mul']
  by_cases hk : k ≤ i
  · simp [Nat.testBit_shiftLeft, hk, natPoly_coeff]
  · have h2 : ¬ (i ≥ k) := hk
    simp [Nat.testBit_shiftLeft, h2, hk]

theorem natPoly_decomp (n : Nat) :
    natPoly n = C ((n % 2 : Nat) : ZMod 2) + X * natPoly (n / 2) := by
  ext i
  rcases i with _ | j
  · simp only [natPoly_coeff, coeff_add, coeff_C, if_pos rfl, mul_coeff_zero,
      coeff_X_zero, zero_mul, add_zero, Nat.testBit_zero]
    rcases Nat.mod_two_eq_zero_or_one n with h | h <;> simp [h]
  · simp only [natPoly_coeff, coeff_add, coeff_C, Nat.succ_ne_zero, if_false,
      zero_add, coeff_X_mul, Nat.testBit_add_one, natPoly_coeff]

theorem natPoly_two_pow_mul_add (k a b : Nat) (hb : b < 2 ^ k) :
    natPoly (2 ^ k * a + b) = X ^ k * natPoly a + natPoly b := by
  ext i
  rw [natPoly_coeff, Nat.testBit_mul_pow_two_add a hb i, coeff_add,
    coeff_X_pow_mul', natPoly_coeff, natPoly_coeff]
  by_cases hik : i < k
  · have hge : ¬ (i ≥ k) := by omega
    simp [hik, hge]
  · have hge : i ≥ k := by omega
    have hlow : b.testBit i = false :=
      Nat.testBit_lt_two_pow (lt_of_lt_of_le hb (Nat.pow_le_pow_right (by omega) (by omega)))
    simp [hik, hge, hlow]

theorem natPoly_lt_two_pow {n w : Nat} (h : n < 2 ^ w) (i : Nat) (hiw : w ≤ i) :
    (natPoly n).coeff i = 0 := by
  rw [natPoly_coeff]
  have h2 : n.testBit i = false :=
    Nat.testBit_lt_two_pow (lt_of_lt_of_le h (Nat.pow_le_pow_right (by omega) hiw))
  simp [h2]

theorem natPoly_natDegree_lt {n w : Nat} (hw : 0 < w) (h : n < 2 ^ w) :
    (natPoly n).natDegree < w := by
  by_cases hn : natPoly n = 0
  · simpa [hn] using hw
  · by_contra hcon
    push_neg at hcon
    exact hn (leadingCoeff_eq_zero.mp (natPoly_lt_two_pow h _ hcon))

theorem natPoly_natDegree_le {n w : Nat} (hw : 0 < w) (h : n < 2 ^ w) :
    (natPoly n).natDegree ≤ w - 1 := by
  have h2 := natPoly_natDegree_lt hw h
  omega

/-- Values with all bits at or above w clear are below 2^w. -/
theorem lt_two_pow_of_testBit {w : Nat} : ∀ {n : Nat},
    (∀ j, w ≤ j → n.testBit j = false) → n < 2 ^ w := by
  induction w with
  | zero =>
    intro n h
    have h0 : n = 0 := Nat.eq_of_testBit_eq fun i => by simp [h i (Nat.zero_le i)]
    simp [h0]
  | succ w ih =>
    intro n h
    have hhalf : n / 2 < 2 ^ w := by
      apply ih
      intro j hj
      rw [Nat.testBit_div_two]
      exact h (j + 1) (by omega)
    have hmod : n % 2 < 2 := Nat.mod_lt _ (by omega)
    have hn : n = 2 * (n / 2) + n % 2 := (Nat.div_add_mod n 2).symm
    calc n = 2 * (n / 2) + n % 2 := hn
    _ < 2 * 2 ^ w := by omega
    _ = 2 ^ (w + 1) := by ring

theorem lt_two_pow_of_natPoly {n w : Nat}
    (h : ∀ j, w ≤ j → (natPoly n).coeff j = 0) : n < 2 ^ w := by
  apply lt_two_pow_of_testBit
  intro j hj
  have h2 := h j hj
  rw [natPoly_coeff] at h2
  by_cases hb : n.testBit j
  · rw [hb] at h2; simp at h2
  · simp [hb]

/-! ## Bit reversal characterization -/

theorem and_one_shift_testBit (m p j : Nat) :
    (((m &&& 1) <<< p).testBit j = true ↔ (j = p ∧ m.testBit 0 = true)) := by
  rw [Nat.testBit_shiftLeft, Nat.testBit_and]
  rcases Nat.lt_trichotomy j p with h | h | h
  · have hge : ¬ (j ≥ p) := by omega
    rw [decide_eq_false hge]
    simp only [Bool.false_and]
    exact iff_of_false (by simp) (fun hh => absurd hh.1 (by omega))
  · subst h
    simp [Nat.testBit_one_zero]
  · have hge : j ≥ p := by omega
    have h1 : Nat.testBit 1 (j - p) = false := by
      have h2 := Nat.testBit_two_pow_of_ne (n := 0) (m := j - p) (by omega)
      simpa using h2
    rw [decide_eq_true hge, h1]
    simp only [Bool.true_and, Bool.and_false]
    exact iff_of_false (by simp) (fun hh => absurd hh.1 (by omega))

theorem revFoldAux (w n : Nat) : ∀ (k : Nat), 2 * k ≤ w → ∀ (j : Nat),
    (((List.range k).foldl
      (fun res i => res ||| (((n >>> (w - 1 - i)) &&& 1) <<< i) |||
        (((n >>> i) &&& 1) <<< (w - 1 - i))) 0).testBit j = true ↔
      ((j < k ∨ (w - k ≤ j ∧ j < w)) ∧ n.testBit (w - 1 - j) = true)) := by
  intro k
  induction k with
  | zero =>
    intro _ j
    simp only [List.range_zero, List.foldl_nil, Nat.zero_testBit]
    refine iff_of_false (by simp) ?_
    rintro ⟨h1 | ⟨h1, h2⟩, _⟩
    · omega
    · omega
  | succ k ih =>
    intro hk j
    rw [List.range_succ, List.foldl_append, List.foldl_cons, List.foldl_nil]
    rw [Nat.testBit_or, Nat.testBit_or]
    rw [Bool.or_eq_true, Bool.or_eq_true]
    rw [ih (by omega) j, and_one_shift_testBit, and_one_shift_testBit]
    rw [Nat.testBit_shiftRight, Nat.testBit_shiftRight]
    rw [Nat.add_zero, Nat.add_zero]
    constructor
    · rintro ((⟨hr, hb⟩ | ⟨hjeq, hb⟩) | ⟨hjeq, hb⟩)
      · refine ⟨?_, hb⟩
        omega
      · subst hjeq
        refine ⟨?_, hb⟩
        omega
      · refine ⟨?_, ?_⟩
        · omega
        · have hrw : w - 1 - j = k := by omega
          rw [hrw]
          exact hb
    · rintro ⟨hr, hb⟩
      by_cases hj1 : j = k
      · subst hj1
        exact Or.inl (Or.inr ⟨rfl, hb⟩)
      · by_cases hj2 : j = w - 1 - k
        · refine Or.inr ⟨hj2, ?_⟩
          have hrw : k = w - 1 - j := by omega
          rw [hrw]
          exact hb
        · refine Or.inl (Or.inl ⟨?_, hb⟩)
          omega

theorem reverse_u32_testBit (n j : Nat) :
    ((reverse_u32 n).testBit j = true ↔ (j < 32 ∧ n.testBit (31 - j) = true)) := by
  have h := revFoldAux 32 n 16 (by omega) j
  rw [reverse_u32]
  rw [show ((32 : Nat) - 1) = 31 from rfl] at h
  rw [h]
  constructor
  · rintro ⟨h1, h2⟩
    exact ⟨by omega, h2⟩
  · rintro ⟨h1, h2⟩
    exact ⟨by omega, h2⟩

theorem reverse_u64_testBit (n j : Nat) :
    ((reverse_u64 n).testBit j = true ↔ (j < 64 ∧ n.testBit (63 - j) = true)) := by
  have h := revFoldAux 64 n 32 (by omega) j
  rw [reverse_u64]
  rw [show ((64 : Nat) - 1) = 63 from rfl] at h
  rw [h]
  constructor
  · rintro ⟨h1, h2⟩
    exact ⟨by omega, h2⟩
  · rintro ⟨h1, h2⟩
    exact ⟨by omega, h2⟩

theorem reverse_u128_testBit (n j : Nat) :
    ((reverse_u128 n).testBit j = true ↔ (j < 128 ∧ n.testBit (127 - j) = true)) := by
  have h := revFoldAux 128 n 64 (by omega) j
  rw [reverse_u128]
  rw [show ((128 : Nat) - 1) = 127 from rfl] at h
  rw [h]
  constructor
  · rintro ⟨h1, h2⟩
    exact ⟨by omega, h2⟩
  · rintro ⟨h1, h2⟩
    exact ⟨by omega, h2⟩

theorem reverse_u32_lt (n : Nat) : reverse_u32 n < 2 ^ 32 := by
  apply lt_two_pow_of_testBit
  intro j hj
  by_cases hb : (reverse_u32 n).testBit j
  · rcases (reverse_u32_testBit n j).mp hb with ⟨h1, _⟩
    omega
  · simpa using hb

theorem reverse_u64_lt (n : Nat) : reverse_u64 n < 2 ^ 64 := by
  apply lt_two_pow_of_testBit
  intro j hj
  by_cases hb : (reverse_u64 n).testBit j
  · rcases (reverse_u64_testBit n j).mp hb with ⟨h1, _⟩
    omega
  · simpa using hb

theorem reverse_u128_lt (n : Nat) : reverse_u128 n < 2 ^ 128 := by
  apply lt_two_pow_of_testBit
  intro j hj
  by_cases hb : (reverse_u128 n).testBit j
  · rcases (reverse_u128_testBit n j).mp hb with ⟨h1, _⟩
    omega
  · simpa using hb

/-! ## The stored-value meaning map -/

theorem pval_coeff (w v j : Nat) :
    (pval w v).coeff j = (natPoly v).coeff (revAt (w - 1) j) := by
  rw [pval, coeff_reflect]

theorem pval_add (w a b : Nat) : pval w (a ^^^ b) = pval w a + pval w b := by
  rw [pval, natPoly_xor, reflect_add, pval, pval]

theorem pval_zero (w : Nat) : pval w 0 = 0 := by
  rw [pval, natPoly_zero, reflect_zero]

/-- reflect at a shifted index absorbs a power of X. -/
theorem reflect_shift_absorb {R : Type} [Semiring R] (N k : Nat) (f : Polynomial R)
    (hf : f.natDegree ≤ N) : reflect (N + k) (X ^ k * f) = reflect N f := by
  ext j
  rw [coeff_reflect, coeff_reflect]
  by_cases hj : j ≤ N
  · rw [revAt_le (by omega : j ≤ N + k), revAt_le hj, coeff_X_pow_mul']
    have hk2 : k ≤ N + k - j := by omega
    rw [if_pos hk2]
    congr 1
    omega
  · rw [revAt_eq_self_of_lt (by omega : N < j)]
    have hr : f.coeff j = 0 := natDegree_le_iff_coeff_eq_zero.mp hf j (by omega)
    rw [hr]
    by_cases hj2 : j ≤ N + k
    · rw [revAt_le hj2, coeff_X_pow_mul']
      have hk3 : ¬ (k ≤ N + k - j) := by omega
      rw [if_neg hk3]
    · rw [revAt_eq_self_of_lt (by omega : N + k < j), coeff_X_pow_mul']
      by_cases hk4 : k ≤ j
      · rw [if_pos hk4]
        exact natDegree_le_iff_coeff_eq_zero.mp hf (j - k) (by omega)
      · rw [if_neg hk4]

/-- reflect at a shifted index emits a power of X. -/
theorem reflect_shift_emit {R : Type} [Semiring R] (N k : Nat) (f : Polynomial R)
    (hf : f.natDegree ≤ N) : reflect (N + k) f = X ^ k * reflect N f := by
  ext j
  rw [coeff_reflect, coeff_X_pow_mul']
  by_cases hjk : k ≤ j
  · rw [if_pos hjk, coeff_reflect]
    by_cases hj : j ≤ N + k
    · rw [revAt_le hj, revAt_le (by omega : j - k ≤ N)]
      congr 1
      omega
    · rw [revAt_eq_self_of_lt (by omega : N + k < j),
        revAt_eq_self_of_lt (by omega : N < j - k)]
      rw [natDegree_le_iff_coeff_eq_zero.mp hf j (by omega),
        natDegree_le_iff_coeff_eq_zero.mp hf (j - k) (by omega)]
  · rw [if_neg hjk, revAt_le (by omega : j ≤ N + k)]
    exact natDegree_le_iff_coeff_eq_zero.mp hf (N + k - j) (by omega)

theorem reflect_reflect_self {R : Type} [Semiring R] (N : Nat) (f : Polynomial R) :
    reflect N (reflect N f) = f := by
  ext j
  rw [coeff_reflect, coeff_reflect, revAt_invol]

/-! ## Stored values of the reversal functions and widenings -/

theorem bool_eq_of_iff {a b : Bool} (h : a = true ↔ b = true) : a = b := by
  cases a <;> cases b <;> simp_all

theorem testBit_false_of_lt {n w j : Nat} (h : n < 2 ^ w) (hj : w ≤ j) :
    n.testBit j = false :=
  Nat.testBit_lt_two_pow (lt_of_lt_of_le h (Nat.pow_le_pow_right (by omega) hj))

theorem add_shift_testBit {a b k : Nat} (h : a < 2 ^ k) (j : Nat) :
    (a + b * 2 ^ k).testBit j = if j < k then a.testBit j else b.testBit (j - k) := by
  have h1 := Nat.testBit_mul_pow_two_add b h j
  rw [show 2 ^ k * b + a = a + b * 2 ^ k from by ring] at h1
  exact h1

theorem xor_shift_add {a b k : Nat} (h : a < 2 ^ k) :
    a ^^^ (b <<< k) = a + b * 2 ^ k := by
  apply Nat.eq_of_testBit_eq
  intro j
  rw [Nat.testBit_xor, Nat.testBit_shiftLeft, add_shift_testBit h j]
  by_cases hj : j < k
  · have h1 : ¬ (j ≥ k) := by omega
    simp [hj, h1]
  · have h1 : j ≥ k := by omega
    have h2 : a.testBit j = false := testBit_false_of_lt h (by omega)
    simp [hj, h1, h2]

theorem or_shift_add {a b k : Nat} (h : a < 2 ^ k) :
    a ||| (b <<< k) = a + b * 2 ^ k := by
  apply Nat.eq_of_testBit_eq
  intro j
  rw [Nat.testBit_or, Nat.testBit_shiftLeft, add_shift_testBit h j]
  by_cases hj : j < k
  · have h1 : ¬ (j ≥ k) := by omega
    simp [hj, h1]
  · have h1 : j ≥ k := by omega
    have h2 : a.testBit j = false := testBit_false_of_lt h (by omega)
    simp [hj, h1, h2]

theorem natPoly_rev_gen {w : Nat} (hw : 0 < w) (rev : Nat → Nat)
    (hlt : ∀ n, rev n < 2 ^ w)
    (hbit : ∀ n j, ((rev n).testBit j = true ↔ (j < w ∧ n.testBit (w - 1 - j) = true)))
    {n : Nat} (h : n < 2 ^ w) :
    natPoly (rev n) = reflect (w - 1) (natPoly n) := by
  ext j
  rw [natPoly_coeff, coeff_reflect, natPoly_coeff]
  by_cases hj : j ≤ w - 1
  · rw [revAt_le hj]
    have hbeq : (rev n).testBit j = n.testBit (w - 1 - j) := by
      apply bool_eq_of_iff
      rw [hbit]
      constructor
      · exact And.right
      · exact fun hh => ⟨by omega, hh⟩
    rw [hbeq]
  · rw [revAt_eq_self_of_lt (by omega)]
    rw [testBit_false_of_lt (hlt n) (by omega)]
    rw [testBit_false_of_lt h (by omega)]

theorem natPoly_reverse_u32 {n : Nat} (h : n < 2 ^ 32) :
    natPoly (reverse_u32 n) = reflect 31 (natPoly n) :=
  natPoly_rev_gen (by omega) reverse_u32 reverse_u32_lt reverse_u32_testBit h

theorem natPoly_reverse_u64 {n : Nat} (h : n < 2 ^ 64) :
    natPoly (reverse_u64 n) = reflect 63 (natPoly n) :=
  natPoly_rev_gen (by omega) reverse_u64 reverse_u64_lt reverse_u64_testBit h

theorem natPoly_reverse_u128 {n : Nat} (h : n < 2 ^ 128) :
    natPoly (reverse_u128 n) = reflect 127 (natPoly n) :=
  natPoly_rev_gen (by omega) reverse_u128 reverse_u128_lt reverse_u128_testBit h

theorem pval_inj {w u v : Nat} (h : pval w u = pval w v) : u = v := by
  apply natPoly_inj
  have h2 := congrArg (reflect (w - 1)) h
  rwa [pval, pval, reflect_reflect_self, reflect_reflect_self] at h2

theorem pval_natDegree_le {w v : Nat} (h : v < 2 ^ w) :
    (pval w v).natDegree ≤ w - 1 := by
  apply natDegree_le_iff_coeff_eq_zero.mpr
  intro j hj
  rw [pval_coeff, revAt_eq_self_of_lt hj]
  exact natPoly_lt_two_pow h j (by omega)

theorem pval_widen_64_128 {v : Nat} (h : v < 2 ^ 64) :
    pval 128 (widen_64_128 v) = pval 64 v := by
  rw [pval, pval, widen_64_128, natPoly_shiftLeft]
  rw [show ((128 : Nat) - 1) = 63 + 64 from rfl]
  have hd : (natPoly v).natDegree ≤ 63 := by
    have h2 := natPoly_natDegree_lt (w := 64) (by omega) h
    omega
  rw [reflect_shift_absorb 63 64 _ hd]

theorem pval_widen_32_64 {v : Nat} (h : v < 2 ^ 32) :
    pval 64 (widen_32_64 v) = pval 32 v := by
  rw [pval, pval, widen_32_64, natPoly_shiftLeft]
  rw [show ((64 : Nat) - 1) = 31 + 32 from rfl]
  have hd : (natPoly v).natDegree ≤ 31 := by
    have h2 := natPoly_natDegree_lt (w := 32) (by omega) h
    omega
  rw [reflect_shift_absorb 31 32 _ hd]

theorem widen_32_64_lt {v : Nat} (h : v < 2 ^ 32) : widen_32_64 v < 2 ^ 64 := by
  rw [widen_32_64, Nat.shiftLeft_eq]
  have h2 : (2 : Nat) ^ 64 = 2 ^ 32 * 2 ^ 32 := by norm_num
  rw [h2]
  exact (Nat.mul_lt_mul_right (by positivity)).mpr h

theorem widen_64_128_lt {v : Nat} (h : v < 2 ^ 64) : widen_64_128 v < 2 ^ 128 := by
  rw [widen_64_128, Nat.shiftLeft_eq]
  have h2 : (2 : Nat) ^ 128 = 2 ^ 64 * 2 ^ 64 := by norm_num
  rw [h2]
  exact (Nat.mul_lt_mul_right (by positivity)).mpr h

theorem pval_widen_32_128 {v : Nat} (h : v < 2 ^ 32) :
    pval 128 (widen_32_128 v) = pval 32 v := by
  rw [widen_32_128, pval_widen_64_128 (widen_32_64_lt h)]
  exact pval_widen_32_64 h

/-- A stored u64 whose low 32 bits are clear is a widened u32. -/
theorem unwiden_64_32 {v : Nat} (hz : v % 2 ^ 32 = 0) :
    widen_32_64 (v >>> 32) = v := by
  rw [widen_32_64, Nat.shiftLeft_eq, Nat.shiftRight_eq_div_pow]
  omega

theorem unwiden_128_64 {v : Nat} (hz : v % 2 ^ 64 = 0) :
    widen_64_128 (v >>> 64) = v := by
  rw [widen_64_128, Nat.shiftLeft_eq, Nat.shiftRight_eq_div_pow]
  omega

theorem pval_unwiden_64_32 {v : Nat} (hv : v < 2 ^ 64) (hz : v % 2 ^ 32 = 0) :
    pval 32 (v >>> 32) = pval 64 v := by
  rw [← pval_widen_32_64 (v := v >>> 32), unwiden_64_32 hz]
  rw [Nat.shiftRight_eq_div_pow]
  omega

theorem pval_unwiden_128_64 {v : Nat} (hv : v < 2 ^ 128) (hz : v % 2 ^ 64 = 0) :
    pval 64 (v >>> 64) = pval 128 v := by
  rw [← pval_widen_64_128 (v := v >>> 64), unwiden_128_64 hz]
  rw [Nat.shiftRight_eq_div_pow]
  omega

theorem natPoly_two_pow (k : Nat) : natPoly (2 ^ k) = X ^ k := by
  ext j
  rw [natPoly_coeff, Nat.testBit_two_pow, coeff_X_pow]
  by_cases h : k = j
  · simp [h]
  · simp [h, Ne.symm h]

theorem one64_eq : one64 = 2 ^ 63 := by decide

theorem pval_one64 : pval 64 one64 = 1 := by
  rw [one64_eq, pval, natPoly_two_pow]
  rw [show ((64 : Nat) - 1) = 63 from rfl, reflect_monomial]
  rw [revAt_le (by omega)]
  norm_num

theorem reverse_u64_two_eq : reverse_u64 2 = 2 ^ 62 := by decide

theorem pval_X_stored : pval 64 (reverse_u64 2) = X := by
  rw [reverse_u64_two_eq, pval, natPoly_two_pow]
  rw [show ((64 : Nat) - 1) = 63 from rfl, reflect_monomial]
  rw [revAt_le (by omega)]
  norm_num

theorem reverse_u64_xn_eq : reverse_u64 ((1 : Nat) <<< 32) = 2 ^ 31 := by decide

theorem pval_xn_stored : pval 64 (reverse_u64 ((1 : Nat) <<< 32)) = X ^ 32 := by
  rw [reverse_u64_xn_eq, pval, natPoly_two_pow]
  rw [show ((64 : Nat) - 1) = 63 from rfl, reflect_monomial]
  rw [revAt_le (by omega)]

/-! ## Characterization of Polynomial::deg -/

theorem degGo_succ (v f : Nat) :
    degGo v (f + 1) = if v % 2 = 1 then f else degGo (v >>> 1) f := by
  rw [degGo, Nat.and_one_is_mod]
  by_cases h : v % 2 = 1
  · simp [h]
  · simp [h]

theorem degGo_le (v f : Nat) : degGo v f ≤ f - 1 := by
  induction f generalizing v with
  | zero => simp [degGo]
  | succ f ih =>
    rw [degGo_succ]
    by_cases h : v % 2 = 1
    · simp [h]
    · rw [if_neg h]
      calc degGo (v >>> 1) f ≤ f - 1 := ih _
      _ ≤ (f + 1) - 1 := by omega

theorem deg_le (w v : Nat) : deg w v ≤ w - 1 := degGo_le v w

/-- A nonzero stored value splits as 2^(w-1-deg) times an odd part. -/
theorem deg_spec (w : Nat) : ∀ v : Nat, v ≠ 0 → v < 2 ^ w →
    v = 2 ^ (w - 1 - deg w v) * (v >>> (w - 1 - deg w v)) ∧
    (v >>> (w - 1 - deg w v)) % 2 = 1 := by
  induction w with
  | zero =>
    intro v hv hlt
    omega
  | succ w ih =>
    intro v hv hlt
    rw [deg, degGo_succ]
    by_cases h : v % 2 = 1
    · rw [if_pos h]
      have h0 : w + 1 - 1 - w = 0 := by omega
      rw [h0]
      simpa using h
    · rw [if_neg h]
      have hv2 : v >>> 1 ≠ 0 := by
        rw [Nat.shiftRight_eq_div_pow, pow_one]
        omega
      have hlt2 : v >>> 1 < 2 ^ w := by
        rw [Nat.shiftRight_eq_div_pow, pow_one]
        rw [Nat.pow_succ] at hlt
        omega
      rcases ih (v >>> 1) hv2 hlt2 with ⟨h1, h2⟩
      rw [deg] at h1 h2
      have hd : degGo (v >>> 1) w ≤ w - 1 := degGo_le _ _
      have hw1 : 1 ≤ w := by
        by_contra hcw
        have hw0 : w = 0 := by omega
        subst hw0
        norm_num at hlt
        omega
      have hidx : w + 1 - 1 - degGo (v >>> 1) w = (w - 1 - degGo (v >>> 1) w) + 1 := by
        omega
      rw [hidx]
      have hs : v >>> ((w - 1 - degGo (v >>> 1) w) + 1) =
          (v >>> 1) >>> (w - 1 - degGo (v >>> 1) w) := by
        rw [Nat.shiftRight_eq_div_pow, Nat.shiftRight_eq_div_pow,
          Nat.shiftRight_eq_div_pow, pow_one, Nat.div_div_eq_div_mul, Nat.pow_succ]
        congr 1
        ring
      constructor
      · rw [hs]
        rw [Nat.pow_succ]
        have hv21 : v = 2 * (v >>> 1) := by
          rw [Nat.shiftRight_eq_div_pow, pow_one]
          omega
        calc v = 2 * (v >>> 1) := hv21
        _ = 2 * (2 ^ (w - 1 - degGo (v >>> 1) w) *
            ((v >>> 1) >>> (w - 1 - degGo (v >>> 1) w))) := by rw [← h1]
        _ = 2 ^ (w - 1 - degGo (v >>> 1) w) * 2 *
            ((v >>> 1) >>> (w - 1 - degGo (v >>> 1) w)) := by ring
      · rw [hs]
        exact h2

/-! ## Verification of the division loops -/

theorem two_mul_xor_one (k : Nat) : (2 * k) ^^^ 1 = 2 * k + 1 := by
  apply Nat.eq_of_testBit_eq
  intro i
  rw [Nat.testBit_xor]
  rcases i with _ | j
  · rw [Nat.testBit_zero, Nat.testBit_zero, Nat.testBit_zero]
    have h1 : (2 * k) % 2 = 0 := by omega
    have h2 : (2 * k + 1) % 2 = 1 := by omega
    have h3 : (1 : Nat) % 2 = 1 := by omega
    rw [h1, h2, h3]
    decide
  · rw [Nat.testBit_add_one, Nat.testBit_add_one, Nat.testBit_add_one]
    have h1 : 2 * k / 2 = k := by omega
    have h2 : (2 * k + 1) / 2 = k := by omega
    have h3 : (1 : Nat) / 2 = 0 := by omega
    rw [h1, h2, h3]
    simp [Nat.zero_testBit]

theorem remSteps_succ_odd (mb s f : Nat) (h : s % 2 = 1) :
    remSteps mb s (f + 1) = remSteps mb ((s >>> 1) ^^^ mb) f := by
  have hb : (s &&& 1 == 1) = true := by
    rw [Nat.and_one_is_mod, h]
    rfl
  rw [remSteps, hb]
  rfl

theorem remSteps_succ_even (mb s f : Nat) (h : s % 2 = 0) :
    remSteps mb s (f + 1) = remSteps mb (s >>> 1) f := by
  have hb : (s &&& 1 == 1) = false := by
    rw [Nat.and_one_is_mod, h]
    rfl
  rw [remSteps, hb]
  simp

theorem divSteps_succ_odd (rb s res f : Nat) (h : s % 2 = 1) :
    divSteps rb s res (f + 1) =
      divSteps rb ((s >>> 1) ^^^ rb) (((res <<< 1) % 2 ^ 128) ^^^ 1) f := by
  have hb : (s &&& 1 == 1) = true := by
    rw [Nat.and_one_is_mod, h]
    rfl
  rw [divSteps, hb]
  rfl

theorem divSteps_succ_even (rb s res f : Nat) (h : s % 2 = 0) :
    divSteps rb s res (f + 1) = divSteps rb (s >>> 1) ((res <<< 1) % 2 ^ 128) f := by
  have hb : (s &&& 1 == 1) = false := by
    rw [Nat.and_one_is_mod, h]
    rfl
  rw [divSteps, hb]
  rfl

theorem divSteps_fst (rb : Nat) : ∀ (f : Nat), ∀ s res,
    (divSteps rb s res f).1 = remSteps rb s f := by
  intro f
  induction f with
  | zero => intro s res; rfl
  | succ f ih =>
    intro s res
    rcases Nat.mod_two_eq_zero_or_one s with h | h
    · rw [divSteps_succ_even rb s res f h, remSteps_succ_even rb s f h]
      exact ih _ _
    · rw [divSteps_succ_odd rb s res f h, remSteps_succ_odd rb s f h]
      exact ih _ _

theorem remSteps_lt (mb B : Nat) (hmb : mb < 2 ^ B) : ∀ (f : Nat), ∀ s, s < 2 ^ (B + f) →
    remSteps mb s f < 2 ^ B := by
  intro f
  induction f with
  | zero =>
    intro s hs
    simpa [remSteps] using hs
  | succ f ih =>
    intro s hs
    have hs2 : s >>> 1 < 2 ^ (B + f) := by
      rw [Nat.shiftRight_eq_div_pow, pow_one]
      have hp : 2 ^ (B + (f + 1)) = 2 ^ (B + f) * 2 := by
        rw [show B + (f + 1) = (B + f) + 1 from by omega, pow_succ]
      rw [hp] at hs
      omega
    have hmb2 : mb < 2 ^ (B + f) :=
      lt_of_lt_of_le hmb (Nat.pow_le_pow_right (by omega) (by omega))
    rcases Nat.mod_two_eq_zero_or_one s with h | h
    · rw [remSteps_succ_even mb s f h]
      exact ih _ hs2
    · rw [remSteps_succ_odd mb s f h]
      exact ih _ (Nat.xor_lt_two_pow hs2 hmb2)

theorem remSteps_zero_val (mb : Nat) : ∀ (f : Nat), remSteps mb 0 f = 0 := by
  intro f
  induction f with
  | zero => rfl
  | succ f ih =>
    rw [remSteps_succ_even mb 0 f (by omega)]
    simpa using ih

/-- Joint loop invariant of the Div and Rem loops: the accumulated quotient
bits, the bit-reversed quotient, and the exact polynomial division identity. -/
theorem divSteps_spec (rb : Nat) : ∀ (f : Nat), f ≤ 128 → ∀ s res, res < 2 ^ (128 - f) →
    ∃ q qr, q < 2 ^ f ∧ qr < 2 ^ f ∧
      (divSteps rb s res f).2 = res * 2 ^ f + qr ∧
      natPoly qr = reflect (f - 1) (natPoly q) ∧
      X ^ f * natPoly (remSteps rb s f) =
        natPoly s + natPoly q * (1 + X * natPoly rb) := by
  intro f
  induction f with
  | zero =>
    intro _ s res hres
    refine ⟨0, 0, by omega, by omega, ?_, ?_, ?_⟩
    · simp [divSteps]
    · simp [natPoly_zero, reflect_zero]
    · simp [remSteps, natPoly_zero]
  | succ f ih =>
    intro hf s res hres
    have hf127 : f ≤ 127 := by omega
    have hpow : 2 ^ (128 - f) = 2 * 2 ^ (128 - (f + 1)) := by
      rw [show 128 - f = (128 - (f + 1)) + 1 from by omega, pow_succ]
      ring
    have hres2 : 2 * res + 1 < 2 ^ (128 - f) := by omega
    have hshl : (res <<< 1) % 2 ^ 128 = 2 * res := by
      rw [Nat.shiftLeft_eq, pow_one]
      have hlt : res * 2 < 2 ^ 128 := by
        have h1 : 2 ^ (128 - f) ≤ 2 ^ 128 := Nat.pow_le_pow_right (by omega) (by omega)
        omega
      rw [Nat.mod_eq_of_lt hlt]
      ring
    -- the two branches share this common assembly
    rcases Nat.mod_two_eq_zero_or_one s with hc | hc
    · -- even step: no quotient bit, no xor
      rcases ih (by omega) (s >>> 1) (2 * res) (by omega) with
        ⟨q, qr, hq, hqr, hval, hrefl, heqn⟩
      refine ⟨2 * q, qr, by omega, by
          have h1 : 2 ^ f ≤ 2 ^ (f + 1) := Nat.pow_le_pow_right (by omega) (by omega)
          omega, ?_, ?_, ?_⟩
      · rw [divSteps_succ_even rb s res f hc, hshl, hval, pow_succ]
        ring
      · -- natPoly qr = reflect f (natPoly (2 * q))
        have hq2 : natPoly (2 * q) = X * natPoly q := by
          rw [natPoly_decomp (2 * q)]
          have h1 : 2 * q % 2 = 0 := by omega
          have h2 : 2 * q / 2 = q := by omega
          rw [h1, h2]
          simp
        rw [show (f + 1 - 1) = f from by omega, hq2]
        rcases Nat.eq_zero_or_pos f with hf0 | hf0
        · subst hf0
          have hq0 : q = 0 := by omega
          have hqr0 : qr = 0 := by omega
          subst hq0; subst hqr0
          rw [natPoly_zero, mul_zero, reflect_zero]
        · have hd : (natPoly q).natDegree ≤ f - 1 := natPoly_natDegree_le hf0 hq
          have habs := reflect_shift_absorb (f - 1) 1 (natPoly q) hd
          rw [pow_one] at habs
          rw [show (f - 1) + 1 = f from by omega] at habs
          rw [habs]
          exact hrefl
      · -- polynomial identity
        rw [remSteps_succ_even rb s f hc]
        have hdec : natPoly s = C ((0 : Nat) : ZMod 2) + X * natPoly (s >>> 1) := by
          rw [Nat.shiftRight_eq_div_pow, pow_one, ← hc, natPoly_decomp]
        have hq2 : natPoly (2 * q) = X * natPoly q := by
          rw [natPoly_decomp (2 * q)]
          have h1 : 2 * q % 2 = 0 := by omega
          have h2 : 2 * q / 2 = q := by omega
          rw [h1, h2]
          simp
        have hXs : X * natPoly (s >>> 1) = natPoly s := by
          rw [hdec]
          simp
        calc X ^ (f + 1) * natPoly (remSteps rb (s >>> 1) f)
            = X * (X ^ f * natPoly (remSteps rb (s >>> 1) f)) := by ring
        _ = X * (natPoly (s >>> 1) + natPoly q * (1 + X * natPoly rb)) := by rw [heqn]
        _ = X * natPoly (s >>> 1) + (X * natPoly q) * (1 + X * natPoly rb) := by ring
        _ = natPoly s + natPoly (2 * q) * (1 + X * natPoly rb) := by rw [hXs, hq2]
    · -- odd step: quotient bit set, xor the modulus bits in
      rcases ih (by omega) ((s >>> 1) ^^^ rb) (2 * res + 1) (by omega) with
        ⟨q, qr, hq, hqr, hval, hrefl, heqn⟩
      refine ⟨2 * q + 1, 2 ^ f + qr, by omega, by
          have h1 : 2 ^ (f + 1) = 2 * 2 ^ f := by rw [pow_succ]; ring
          omega, ?_, ?_, ?_⟩
      · rw [divSteps_succ_odd rb s res f hc, hshl, two_mul_xor_one, hval, pow_succ]
        ring
      · -- natPoly (2^f + qr) = reflect f (natPoly (2*q+1))
        have hql : natPoly (2 * q + 1) = (1 : Polynomial (ZMod 2)) + X * natPoly q := by
          rw [natPoly_decomp (2 * q + 1)]
          have h1 : (2 * q + 1) % 2 = 1 := by omega
          have h2 : (2 * q + 1) / 2 = q := by omega
          rw [h1, h2]
          simp
        have hqrl : natPoly (2 ^ f + qr) = X ^ f + natPoly qr := by
          have h1 : natPoly (2 ^ f * 1 + qr) = X ^ f * natPoly 1 + natPoly qr :=
            natPoly_two_pow_mul_add f 1 qr hqr
          rw [natPoly_one] at h1
          simpa using h1
        rw [hql, hqrl, reflect_add, show (f + 1 - 1) = f from by omega]
        have hrone : reflect f (1 : Polynomial (ZMod 2)) = X ^ f := by
          have h1 := reflect_monomial (R := ZMod 2) f 0
          rw [pow_zero] at h1
          rw [h1, revAt_le (by omega)]
          norm_num
        rw [hrone]
        congr 1
        rcases Nat.eq_zero_or_pos f with hf0 | hf0
        · subst hf0
          have hq0 : q = 0 := by omega
          have hqr0 : qr = 0 := by omega
          subst hq0; subst hqr0
          rw [natPoly_zero, mul_zero, reflect_zero]
        · have hd : (natPoly q).natDegree ≤ f - 1 := natPoly_natDegree_le hf0 hq
          have habs := reflect_shift_absorb (f - 1) 1 (natPoly q) hd
          rw [pow_one] at habs
          rw [show (f - 1) + 1 = f from by omega] at habs
          rw [habs]
          exact hrefl
      · -- polynomial identity
        rw [remSteps_succ_odd rb s f hc]
        have hql : natPoly (2 * q + 1) = (1 : Polynomial (ZMod 2)) + X * natPoly q := by
          rw [natPoly_decomp (2 * q + 1)]
          have h1 : (2 * q + 1) % 2 = 1 := by omega
          have h2 : (2 * q + 1) / 2 = q := by omega
          rw [h1, h2]
          simp
        have hdec : natPoly s = (1 : Polynomial (ZMod 2)) + X * natPoly (s >>> 1) := by
          rw [Nat.shiftRight_eq_div_pow, pow_one]
          rw [natPoly_decomp s, hc]
          simp
        have hXs : X * natPoly (s >>> 1) = natPoly s + (1 : Polynomial (ZMod 2)) := by
          rw [hdec]
          have h2 : (1 : Polynomial (ZMod 2)) + 1 = 0 := poly2_add_self 1
          linear_combination -h2
        have hsx : natPoly ((s >>> 1) ^^^ rb) = natPoly (s >>> 1) + natPoly rb :=
          natPoly_xor _ _
        calc X ^ (f + 1) * natPoly (remSteps rb ((s >>> 1) ^^^ rb) f)
            = X * (X ^ f * natPoly (remSteps rb ((s >>> 1) ^^^ rb) f)) := by ring
        _ = X * (natPoly ((s >>> 1) ^^^ rb) + natPoly q * (1 + X * natPoly rb)) := by
            rw [heqn]
        _ = X * natPoly (s >>> 1) + X * natPoly rb +
            (X * natPoly q) * (1 + X * natPoly rb) := by rw [hsx]; ring
        _ = natPoly s + (1 : Polynomial (ZMod 2)) + X * natPoly rb +
            (X * natPoly q) * (1 + X * natPoly rb) := by rw [hXs]
        _ = natPoly s + ((1 : Polynomial (ZMod 2)) + X * natPoly q) * (1 + X * natPoly rb) := by ring
        _ = natPoly s + natPoly (2 * q + 1) * (1 + X * natPoly rb) := by rw [hql]

/-! ## rem128 and div128 compute polynomial division -/

theorem natPoly_coeff_zero (u : Nat) :
    (natPoly u).coeff 0 = if u % 2 = 1 then 1 else 0 := by
  rw [natPoly_coeff, Nat.testBit_zero]
  by_cases h : u % 2 = 1 <;> simp [h]

theorem natPoly_two_pow_mul (k a : Nat) : natPoly (2 ^ k * a) = X ^ k * natPoly a := by
  have h := natPoly_two_pow_mul_add k a 0 (by positivity)
  simpa [natPoly_zero] using h

theorem natDegree_reflect_le {N : Nat} {f : Polynomial (ZMod 2)}
    (hf : f.natDegree ≤ N) : (reflect N f).natDegree ≤ N := by
  apply natDegree_le_iff_coeff_eq_zero.mpr
  intro j hj
  rw [coeff_reflect, revAt_eq_self_of_lt hj]
  exact natDegree_le_iff_coeff_eq_zero.mp hf j (by omega)

theorem pval_monic (w v : Nat) (hw : 0 < w) (hv0 : v ≠ 0) (hlt : v < 2 ^ w) :
    (pval w v).Monic ∧ (pval w v).natDegree = deg w v := by
  rcases deg_spec w v hv0 hlt with ⟨hsplit, hodd⟩
  have hdle : deg w v ≤ w - 1 := deg_le w v
  set L := w - 1 - deg w v with hL
  set u := v >>> L with hu
  have hulow : u < 2 ^ (w - L) := by
    rw [hu, Nat.shiftRight_eq_div_pow]
    apply Nat.div_lt_of_lt_mul
    calc v < 2 ^ w := hlt
    _ = 2 ^ L * 2 ^ (w - L) := by rw [← pow_add]; congr 1; omega
  have hudeg : (natPoly u).natDegree ≤ deg w v := by
    have h1 := natPoly_natDegree_lt (n := u) (w := w - L) (by omega) hulow
    omega
  have hpv : pval w v = reflect (deg w v) (natPoly u) := by
    rw [pval]
    conv_lhs => rw [hsplit]
    rw [natPoly_two_pow_mul]
    rw [show w - 1 = deg w v + L from by omega]
    exact reflect_shift_absorb (deg w v) L (natPoly u) hudeg
  have hlead : (pval w v).coeff (deg w v) = 1 := by
    rw [hpv, coeff_reflect, revAt_le (le_refl _), Nat.sub_self, natPoly_coeff_zero, hodd]
    simp
  have hdeg : (pval w v).natDegree = deg w v := by
    apply le_antisymm
    · rw [hpv]
      exact natDegree_reflect_le hudeg
    · apply le_natDegree_of_ne_zero
      rw [hlead]
      exact one_ne_zero
  constructor
  · rw [Monic, leadingCoeff, hdeg, hlead]
  · exact hdeg

theorem deg_double (f x : Nat) : deg (f + 1) (2 * x) = deg f x := by
  rw [deg, degGo_succ]
  have h1 : 2 * x % 2 = 0 := by omega
  rw [if_neg (by omega)]
  have h2 : (2 * x) >>> 1 = x := by
    rw [Nat.shiftRight_eq_div_pow, pow_one]
    omega
  rw [h2, deg]

theorem deg_widen (w k v : Nat) : deg (w + k) (v <<< k) = deg w v := by
  induction k with
  | zero => simp
  | succ k ih =>
    have h1 : v <<< (k + 1) = 2 * (v <<< k) := by
      rw [Nat.shiftLeft_eq, Nat.shiftLeft_eq, pow_succ]
      ring
    rw [show w + (k + 1) = (w + k) + 1 from by omega, h1, deg_double]
    exact ih

theorem mod_two_pow_eq_zero_of_testBit (x k : Nat)
    (h : ∀ j, j < k → x.testBit j = false) : x % 2 ^ k = 0 := by
  apply Nat.eq_of_testBit_eq
  intro j
  rw [Nat.testBit_mod_two_pow, Nat.zero_testBit]
  by_cases hj : j < k
  · rw [h j hj]
    simp
  · simp [hj]

theorem reverse_u128_mod (qr k : Nat) (hk : k ≤ 128) (h : qr < 2 ^ (128 - k)) :
    reverse_u128 qr % 2 ^ k = 0 := by
  apply mod_two_pow_eq_zero_of_testBit
  intro j hj
  by_cases hb : (reverse_u128 qr).testBit j
  · rcases (reverse_u128_testBit qr j).mp hb with ⟨h1, h2⟩
    have hfalse : qr.testBit (127 - j) = false :=
      testBit_false_of_lt h (by omega)
    rw [hfalse] at h2
    exact absurd h2 (by simp)
  · simpa using hb

/-- The central bit-level fact: for a modulus of degree at least 1, rem128 and
div128 return the stored forms of a Euclidean division over GF(2)[X]. -/
theorem rem128_core (a m : Nat) (ha : a < 2 ^ 128) (hm : m < 2 ^ 128)
    (hm0 : m ≠ 0) (hd : 1 ≤ deg 128 m) :
    pval 128 a = pval 128 (div128 a m) * pval 128 m + pval 128 (rem128 a m) ∧
    rem128 a m % 2 ^ (128 - deg 128 m) = 0 ∧
    rem128 a m < 2 ^ 128 ∧
    (pval 128 (rem128 a m)).natDegree ≤ deg 128 m - 1 ∧
    (∃ qr, qr < 2 ^ 128 ∧ div128 a m = reverse_u128 qr ∧
      natPoly qr = pval 128 (div128 a m)) := by
  have hdle : deg 128 m ≤ 127 := deg_le 128 m
  set d := deg 128 m with hd_def
  set steps := 128 - d with hsteps_def
  set L := 127 - d with hL_def
  have hsmod : steps % 128 = steps := Nat.mod_eq_of_lt (by omega)
  have hLs : steps = L + 1 := by omega
  rcases deg_spec 128 m hm0 hm with ⟨hsplit, hodd⟩
  rw [show (128 : Nat) - 1 - deg 128 m = L from by omega] at hsplit hodd
  set u := m >>> L with hu_def
  have hub : u < 2 ^ (d + 1) := by
    by_contra hcon
    push_neg at hcon
    have h1 : 2 ^ L * 2 ^ (d + 1) ≤ 2 ^ L * u :=
      Nat.mul_le_mul_left _ hcon
    rw [← pow_add] at h1
    have h2 : L + (d + 1) = 128 := by omega
    rw [h2] at h1
    omega
  set mb := m >>> (steps % 128) with hmb_def
  have hmb : mb = u >>> 1 := by
    rw [hmb_def, hsmod, hu_def]
    rw [Nat.shiftRight_eq_div_pow, Nat.shiftRight_eq_div_pow,
      Nat.shiftRight_eq_div_pow, pow_one]
    rw [Nat.div_div_eq_div_mul, ← pow_succ, hLs]
  have hmb_lt : mb < 2 ^ d := by
    rw [hmb, Nat.shiftRight_eq_div_pow, pow_one]
    have h1 : 2 ^ (d + 1) = 2 ^ d * 2 := by rw [pow_succ]
    omega
  have hmu : (1 : Polynomial (ZMod 2)) + X * natPoly mb = natPoly u := by
    rw [hmb]
    have h1 := natPoly_decomp u
    rw [hodd] at h1
    rw [Nat.shiftRight_eq_div_pow, pow_one]
    rw [h1]
    norm_num
  rcases divSteps_spec mb steps (by omega) a 0 (by positivity) with
    ⟨q, qr, hq, hqr, hval, hrefl, heqn⟩
  set sf := remSteps mb a steps with hsf_def
  have hsf_lt : sf < 2 ^ d := by
    apply remSteps_lt mb d hmb_lt steps a
    have h1 : d + steps = 128 := by omega
    rw [h1]
    exact ha
  have hpow128 : 2 ^ d * 2 ^ steps = 2 ^ 128 := by
    rw [← pow_add]
    congr 1
    omega
  have hrem_eq : rem128 a m = sf * 2 ^ steps := by
    rw [rem128]
    rw [← hd_def, ← hsteps_def, ← hmb_def, ← hsf_def, hsmod]
    rw [Nat.shiftLeft_eq]
    apply Nat.mod_eq_of_lt
    calc sf * 2 ^ steps < 2 ^ d * 2 ^ steps := by
          apply Nat.mul_lt_mul_of_lt_of_le hsf_lt (le_refl _)
          positivity
    _ = 2 ^ 128 := hpow128
  have hdiv_eq : div128 a m = reverse_u128 qr := by
    rw [div128]
    rw [← hd_def, ← hsteps_def, ← hmb_def]
    rw [hval]
    norm_num
  have hqr128 : qr < 2 ^ 128 :=
    lt_of_lt_of_le hqr (Nat.pow_le_pow_right (by omega) (by omega))
  have hq_deg : (natPoly q).natDegree ≤ L := by
    have h1 := natPoly_natDegree_lt (n := q) (w := steps) (by omega) hq
    omega
  have hsf_deg : (natPoly sf).natDegree ≤ d - 1 := by
    have h1 := natPoly_natDegree_lt (n := sf) (w := d) (by omega) hsf_lt
    omega
  have hpdiv : pval 128 (div128 a m) = natPoly qr := by
    rw [hdiv_eq, pval, natPoly_reverse_u128 hqr128,
      show (128 : Nat) - 1 = 127 from rfl, reflect_reflect_self]
  have hmrem : natPoly (rem128 a m) = X ^ steps * natPoly sf := by
    rw [hrem_eq, mul_comm, natPoly_two_pow_mul]
  have hprem : pval 128 (rem128 a m) = reflect (d - 1) (natPoly sf) := by
    rw [pval, hmrem, show (128 : Nat) - 1 = (d - 1) + steps from by omega]
    exact reflect_shift_absorb (d - 1) steps (natPoly sf) hsf_deg
  have hpm : pval 128 m = reflect d (natPoly u) := by
    rw [pval]
    conv_lhs => rw [hsplit]
    rw [natPoly_two_pow_mul, show (128 : Nat) - 1 = d + L from by omega]
    apply reflect_shift_absorb
    have h1 := natPoly_natDegree_lt (n := u) (w := d + 1) (by omega) hub
    omega
  have hmm : natPoly m = X ^ L * natPoly u := by
    conv_lhs => rw [hsplit]
    rw [natPoly_two_pow_mul]
  -- main equation, scaled by X^L
  have hE : X ^ L * natPoly (rem128 a m) =
      X ^ L * natPoly a + natPoly q * natPoly m := by
    rw [hmrem, hmm]
    rw [hmu] at heqn
    calc X ^ L * (X ^ steps * natPoly sf)
        = X ^ L * (X ^ steps * natPoly (remSteps mb a steps)) := by rw [hsf_def]
    _ = X ^ L * (natPoly a + natPoly q * natPoly u) := by rw [heqn]
    _ = X ^ L * natPoly a + natPoly q * (X ^ L * natPoly u) := by ring
  -- reflect the equation at index 127 + L
  have hrem_lt : rem128 a m < 2 ^ 128 := by
    rw [hrem_eq]
    calc sf * 2 ^ steps < 2 ^ d * 2 ^ steps := by
          apply Nat.mul_lt_mul_of_lt_of_le hsf_lt (le_refl _)
          positivity
    _ = 2 ^ 128 := hpow128
  have hrefl2 : reflect L (natPoly q) = natPoly qr := by
    rw [hrefl]
    congr 1
    omega
  have hEr := congrArg (reflect (127 + L)) hE
  rw [reflect_add] at hEr
  rw [show (127 : Nat) + L = 127 + L from rfl] at hEr
  have habs1 : reflect (127 + L) (X ^ L * natPoly (rem128 a m)) =
      reflect 127 (natPoly (rem128 a m)) := by
    rw [show (127 : Nat) + L = 127 + L from rfl, add_comm 127 L]
    rw [show L + 127 = 127 + L from by omega]
    exact reflect_shift_absorb 127 L _ (by
      have h1 := natPoly_natDegree_lt (n := rem128 a m) (w := 128) (by omega) hrem_lt
      omega)
  have habs2 : reflect (127 + L) (X ^ L * natPoly a) = reflect 127 (natPoly a) := by
    exact reflect_shift_absorb 127 L _ (by
      have h1 := natPoly_natDegree_lt (n := a) (w := 128) (by omega) ha
      omega)
  have hmul : reflect (127 + L) (natPoly q * natPoly m) =
      reflect L (natPoly q) * reflect 127 (natPoly m) := by
    rw [mul_comm (natPoly q) (natPoly m), reflect_mul (natPoly m) (natPoly q)
      (by
        have h1 := natPoly_natDegree_lt (n := m) (w := 128) (by omega) hm
        omega) hq_deg]
    ring
  rw [habs1, habs2, hmul, hrefl2] at hEr
  have hEr2 : pval 128 (rem128 a m) =
      pval 128 a + pval 128 (div128 a m) * pval 128 m := by
    rw [pval, pval, hpdiv]
    rw [show (128 : Nat) - 1 = 127 from rfl]
    rw [hEr]
    rw [pval, show (128 : Nat) - 1 = 127 from rfl]
  refine ⟨?_, ?_, hrem_lt, ?_, ⟨qr, hqr128, hdiv_eq, hpdiv.symm⟩⟩
  · have h1 := poly2_add_cancel (a := pval 128 (rem128 a m))
      (b := pval 128 a) (c := pval 128 (div128 a m) * pval 128 m) hEr2
    rw [h1]
    ring
  · show rem128 a m % 2 ^ (128 - deg 128 m) = 0
    rw [hrem_eq, show 128 - deg 128 m = steps from by omega]
    exact Nat.mul_mod_left _ _
  · rw [hprem]
    exact natDegree_reflect_le hsf_deg


/-! ## Euclidean division wrappers at each width -/

theorem degGo_zero_val : ∀ f : Nat, degGo 0 f = 0 := by
  intro f
  induction f with
  | zero => rfl
  | succ f ih =>
    rw [degGo_succ]
    simpa using ih

theorem deg_zero_stored (w : Nat) : deg w 0 = 0 := degGo_zero_val w

theorem ne_zero_of_deg_pos {w m : Nat} (hd : 1 ≤ deg w m) : m ≠ 0 := by
  intro h0
  rw [h0, deg_zero_stored] at hd
  omega

theorem rem128_modByMonic (a m : Nat) (ha : a < 2 ^ 128) (hm : m < 2 ^ 128)
    (hm0 : m ≠ 0) (hd : 1 ≤ deg 128 m) :
    pval 128 (rem128 a m) = pval 128 a %ₘ pval 128 m ∧
    pval 128 (div128 a m) = pval 128 a /ₘ pval 128 m := by
  obtain ⟨hid, hmod, hrlt, hdeg, _⟩ := rem128_core a m ha hm hm0 hd
  obtain ⟨hmon, hmdeg⟩ := pval_monic 128 m (by omega) hm0 hm
  have hm_ne : pval 128 m ≠ 0 := hmon.ne_zero
  have hdegree : (pval 128 (rem128 a m)).degree < (pval 128 m).degree := by
    rw [degree_eq_natDegree hm_ne, hmdeg]
    by_cases h0 : pval 128 (rem128 a m) = 0
    · rw [h0, degree_zero]
      exact WithBot.bot_lt_coe _
    · rw [degree_eq_natDegree h0]
      exact_mod_cast (by omega : (pval 128 (rem128 a m)).natDegree < deg 128 m)
  have huniq := div_modByMonic_unique (f := pval 128 a) (g := pval 128 m)
    (pval 128 (div128 a m)) (pval 128 (rem128 a m)) hmon
    ⟨by rw [hid]; ring, hdegree⟩
  exact ⟨huniq.2.symm, huniq.1.symm⟩

theorem widen_64_128_deg (m : Nat) : deg 128 (widen_64_128 m) = deg 64 m := by
  rw [widen_64_128, show (128 : Nat) = 64 + 64 from rfl]
  exact deg_widen 64 64 m

theorem widen_64_128_ne_zero {m : Nat} (hm0 : m ≠ 0) : widen_64_128 m ≠ 0 := by
  rw [widen_64_128, Nat.shiftLeft_eq]
  positivity

theorem lt_two_pow_of_natDegree_le {n k : Nat}
    (h : (natPoly n).natDegree ≤ k) : n < 2 ^ (k + 1) := by
  apply lt_two_pow_of_natPoly
  intro j hj
  exact natDegree_le_iff_coeff_eq_zero.mp h j (by omega)

/-- Rem<Polynomial<u64>> for Polynomial<u128>: bound, cleared low bits and
polynomial meaning, for a modulus of degree at least 1. -/
theorem rem_128_64_spec (x m : Nat) (hx : x < 2 ^ 128) (hm : m < 2 ^ 64)
    (hd : 1 ≤ deg 64 m) :
    rem_128_64 x m < 2 ^ 64 ∧
    rem_128_64 x m % 2 ^ (64 - deg 64 m) = 0 ∧
    pval 64 (rem_128_64 x m) = pval 128 x %ₘ pval 64 m := by
  have hm0 : m ≠ 0 := ne_zero_of_deg_pos hd
  have hdle : deg 64 m ≤ 63 := deg_le 64 m
  have hM_lt : widen_64_128 m < 2 ^ 128 := widen_64_128_lt hm
  have hM_ne : widen_64_128 m ≠ 0 := widen_64_128_ne_zero hm0
  have hMdeg : deg 128 (widen_64_128 m) = deg 64 m := widen_64_128_deg m
  obtain ⟨hid, hmod, hrlt, hdeg2, _⟩ :=
    rem128_core x (widen_64_128 m) hx hM_lt hM_ne (by omega)
  obtain ⟨hmm, _⟩ := rem128_modByMonic x (widen_64_128 m) hx hM_lt hM_ne (by omega)
  rw [hMdeg] at hmod
  have hsplit : 2 ^ (128 - deg 64 m) = 2 ^ 64 * 2 ^ (64 - deg 64 m) := by
    rw [← pow_add]
    congr 1
    omega
  obtain ⟨k, hk⟩ := Nat.dvd_of_mod_eq_zero hmod
  have hz64 : rem128 x (widen_64_128 m) % 2 ^ 64 = 0 := by
    rw [hk, hsplit, mul_assoc]
    exact Nat.mul_mod_right _ _
  have hval : rem_128_64 x m = rem128 x (widen_64_128 m) >>> 64 := rfl
  refine ⟨?_, ?_, ?_⟩
  · rw [hval, Nat.shiftRight_eq_div_pow]
    have h1 : (2 : Nat) ^ 128 = 2 ^ 64 * 2 ^ 64 := by norm_num
    apply Nat.div_lt_of_lt_mul
    omega
  · rw [hval, hk, hsplit, mul_assoc, Nat.shiftRight_eq_div_pow]
    rw [Nat.mul_div_cancel_left _ (by positivity)]
    exact Nat.mul_mod_right _ _
  · rw [hval, pval_unwiden_128_64 hrlt hz64, hmm, pval_widen_64_128 hm]

/-- Rem<Polynomial<u64>> for Polynomial<u64>. -/
theorem rem_64_64_spec (a m : Nat) (ha : a < 2 ^ 64) (hm : m < 2 ^ 64)
    (hd : 1 ≤ deg 64 m) :
    rem_64_64 a m < 2 ^ 64 ∧
    rem_64_64 a m % 2 ^ (64 - deg 64 m) = 0 ∧
    pval 64 (rem_64_64 a m) = pval 64 a %ₘ pval 64 m := by
  have hval : rem_64_64 a m = rem_128_64 (widen_64_128 a) m := rfl
  obtain ⟨h1, h2, h3⟩ := rem_128_64_spec (widen_64_128 a) m (widen_64_128_lt ha) hm hd
  rw [pval_widen_64_128 ha] at h3
  exact ⟨by rw [hval]; exact h1, by rw [hval]; exact h2, by rw [hval]; exact h3⟩

/-- Div<T> for Polynomial<u64>. -/
theorem div_64_64_spec (a m : Nat) (ha : a < 2 ^ 64) (hm : m < 2 ^ 64)
    (hd : 1 ≤ deg 64 m) :
    div_64_64 a m < 2 ^ 64 ∧
    pval 64 (div_64_64 a m) = pval 64 a /ₘ pval 64 m := by
  have hm0 : m ≠ 0 := ne_zero_of_deg_pos hd
  have hdle : deg 64 m ≤ 63 := deg_le 64 m
  have hA_lt : widen_64_128 a < 2 ^ 128 := widen_64_128_lt ha
  have hM_lt : widen_64_128 m < 2 ^ 128 := widen_64_128_lt hm
  have hM_ne : widen_64_128 m ≠ 0 := widen_64_128_ne_zero hm0
  have hMdeg : deg 128 (widen_64_128 m) = deg 64 m := widen_64_128_deg m
  obtain ⟨hid, _, _, hdeg2, qr, hqr128, hdiv_eq, hqrval⟩ :=
    rem128_core (widen_64_128 a) (widen_64_128 m) hA_lt hM_lt hM_ne (by omega)
  obtain ⟨_, hdivm⟩ :=
    rem128_modByMonic (widen_64_128 a) (widen_64_128 m) hA_lt hM_lt hM_ne (by omega)
  obtain ⟨hmon, hmdeg⟩ := pval_monic 128 (widen_64_128 m) (by omega) hM_ne hM_lt
  have hAdeg : (pval 128 (widen_64_128 a)).natDegree ≤ 63 := by
    rw [pval_widen_64_128 ha]
    exact pval_natDegree_le ha
  have hQdeg : (pval 128 (div128 (widen_64_128 a) (widen_64_128 m))).natDegree ≤ 63 := by
    set Q := pval 128 (div128 (widen_64_128 a) (widen_64_128 m)) with hQ_def
    by_cases hQ0 : Q = 0
    · rw [hQ0]
      simp
    · have hQM : Q * pval 128 (widen_64_128 m) =
          pval 128 (widen_64_128 a) + pval 128 (rem128 (widen_64_128 a) (widen_64_128 m)) := by
        have h1 := poly2_add_cancel (a := pval 128 (widen_64_128 a))
          (b := Q * pval 128 (widen_64_128 m))
          (c := pval 128 (rem128 (widen_64_128 a) (widen_64_128 m)))
          (by rw [hid])
        exact h1
      have hQMdeg : (Q * pval 128 (widen_64_128 m)).natDegree ≤ 63 := by
        rw [hQM]
        apply le_trans (natDegree_add_le _ _)
        have h2 : (pval 128 (rem128 (widen_64_128 a) (widen_64_128 m))).natDegree ≤ 62 := by
          rw [hMdeg] at hdeg2
          omega
        omega
      have hmul : (Q * pval 128 (widen_64_128 m)).natDegree =
          Q.natDegree + (pval 128 (widen_64_128 m)).natDegree :=
        natDegree_mul hQ0 hmon.ne_zero
      rw [hmul, hmdeg, hMdeg] at hQMdeg
      omega
  have hqr_deg : (natPoly qr).natDegree ≤ 63 := by
    rw [hqrval]
    exact hQdeg
  have hqr64 : qr < 2 ^ 64 := lt_two_pow_of_natDegree_le hqr_deg
  have hz64 : div128 (widen_64_128 a) (widen_64_128 m) % 2 ^ 64 = 0 := by
    rw [hdiv_eq]
    exact reverse_u128_mod qr 64 (by omega) (by simpa using hqr64)
  have ho_lt : div128 (widen_64_128 a) (widen_64_128 m) < 2 ^ 128 := by
    rw [hdiv_eq]
    exact reverse_u128_lt qr
  have hval : div_64_64 a m = div128 (widen_64_128 a) (widen_64_128 m) >>> 64 := rfl
  refine ⟨?_, ?_⟩
  · rw [hval, Nat.shiftRight_eq_div_pow]
    apply Nat.div_lt_of_lt_mul
    have h1 : (2 : Nat) ^ 128 = 2 ^ 64 * 2 ^ 64 := by norm_num
    omega
  · rw [hval, pval_unwiden_128_64 ho_lt hz64, hdivm,
      pval_widen_64_128 ha, pval_widen_64_128 hm]

/-! ## Multiplication semantics and degenerate moduli -/

theorem mul64_fold (a b : Nat) : ∀ (n : Nat),
    natPoly ((List.range n).foldl
      (fun res k => if (a >>> k) &&& 1 == 1 then res ^^^ (b <<< (k + 1)) else res) 0)
    = X * natPoly (a % 2 ^ n) * natPoly b := by
  intro n
  induction n with
  | zero =>
    simp [natPoly_zero, Nat.mod_one]
  | succ n ih =>
    rw [List.range_succ, List.foldl_append, List.foldl_cons, List.foldl_nil]
    have hmod : a % 2 ^ (n + 1) = 2 ^ n * (a / 2 ^ n % 2) + a % 2 ^ n := by
      rw [Nat.mod_pow_succ]
      ring
    have hmp : natPoly (a % 2 ^ (n + 1)) =
        X ^ n * natPoly (a / 2 ^ n % 2) + natPoly (a % 2 ^ n) := by
      rw [hmod]
      exact natPoly_two_pow_mul_add n _ _ (Nat.mod_lt _ (by positivity))
    by_cases hbit : a / 2 ^ n % 2 = 1
    · have hcond : ((a >>> n) &&& 1 == 1) = true := by
        rw [Nat.and_one_is_mod, Nat.shiftRight_eq_div_pow]
        exact beq_iff_eq.mpr hbit
      rw [hcond, if_pos rfl, natPoly_xor, ih, natPoly_shiftLeft, hmp, hbit,
        natPoly_one]
      ring
    · have hb0 : a / 2 ^ n % 2 = 0 := by omega
      have hcond : ((a >>> n) &&& 1 == 1) = false := by
        rw [Nat.and_one_is_mod, Nat.shiftRight_eq_div_pow]
        simp [hb0]
      rw [hcond]
      simp only [Bool.false_eq_true, if_false]
      rw [ih, hmp, hb0, natPoly_zero]
      ring

theorem mul64_eq {a : Nat} (b : Nat) (ha : a < 2 ^ 64) :
    natPoly (mul64 a b) = X * natPoly a * natPoly b := by
  rw [mul64, mul64_fold a b 64, Nat.mod_eq_of_lt ha]

theorem mul64_lt {a b : Nat} (ha : a < 2 ^ 64) (hb : b < 2 ^ 64) :
    mul64 a b < 2 ^ 128 := by
  apply lt_two_pow_of_natDegree_le (k := 127)
  rw [mul64_eq b ha]
  apply le_trans natDegree_mul_le
  have h1 : (X * natPoly a).natDegree ≤ 64 := by
    apply le_trans natDegree_mul_le
    have h2 : (X : Polynomial (ZMod 2)).natDegree = 1 := natDegree_X
    have h3 := natPoly_natDegree_le (n := a) (w := 64) (by omega) ha
    omega
  have h4 := natPoly_natDegree_le (n := b) (w := 64) (by omega) hb
  omega

theorem pval_mul64 {a b : Nat} (ha : a < 2 ^ 64) (hb : b < 2 ^ 64) :
    pval 128 (mul64 a b) = pval 64 a * pval 64 b := by
  rw [pval, mul64_eq b ha]
  have hab : (natPoly a * natPoly b).natDegree ≤ 126 := by
    apply le_trans natDegree_mul_le
    have h1 := natPoly_natDegree_le (n := a) (w := 64) (by omega) ha
    have h2 := natPoly_natDegree_le (n := b) (w := 64) (by omega) hb
    omega
  have hX : X * natPoly a * natPoly b = X ^ 1 * (natPoly a * natPoly b) := by
    ring
  rw [show (128 : Nat) - 1 = 126 + 1 from rfl, hX,
    reflect_shift_absorb 126 1 _ hab,
    show (126 : Nat) = 63 + 63 from rfl,
    reflect_mul (natPoly a) (natPoly b)
      (natPoly_natDegree_le (by omega) ha) (natPoly_natDegree_le (by omega) hb)]
  rw [pval, pval]

theorem mul64_zero_left (b : Nat) : mul64 0 b = 0 := by
  rw [← natPoly_eq_zero_iff, mul64_eq b (by positivity), natPoly_zero]
  ring

theorem rem128_unfold (a m : Nat) : rem128 a m =
    ((remSteps (m >>> ((128 - deg 128 m) % 128)) a (128 - deg 128 m)) <<<
      ((128 - deg 128 m) % 128)) % 2 ^ 128 := rfl

theorem div128_unfold (a m : Nat) : div128 a m =
    reverse_u128 (divSteps (m >>> ((128 - deg 128 m) % 128)) a 0 (128 - deg 128 m)).2 := rfl

theorem rem128_zero_left (m : Nat) : rem128 0 m = 0 := by
  rw [rem128_unfold, remSteps_zero_val]
  simp

theorem rem_128_64_zero_left (m : Nat) : rem_128_64 0 m = 0 := by
  rw [rem_128_64, rem128_zero_left]
  simp

/-- 128 steps against modulo bits 2^127 rotate the 128-bit register. -/
theorem remSteps_rot : ∀ (f : Nat), f ≤ 128 → ∀ s, s < 2 ^ 128 →
    remSteps (2 ^ 127) s f = s >>> f + (s % 2 ^ f) * 2 ^ (128 - f) := by
  intro f
  induction f with
  | zero =>
    intro _ s hs
    simp [remSteps]
    omega
  | succ f ih =>
    intro hf s hs
    have hhalf : s >>> 1 = s / 2 := by
      rw [Nat.shiftRight_eq_div_pow, pow_one]
    have hlt : s >>> 1 < 2 ^ 127 := by
      rw [hhalf]
      have h2 : (2 : Nat) ^ 128 = 2 ^ 127 * 2 := by norm_num
      omega
    have hstep : remSteps (2 ^ 127) s (f + 1) =
        remSteps (2 ^ 127) (s >>> 1 + s % 2 * 2 ^ 127) f := by
      rcases Nat.mod_two_eq_zero_or_one s with h | h
      · rw [remSteps_succ_even _ _ _ h, h]
        norm_num
      · rw [remSteps_succ_odd _ _ _ h, h]
        congr 1
        have hx : (2 : Nat) ^ 127 = 1 <<< 127 := by
          rw [Nat.shiftLeft_eq]
          ring
        rw [hx, xor_shift_add hlt]
        omega
    set t := s >>> 1 + s % 2 * 2 ^ 127 with ht_def
    have htlt : t < 2 ^ 128 := by
      have h2 : (2 : Nat) ^ 128 = 2 ^ 127 * 2 := by norm_num
      have h3 : s % 2 ≤ 1 := by omega
      calc t = s >>> 1 + s % 2 * 2 ^ 127 := ht_def
      _ ≤ 2 ^ 127 - 1 + 1 * 2 ^ 127 := by
          apply Nat.add_le_add
          · omega
          · exact Nat.mul_le_mul_right _ h3
      _ < 2 ^ 128 := by omega
    rw [hstep, ih (by omega) t htlt]
    -- now rearrange the arithmetic
    have hp127 : (2 : Nat) ^ 127 = 2 ^ f * 2 ^ (127 - f) := by
      rw [← pow_add]
      congr 1
      omega
    have htr : t >>> f = s >>> (f + 1) + s % 2 * 2 ^ (127 - f) := by
      rw [Nat.shiftRight_eq_div_pow, ht_def, hhalf, Nat.shiftRight_eq_div_pow]
      rw [hp127, show s % 2 * (2 ^ f * 2 ^ (127 - f)) = s % 2 * 2 ^ (127 - f) * 2 ^ f
        from by ring]
      rw [Nat.add_mul_div_right _ _ (by positivity)]
      rw [Nat.div_div_eq_div_mul, ← pow_succ']
    have htm : t % 2 ^ f = (s / 2) % 2 ^ f := by
      rw [ht_def, hhalf, hp127,
        show s % 2 * (2 ^ f * 2 ^ (127 - f)) = s % 2 * 2 ^ (127 - f) * 2 ^ f
          from by ring]
      rw [Nat.add_mul_mod_self_right]
    have hsm : s % 2 ^ (f + 1) = s % 2 + 2 * (s / 2 % 2 ^ f) := by
      have h1 : s / 2 % 2 ^ f = s % (2 * 2 ^ f) / 2 := Nat.div_mod_eq_mod_mul_div s 2 (2 ^ f)
      have h2 : (2 : Nat) * 2 ^ f = 2 ^ (f + 1) := by
        rw [pow_succ]
        ring
      rw [h1, h2]
      have h3 : s % 2 ^ (f + 1) % 2 = s % 2 := by
        apply Nat.mod_mod_of_dvd
        exact dvd_pow_self 2 (by omega)
      omega
    rw [htr, htm, hsm]
    have hrw : 2 ^ (128 - f) = 2 * 2 ^ (128 - (f + 1)) := by
      rw [← pow_succ']
      congr 1
      omega
    have hrw2 : (127 : Nat) - f = 128 - (f + 1) := by omega
    rw [hrw, hrw2]
    ring

theorem poly_one_add_X128_ne : (1 : Polynomial (ZMod 2)) + X ^ 128 ≠ 0 := by
  intro h
  have h1 := congrArg (fun p => Polynomial.coeff p 0) h
  simp only [coeff_add, coeff_one, coeff_X_pow, coeff_zero] at h1
  norm_num at h1

theorem deg_two_pow_127 : deg 128 (2 ^ 127) = 0 := by decide

theorem widen_one64 : widen_64_128 one64 = 2 ^ 127 := by
  rw [one64_eq, widen_64_128, Nat.shiftLeft_eq]
  norm_num

theorem rem128_one_mod {a : Nat} (ha : a < 2 ^ 128) : rem128 a (2 ^ 127) = a := by
  rw [rem128_unfold, deg_two_pow_127]
  simp only [Nat.sub_zero, Nat.mod_self, Nat.shiftRight_zero, Nat.shiftLeft_zero]
  rw [remSteps_rot 128 (le_refl _) a ha]
  have h1 : a >>> 128 = 0 := by
    rw [Nat.shiftRight_eq_div_pow]
    apply Nat.div_eq_of_lt ha
  rw [h1, Nat.mod_eq_of_lt ha]
  simp only [Nat.sub_self, pow_zero, Nat.mul_one, Nat.zero_add]
  exact Nat.mod_eq_of_lt ha

theorem rem_64_64_one {a : Nat} (ha : a < 2 ^ 64) : rem_64_64 a one64 = a := by
  rw [rem_64_64, widen_one64, rem128_one_mod (widen_64_128_lt ha)]
  rw [widen_64_128, Nat.shiftLeft_eq, Nat.shiftRight_eq_div_pow]
  exact Nat.mul_div_cancel _ (by positivity)

theorem div_64_64_one {a : Nat} (ha : a < 2 ^ 64) : div_64_64 a one64 = a := by
  have hA : widen_64_128 a < 2 ^ 128 := widen_64_128_lt ha
  rcases divSteps_spec (2 ^ 127) 128 (le_refl _) (widen_64_128 a) 0 (by norm_num) with
    ⟨q, qr, hq, hqr, hval, hrefl, heqn⟩
  rw [remSteps_rot 128 (le_refl _) _ hA] at heqn
  have h1 : widen_64_128 a >>> 128 = 0 := by
    rw [Nat.shiftRight_eq_div_pow]
    exact Nat.div_eq_of_lt hA
  rw [h1, Nat.mod_eq_of_lt hA] at heqn
  simp only [Nat.sub_self, pow_zero, Nat.mul_one, Nat.zero_add] at heqn
  rw [natPoly_two_pow] at heqn
  have hXp : (X : Polynomial (ZMod 2)) * X ^ 127 = X ^ 128 := by
    rw [← pow_succ']
  rw [hXp] at heqn
  have hqA : natPoly q = natPoly (widen_64_128 a) := by
    have hc : ((1 : Polynomial (ZMod 2)) + X ^ 128) ≠ 0 := poly_one_add_X128_ne
    apply mul_right_cancel₀ hc
    have h4 : X ^ 128 * natPoly (widen_64_128 a) =
        natPoly q * (1 + X ^ 128) + natPoly (widen_64_128 a) := by
      rw [heqn]
      ring
    have h5 := poly2_add_cancel h4
    rw [h5]
    ring
  have hwiden : natPoly (widen_64_128 a) = X ^ 64 * natPoly a := by
    rw [widen_64_128, natPoly_shiftLeft]
  have hrefl2 : natPoly qr = reflect 63 (natPoly a) := by
    rw [hrefl, hqA, hwiden, show (128 : Nat) - 1 = 63 + 64 from rfl]
    exact reflect_shift_absorb 63 64 _ (natPoly_natDegree_le (by omega) ha)
  have hqr_deg : (natPoly qr).natDegree ≤ 63 := by
    rw [hrefl2]
    exact natDegree_reflect_le (natPoly_natDegree_le (by omega) ha)
  have hqr64 : qr < 2 ^ 64 := lt_two_pow_of_natDegree_le hqr_deg
  have hout : div_64_64 a one64 = reverse_u128 qr >>> 64 := by
    rw [div_64_64, widen_one64, div128_unfold, deg_two_pow_127]
    simp only [Nat.sub_zero, Nat.mod_self, Nat.shiftRight_zero]
    rw [hval]
    simp
  apply pval_inj (w := 64)
  rw [hout, pval_unwiden_128_64 (reverse_u128_lt qr)
    (reverse_u128_mod qr 64 (by omega) (by simpa using hqr64))]
  rw [pval, natPoly_reverse_u128 (lt_of_lt_of_le hqr64 (by norm_num)),
    show (128 : Nat) - 1 = 127 from rfl, reflect_reflect_self, hrefl2, pval]


/-! ### inv_mod: the extended Euclidean loop over GF(2)[X] -/

theorem invModLoop_fuel_zero (p a b vn vn1 : Nat) :
    invModLoop p a b vn vn1 0 = .error Error.NonInvertibleError := rfl

theorem invModLoop_b_zero (p a vn vn1 f : Nat) :
    invModLoop p a 0 vn vn1 (f + 1) = .error Error.NonInvertibleError := by
  simp [invModLoop]

theorem invModLoop_ret (p a b vn vn1 f : Nat) (hb : b ≠ 0)
    (hr : rem_64_64 a b = one64) :
    invModLoop p a b vn vn1 (f + 1) =
      .ok (rem_64_64 (vn ^^^ rem_128_64 (mul64 vn1 (div_64_64 a b)) p) p) := by
  simp [invModLoop, hb, hr]

theorem invModLoop_cont (p a b vn vn1 f : Nat) (hb : b ≠ 0)
    (hr : rem_64_64 a b ≠ one64) :
    invModLoop p a b vn vn1 (f + 1) =
      invModLoop p b (rem_64_64 a b) vn1
        (vn ^^^ rem_128_64 (mul64 vn1 (div_64_64 a b)) p) f := by
  simp [invModLoop, hb, hr]

/-- A 64-bit stored value of degree 0 is exactly the stored constant 1. -/
theorem one64_of_deg_zero {b : Nat} (hb : b < 2 ^ 64) (hb0 : b ≠ 0)
    (hd : deg 64 b = 0) : b = one64 := by
  obtain ⟨hsplit, hodd⟩ := deg_spec 64 b hb0 hb
  rw [hd] at hsplit hodd
  norm_num at hsplit hodd
  rw [Nat.shiftRight_eq_div_pow] at hsplit hodd
  have hlt2 : b / 2 ^ 63 < 2 :=
    (Nat.div_lt_iff_lt_mul (by positivity)).mpr (lt_of_lt_of_le hb (by norm_num))
  have h1 : b / 2 ^ 63 = 1 := by omega
  rw [h1, mul_one] at hsplit
  rw [one64_eq]
  omega

/-- A nonzero 64-bit stored value other than the stored 1 has degree >= 1. -/
theorem deg64_pos {b : Nat} (hb : b < 2 ^ 64) (hb0 : b ≠ 0) (hb1 : b ≠ one64) :
    1 ≤ deg 64 b := by
  by_contra h
  push_neg at h
  exact hb1 (one64_of_deg_zero hb hb0 (by omega))

/-- In characteristic 2 a monic modulus divides any value plus its remainder. -/
theorem poly2_dvd_add_modByMonic (f g : Polynomial (ZMod 2)) (hg : g.Monic) :
    g ∣ (f + f %ₘ g) := by
  refine ⟨f /ₘ g, ?_⟩
  have h1 := modByMonic_eq_sub_mul_div f hg
  have h2 := poly2_add_self (1 : Polynomial (ZMod 2))
  linear_combination h1 + (f - g * (f /ₘ g)) * h2

theorem eq_zero_of_dvd_of_deg_lt {P r : Polynomial (ZMod 2)} (hd : P ∣ r)
    (hlt : r.natDegree < P.natDegree) : r = 0 := by
  by_contra h0
  exact absurd (natDegree_le_of_dvd hd h0) (by omega)

theorem not_isCoprime_of_common_divisor {S P A : Polynomial (ZMod 2)}
    (hA : 1 ≤ A.natDegree) (hS : A ∣ S) (hP : A ∣ P) : ¬ IsCoprime S P := by
  rintro ⟨u, v, huv⟩
  have h1 : A ∣ (1 : Polynomial (ZMod 2)) :=
    huv ▸ dvd_add (Dvd.dvd.mul_left hS u) (Dvd.dvd.mul_left hP v)
  have h2 := natDegree_le_of_dvd h1 one_ne_zero
  rw [natDegree_one] at h2
  omega

theorem one_modByMonic {Pm : Polynomial (ZMod 2)} (hmon : Pm.Monic)
    (hdeg : 1 ≤ Pm.natDegree) : (1 : Polynomial (ZMod 2)) %ₘ Pm = 1 := by
  apply (modByMonic_eq_self_iff hmon).mpr
  rw [degree_one, degree_eq_natDegree hmon.ne_zero]
  exact_mod_cast hdeg

/-- If a monic non-constant modulus divides r + 1 then r mod the modulus is 1. -/
theorem modByMonic_eq_one_of_dvd {Pm r : Polynomial (ZMod 2)} (hmon : Pm.Monic)
    (hdeg : 1 ≤ Pm.natDegree) (hdvd : Pm ∣ (r + 1)) : r %ₘ Pm = 1 := by
  have h2 := poly2_add_self (1 : Polynomial (ZMod 2))
  have hP1 : Pm ≠ 1 := by
    intro h
    rw [h, natDegree_one] at hdeg
    omega
  have hkey : r %ₘ Pm + 1 = (r + 1) + (r + r %ₘ Pm) := by
    linear_combination (-r) * h2
  have hdvd2 : Pm ∣ (r %ₘ Pm + 1) := by
    rw [hkey]
    exact dvd_add hdvd (poly2_dvd_add_modByMonic r Pm hmon)
  have hlt : (r %ₘ Pm + 1).natDegree < Pm.natDegree := by
    apply lt_of_le_of_lt (natDegree_add_le _ _)
    rw [natDegree_one]
    simp only [max_le_iff, Nat.max_lt]
    exact ⟨natDegree_modByMonic_lt r hmon hP1, by omega⟩
  have hz := eq_zero_of_dvd_of_deg_lt hdvd2 hlt
  linear_combination hz - h2

/-- Multiplying by the stored 1 widens: its only set monomial is X^63 and the
mul loop shifts by k + 1 = 64. -/
theorem mul64_one64 (b : Nat) : mul64 one64 b = widen_64_128 b := by
  apply natPoly_inj
  rw [mul64_eq b (by rw [one64_eq]; norm_num), one64_eq, natPoly_two_pow,
    widen_64_128, natPoly_shiftLeft, ← pow_succ']

theorem deg_one64_val : deg 64 one64 = 0 := by decide

theorem one64_lt : one64 < 2 ^ 64 := by rw [one64_eq]; norm_num

/-- Loop invariant of Polynomial::<u64>::inv_mod.  With Pm the meaning of the
modulus and S any polynomial for which the two Bezout certificates hold, the
loop either reports NonInvertibleError (and S, Pm are then genuinely not
coprime) or returns a stored value res with Pm dividing S * res + 1. -/
theorem invModLoop_spec (p : Nat) (hp : p < 2 ^ 64) (hdp : 1 ≤ deg 64 p)
    (S : Polynomial (ZMod 2)) :
    ∀ fuel a b vn vn1 : Nat,
    a < 2 ^ 64 → b < 2 ^ 64 → vn < 2 ^ 64 → vn1 < 2 ^ 64 →
    1 ≤ deg 64 a → b ≠ one64 → deg 64 b + 2 ≤ fuel →
    pval 64 p ∣ (pval 64 vn * S + pval 64 a) →
    pval 64 p ∣ (pval 64 vn1 * S + pval 64 b) →
    (∀ d : Polynomial (ZMod 2),
      (d ∣ S ∧ d ∣ pval 64 p) ↔ (d ∣ pval 64 a ∧ d ∣ pval 64 b)) →
    (∀ e, invModLoop p a b vn vn1 fuel = .error e →
      e = Error.NonInvertibleError ∧ ¬ IsCoprime S (pval 64 p)) ∧
    (∀ res, invModLoop p a b vn vn1 fuel = .ok res →
      res < 2 ^ 64 ∧ res % 2 ^ (64 - deg 64 p) = 0 ∧
      pval 64 p ∣ (S * pval 64 res + 1)) := by
  have hp0 : p ≠ 0 := ne_zero_of_deg_pos hdp
  obtain ⟨hmonP, hdegP⟩ := pval_monic 64 p (by omega) hp0 hp
  have h2 := poly2_add_self (1 : Polynomial (ZMod 2))
  intro fuel
  induction fuel with
  | zero =>
    intro a b vn vn1 _ _ _ _ _ _ hfuel _ _ _
    exact absurd hfuel (by omega)
  | succ f ih =>
    intro a b vn vn1 ha hb hvn hvn1 hdega hbone hfuel hbez1 hbez2 hcd
    by_cases hb0 : b = 0
    · subst hb0
      have ha0 : a ≠ 0 := ne_zero_of_deg_pos hdega
      have hncop : ¬ IsCoprime S (pval 64 p) := by
        have hA := (pval_monic 64 a (by omega) ha0 ha).2
        have hdvd := (hcd (pval 64 a)).mpr
          ⟨dvd_refl _, by rw [pval_zero]; exact dvd_zero _⟩
        exact not_isCoprime_of_common_divisor (by omega) hdvd.1 hdvd.2
      constructor
      · intro e he
        rw [invModLoop_b_zero] at he
        injection he with h
        exact ⟨h.symm, hncop⟩
      · intro res hres
        rw [invModLoop_b_zero] at hres
        exact Except.noConfusion hres
    · -- b ≠ 0: a full division step
      have hdegb : 1 ≤ deg 64 b := deg64_pos hb hb0 hbone
      obtain ⟨hmonB, hdegB⟩ := pval_monic 64 b (by omega) hb0 hb
      obtain ⟨hqlt, hqval⟩ := div_64_64_spec a b ha hb hdegb
      obtain ⟨hrlt, _, hrval⟩ := rem_64_64_spec a b ha hb hdegb
      have hPRle := rem_128_64_spec (mul64 vn1 (div_64_64 a b)) p
        (mul64_lt hvn1 hqlt) hp hdp
      obtain ⟨hPRlt, _, hPRval⟩ := hPRle
      rw [pval_mul64 hvn1 hqlt] at hPRval
      have hprod_dvd : pval 64 p ∣ (pval 64 vn1 * pval 64 (div_64_64 a b) +
          pval 64 (rem_128_64 (mul64 vn1 (div_64_64 a b)) p)) := by
        rw [hPRval]
        exact poly2_dvd_add_modByMonic _ _ hmonP
      have hvn1xlt : vn ^^^ rem_128_64 (mul64 vn1 (div_64_64 a b)) p < 2 ^ 64 :=
        Nat.xor_lt_two_pow hvn hPRlt
      have hEuclid : pval 64 a %ₘ pval 64 b +
          pval 64 b * (pval 64 a /ₘ pval 64 b) = pval 64 a :=
        modByMonic_add_div _ hmonB
      obtain ⟨c1, hc1⟩ := hbez1
      obtain ⟨c2, hc2⟩ := hbez2
      obtain ⟨c3, hc3⟩ := hprod_dvd
      rw [hqval] at hc3
      by_cases hreq : rem_64_64 a b = one64
      · -- return branch
        have hone : pval 64 a %ₘ pval 64 b = 1 := by
          rw [← hrval, hreq, pval_one64]
        rw [hone] at hEuclid
        constructor
        · intro e he
          rw [invModLoop_ret p a b vn vn1 f hb0 hreq] at he
          exact Except.noConfusion he
        · intro res hres
          rw [invModLoop_ret p a b vn vn1 f hb0 hreq] at hres
          injection hres with hres_eq
          subst hres_eq
          obtain ⟨hreslt, hresmod, hresval⟩ :=
            rem_64_64_spec (vn ^^^ rem_128_64 (mul64 vn1 (div_64_64 a b)) p) p
              hvn1xlt hp hdp
          refine ⟨hreslt, hresmod, ?_⟩
          have hbig : pval 64 p ∣
              (S * (pval 64 vn +
                pval 64 (rem_128_64 (mul64 vn1 (div_64_64 a b)) p)) + 1) := by
            refine ⟨c1 + S * c3 + (pval 64 a /ₘ pval 64 b) * c2, ?_⟩
            linear_combination hc1 + S * hc3 + (pval 64 a /ₘ pval 64 b) * hc2 -
              hEuclid +
              (1 - pval 64 a - S * pval 64 vn1 * (pval 64 a /ₘ pval 64 b)) * h2
          have hxor : pval 64 (vn ^^^ rem_128_64 (mul64 vn1 (div_64_64 a b)) p) =
              pval 64 vn + pval 64 (rem_128_64 (mul64 vn1 (div_64_64 a b)) p) :=
            pval_add 64 _ _
          have hfin : S * pval 64 (rem_64_64
              (vn ^^^ rem_128_64 (mul64 vn1 (div_64_64 a b)) p) p) + 1 =
              (S * pval 64 (vn ^^^ rem_128_64 (mul64 vn1 (div_64_64 a b)) p) + 1) +
              S * (pval 64 (vn ^^^ rem_128_64 (mul64 vn1 (div_64_64 a b)) p) +
                pval 64 (vn ^^^ rem_128_64 (mul64 vn1 (div_64_64 a b)) p) %ₘ
                  pval 64 p) := by
            rw [hresval]
            linear_combination
              (-(S * pval 64 (vn ^^^ rem_128_64 (mul64 vn1 (div_64_64 a b)) p))) *
                h2
          rw [hfin]
          exact dvd_add (by rw [hxor]; exact hbig)
            (Dvd.dvd.mul_left (poly2_dvd_add_modByMonic _ _ hmonP) S)
      · -- continue branch
        have hbez2' : pval 64 p ∣
            (pval 64 (vn ^^^ rem_128_64 (mul64 vn1 (div_64_64 a b)) p) * S +
              pval 64 (rem_64_64 a b)) := by
          refine ⟨c1 + S * c3 + (pval 64 a /ₘ pval 64 b) * c2, ?_⟩
          rw [pval_add, hrval]
          linear_combination hc1 + S * hc3 + (pval 64 a /ₘ pval 64 b) * hc2 -
            hEuclid +
            (pval 64 a %ₘ pval 64 b - pval 64 a -
              S * pval 64 vn1 * (pval 64 a /ₘ pval 64 b)) * h2
        have hcd' : ∀ d : Polynomial (ZMod 2),
            (d ∣ S ∧ d ∣ pval 64 p) ↔
            (d ∣ pval 64 b ∧ d ∣ pval 64 (rem_64_64 a b)) := by
          intro d
          rw [hcd d, hrval]
          constructor
          · rintro ⟨hda, hdb⟩
            refine ⟨hdb, ?_⟩
            have hR : pval 64 a %ₘ pval 64 b =
                pval 64 a - pval 64 b * (pval 64 a /ₘ pval 64 b) := by
              linear_combination hEuclid
            rw [hR]
            exact dvd_sub hda (hdb.mul_right _)
          · rintro ⟨hdb, hdr⟩
            refine ⟨?_, hdb⟩
            rw [← hEuclid]
            exact dvd_add hdr (hdb.mul_right _)
        have hmeas : deg 64 (rem_64_64 a b) + 2 ≤ f := by
          by_cases hr0 : rem_64_64 a b = 0
          · rw [hr0, deg_zero_stored]
            omega
          · have hdr := (pval_monic 64 _ (by omega) hr0 hrlt).2
            have hlt : (pval 64 (rem_64_64 a b)).natDegree <
                (pval 64 b).natDegree := by
              rw [hrval]
              apply natDegree_modByMonic_lt _ hmonB
              intro hB1
              rw [hB1, natDegree_one] at hdegB
              omega
            omega
        rw [invModLoop_cont p a b vn vn1 f hb0 hreq]
        exact ih b (rem_64_64 a b) vn1 _ hb hrlt hvn1 hvn1xlt hdegb hreq hmeas
          ⟨c2, hc2⟩ hbez2' hcd'



/-- Full specification of Polynomial::<u64>::inv_mod (src/math.rs line 351):
for a modulus of degree >= 1, the only error is NonInvertibleError and it
implies self and the modulus are not coprime in GF(2)[X]; a returned value is a
64-bit stored polynomial res with m dividing self * res + 1 (in characteristic
2 this is exactly self * res being congruent to 1 mod m). -/
theorem inv_mod_spec (self m : Nat) (hself : self < 2 ^ 64) (hm : m < 2 ^ 64)
    (hd : 1 ≤ deg 64 m) :
    (∀ e, inv_mod self m = .error e →
      e = Error.NonInvertibleError ∧ ¬ IsCoprime (pval 64 self) (pval 64 m)) ∧
    (∀ res, inv_mod self m = .ok res →
      res < 2 ^ 64 ∧ res % 2 ^ (64 - deg 64 m) = 0 ∧
      pval 64 m ∣ (pval 64 self * pval 64 res + 1)) := by
  have hm0 : m ≠ 0 := ne_zero_of_deg_pos hd
  obtain ⟨hmonP, hdegP⟩ := pval_monic 64 m (by omega) hm0 hm
  have h2 := poly2_add_self (1 : Polynomial (ZMod 2))
  obtain ⟨hb0lt, _, hb0val⟩ := rem_64_64_spec self m hself hm hd
  have hunfold : inv_mod self m = invModLoop m m (rem_64_64 self m) 0 one64 128 :=
    rfl
  by_cases hbone : rem_64_64 self m = one64
  · -- self is congruent to 1 mod m: the loop takes the two-step detour
    -- through b = 1 and returns the stored 1.
    have hmone : m ≠ one64 := by
      intro h
      rw [h, deg_one64_val] at hd
      omega
    have hq1 : div_64_64 m one64 = m := div_64_64_one hm
    have hr1 : rem_64_64 m one64 = m := rem_64_64_one hm
    have hone0 : one64 ≠ 0 := by rw [one64_eq]; positivity
    have hprod1 : rem_128_64 (mul64 one64 m) m = 0 := by
      apply pval_inj (w := 64)
      obtain ⟨_, _, hval⟩ := rem_128_64_spec (mul64 one64 m) m
        (mul64_lt one64_lt hm) hm hd
      have h0 : (1 * pval 64 m) %ₘ pval 64 m = 0 := mul_self_modByMonic hmonP
      rw [one_mul] at h0
      rw [hval, mul64_one64, pval_widen_64_128 hm, pval_zero, h0]
    have hr2 : rem_64_64 one64 m = one64 := by
      apply pval_inj (w := 64)
      obtain ⟨_, _, hval⟩ := rem_64_64_spec one64 m one64_lt hm hd
      rw [hval, pval_one64, one_modByMonic hmonP (by omega)]
    have htrace : inv_mod self m = .ok one64 := by
      rw [hunfold, hbone, show (128 : Nat) = 127 + 1 from rfl,
        invModLoop_cont m m one64 0 one64 127 hone0 (by rw [hr1]; exact hmone),
        hr1, hq1, hprod1, Nat.xor_zero, show (127 : Nat) = 126 + 1 from rfl,
        invModLoop_ret m one64 m one64 0 126 hm0 hr2,
        mul64_zero_left, rem_128_64_zero_left, Nat.xor_zero, hr2]
    have hS1 : pval 64 self %ₘ pval 64 m = 1 := by
      rw [← hb0val, hbone, pval_one64]
    constructor
    · intro e he
      rw [htrace] at he
      exact Except.noConfusion he
    · intro res hres
      rw [htrace] at hres
      injection hres with hres_eq
      subst hres_eq
      refine ⟨one64_lt, ?_, ?_⟩
      · rw [one64_eq]
        exact Nat.dvd_iff_mod_eq_zero.mp
          (pow_dvd_pow 2 (by have := deg_le 64 m; omega))
      · rw [pval_one64, mul_one, ← hS1]
        exact poly2_dvd_add_modByMonic _ _ hmonP
  · -- general case: the loop invariant applies from the start
    have hbez1 : pval 64 m ∣ (pval 64 0 * pval 64 self + pval 64 m) := by
      rw [pval_zero, zero_mul, zero_add]
    have hbez2 : pval 64 m ∣
        (pval 64 one64 * pval 64 self + pval 64 (rem_64_64 self m)) := by
      rw [pval_one64, one_mul, hb0val]
      exact poly2_dvd_add_modByMonic _ _ hmonP
    have hcd0 : ∀ d : Polynomial (ZMod 2),
        (d ∣ pval 64 self ∧ d ∣ pval 64 m) ↔
        (d ∣ pval 64 m ∧ d ∣ pval 64 (rem_64_64 self m)) := by
      intro d
      rw [hb0val]
      constructor
      · rintro ⟨h1, hdm⟩
        refine ⟨hdm, ?_⟩
        rw [modByMonic_eq_sub_mul_div _ hmonP]
        exact dvd_sub h1 (hdm.mul_right _)
      · rintro ⟨hdm, h1⟩
        refine ⟨?_, hdm⟩
        rw [← modByMonic_add_div (pval 64 self) hmonP]
        exact dvd_add h1 (hdm.mul_right _)
    have hfuel : deg 64 (rem_64_64 self m) + 2 ≤ 128 := by
      have := deg_le 64 (rem_64_64 self m)
      omega
    have hspec := invModLoop_spec m hm hd (pval 64 self) 128 m
      (rem_64_64 self m) 0 one64 hm hb0lt (by norm_num) one64_lt hd hbone hfuel
      hbez1 hbez2 hcd0
    rw [hunfold]
    refine ⟨hspec.1, fun res hres => ?_⟩
    obtain ⟨h1, hmod, c, hc⟩ := hspec.2 res hres
    exact ⟨h1, hmod, c, by linear_combination hc⟩

/-- A successful inv_mod certifies coprimality. -/
theorem inv_mod_ok_coprime {self m res : Nat} (hself : self < 2 ^ 64)
    (hm : m < 2 ^ 64) (hd : 1 ≤ deg 64 m) (h : inv_mod self m = .ok res) :
    IsCoprime (pval 64 self) (pval 64 m) := by
  have h2 := poly2_add_self (1 : Polynomial (ZMod 2))
  obtain ⟨_, _, c, hc⟩ := (inv_mod_spec self m hself hm hd).2 res h
  exact ⟨pval 64 res, c, by linear_combination hc + (pval 64 m * c - 1) * h2⟩



/-! ### The full generator and engine construction -/

theorem gfull_lt (g : Nat) : gfullOf g < 2 ^ 64 := by
  apply Nat.xor_lt_two_pow
  · rw [reverse_u64_xn_eq]
    norm_num
  · rw [widen_32_64, Nat.shiftLeft_eq]
    calc reverse_u32 g * 2 ^ 32 < 2 ^ 32 * 2 ^ 32 :=
          (Nat.mul_lt_mul_right (by positivity)).mpr (reverse_u32_lt g)
    _ = 2 ^ 64 := by norm_num

theorem pval_gfull {g : Nat} (hg : g < 2 ^ 32) :
    pval 64 (gfullOf g) = X ^ 32 + natPoly g := by
  rw [gfullOf, pval_add, pval_xn_stored,
    pval_widen_32_64 (reverse_u32_lt g), pval, natPoly_reverse_u32 hg,
    show (32 : Nat) - 1 = 31 from rfl, reflect_reflect_self]

theorem gfull_ne_zero (g : Nat) : gfullOf g ≠ 0 := by
  intro h
  have h1 := congrArg (fun n => n.testBit 31) h
  simp only [gfullOf, Nat.testBit_xor, reverse_u64_xn_eq, widen_32_64,
    Nat.testBit_shiftLeft, Nat.zero_testBit] at h1
  rw [Nat.testBit_two_pow_self] at h1
  norm_num at h1

theorem natDegree_gpoly {g : Nat} (hg : g < 2 ^ 32) :
    (X ^ 32 + natPoly g : Polynomial (ZMod 2)).natDegree = 32 := by
  rw [natDegree_add_eq_left_of_natDegree_lt, natDegree_X_pow]
  rw [natDegree_X_pow]
  exact natPoly_natDegree_lt (by omega) hg

theorem deg_gfull {g : Nat} (hg : g < 2 ^ 32) : deg 64 (gfullOf g) = 32 := by
  have h := (pval_monic 64 (gfullOf g) (by omega) (gfull_ne_zero g)
    (gfull_lt g)).2
  rw [pval_gfull hg, natDegree_gpoly hg] at h
  omega

theorem monic_gpoly {g : Nat} (hg : g < 2 ^ 32) :
    (X ^ 32 + natPoly g : Polynomial (ZMod 2)).Monic := by
  have h := (pval_monic 64 (gfullOf g) (by omega) (gfull_ne_zero g)
    (gfull_lt g)).1
  rwa [pval_gfull hg] at h

theorem new_ok_wf {g i f : Nat} {c : CRC32} (hg : g < 2 ^ 32) (hi : i < 2 ^ 32)
    (hf : f < 2 ^ 32) (h : CRC32.new g i f = .ok c) :
    c.wf ∧ c.props_g = g ∧ c.props_i = i ∧ c.props_f = f := by
  have hdeg : deg 64 (gfullOf g) = 32 := deg_gfull hg
  rw [CRC32.new] at h
  simp only [bind, Except.bind] at h
  have hfold : reverse_u64 ((1 : Nat) <<< 32) ^^^ widen_32_64 (reverse_u32 g) =
      gfullOf g := rfl
  rw [hfold] at h
  rcases hxi : inv_mod (reverse_u64 ((1 : Nat) <<< 32)) (gfullOf g) with e | xi
  · rw [hxi] at h
    exact absurd h (by simp)
  rw [hxi] at h
  obtain ⟨hxilt, hximod, hxidvd⟩ :=
    (inv_mod_spec (reverse_u64 ((1 : Nat) <<< 32)) (gfullOf g)
      (reverse_u64_lt _) (gfull_lt g) (by omega)).2 xi hxi
  rw [hdeg] at hximod
  have hmask : xi &&& 0xffffffff = 0 := by
    rw [show (0xffffffff : Nat) = 2 ^ 32 - 1 from by norm_num,
      Nat.and_pow_two_sub_one_eq_mod]
    exact hximod
  simp only [narrow_64_32, hmask, bne_self_eq_false, Bool.false_eq_true,
    if_false, Except.ok.injEq] at h
  subst h
  have hxval : pval 32 (xi >>> 32) = pval 64 xi :=
    pval_unwiden_64_32 hxilt hximod
  refine ⟨⟨hg, hi, hf, rfl, ?_, ?_⟩, rfl, rfl, rfl⟩
  · rw [Nat.shiftRight_eq_div_pow]
    exact Nat.div_lt_of_lt_mul (by calc xi < 2 ^ 64 := hxilt
      _ = 2 ^ 32 * 2 ^ 32 := by norm_num)
  · rw [hxval]
    rwa [pval_gfull hg, pval_xn_stored] at hxidvd



/-! ### Byte streams as stored values and polynomials -/

theorem natLE_lt (bs : List Nat) (h : ∀ b ∈ bs, b < 256) :
    natLE bs < 2 ^ (8 * bs.length) := by
  induction bs with
  | nil => simp [natLE]
  | cons b bs ih =>
    have h1 := ih (fun x hx => h x (List.mem_cons_of_mem b hx))
    have h2 : b < 256 := h b (List.mem_cons_self b bs)
    simp only [natLE, List.length_cons]
    rw [show 8 * (bs.length + 1) = 8 * bs.length + 8 from by ring, pow_add,
      show (2 : Nat) ^ 8 = 256 from by norm_num]
    omega

theorem natLE_append (xs ys : List Nat) :
    natLE (xs ++ ys) = natLE xs + 2 ^ (8 * xs.length) * natLE ys := by
  induction xs with
  | nil => simp [natLE]
  | cons b xs ih =>
    show b + 2 ^ 8 * natLE (xs ++ ys) =
      b + 2 ^ 8 * natLE xs + 2 ^ (8 * (xs.length + 1)) * natLE ys
    rw [ih, show 8 * (xs.length + 1) = 8 + 8 * xs.length from by ring, pow_add]
    ring

theorem natLE_toLEBytes4 {v : Nat} (hv : v < 2 ^ 32) : natLE (toLEBytes4 v) = v := by
  simp only [toLEBytes4, natLE,
    show (0xff : Nat) = 2 ^ 8 - 1 from by norm_num,
    Nat.and_pow_two_sub_one_eq_mod, Nat.shiftRight_eq_div_pow]
  norm_num
  omega

theorem toLEBytes4_bytes_lt (v : Nat) : ∀ b ∈ toLEBytes4 v, b < 256 := by
  intro b hb
  simp only [toLEBytes4, List.mem_cons, List.not_mem_nil, or_false] at hb
  have key : ∀ x : Nat, x &&& 0xff < 256 :=
    fun x => lt_of_le_of_lt Nat.and_le_right (by norm_num)
  rcases hb with h | h | h | h <;> rw [h] <;> exact key _

theorem toLEBytes4_length (v : Nat) : (toLEBytes4 v).length = 4 := rfl

theorem natLE_zeros : natLE [0, 0, 0, 0] = 0 := by simp [natLE]

theorem dataPoly_nil : dataPoly [] = 0 := by
  rw [dataPoly, natLE]
  exact pval_zero _

theorem dataPoly_natDegree_le (bs : List Nat) (h : ∀ b ∈ bs, b < 256) :
    (dataPoly bs).natDegree ≤ 8 * bs.length - 1 :=
  pval_natDegree_le (natLE_lt bs h)

theorem dataPoly_append (xs ys : List Nat) (hx : ∀ b ∈ xs, b < 256)
    (hy : ∀ b ∈ ys, b < 256) :
    dataPoly (xs ++ ys) = X ^ (8 * ys.length) * dataPoly xs + dataPoly ys := by
  rcases List.eq_nil_or_concat ys with hys | _
  · subst hys
    simp [dataPoly_nil]
  rcases xs.eq_nil_or_concat with hxs | _
  · subst hxs
    simp [dataPoly_nil]
  have hxlen : 1 ≤ xs.length := by
    rcases xs with _ | ⟨a, t⟩
    · simp_all
    · simp
  have hylen : 1 ≤ ys.length := by
    rcases ys with _ | ⟨a, t⟩
    · simp_all
    · simp
  have hxlt := natLE_lt xs hx
  have hylt := natLE_lt ys hy
  rw [dataPoly, natLE_append, List.length_append]
  rw [show natLE xs + 2 ^ (8 * xs.length) * natLE ys =
      2 ^ (8 * xs.length) * natLE ys + natLE xs from by ring]
  rw [pval, natPoly_two_pow_mul_add _ _ _ hxlt, reflect_add,
    add_comm (X ^ (8 * ys.length) * dataPoly xs) (dataPoly ys)]
  have he1 : 8 * (xs.length + ys.length) - 1 =
      (8 * xs.length - 1) + 8 * ys.length := by omega
  have he2 : 8 * (xs.length + ys.length) - 1 =
      (8 * ys.length - 1) + 8 * xs.length := by omega
  congr 1
  · rw [he2]
    rw [reflect_shift_absorb _ _ _ (natPoly_natDegree_le (by omega) hylt)]
    rw [dataPoly, pval]
  · rw [he1]
    rw [reflect_shift_emit _ _ _ (natPoly_natDegree_le (by omega) hxlt)]
    rw [dataPoly, pval]

theorem dataPoly_toLEBytes4 {v : Nat} (hv : v < 2 ^ 32) :
    dataPoly (toLEBytes4 v) = pval 32 v := by
  rw [dataPoly, toLEBytes4_length, natLE_toLEBytes4 hv]

/-! ### Congruence modulo a polynomial, characteristic 2 -/

theorem pcong_refl (m a : Polynomial (ZMod 2)) : pcong m a a := by
  rw [pcong, poly2_add_self]
  exact dvd_zero m

theorem pcong_symm {m a b : Polynomial (ZMod 2)} (h : pcong m a b) :
    pcong m b a := by
  rwa [pcong, add_comm]

theorem pcong_trans {m a b c : Polynomial (ZMod 2)} (h1 : pcong m a b)
    (h2 : pcong m b c) : pcong m a c := by
  obtain ⟨u, hu⟩ := h1
  obtain ⟨v, hv⟩ := h2
  have hb := poly2_add_self b
  exact ⟨u + v, by linear_combination hu + hv - hb⟩

theorem pcong_of_eq {m a b : Polynomial (ZMod 2)} (h : a = b) : pcong m a b :=
  h ▸ pcong_refl m b

theorem pcong_add {m a b u v : Polynomial (ZMod 2)} (h1 : pcong m a b)
    (h2 : pcong m u v) : pcong m (a + u) (b + v) := by
  have h3 : a + u + (b + v) = (a + b) + (u + v) := by ring
  rw [pcong, h3]
  exact dvd_add h1 h2

theorem pcong_mul_left (c : Polynomial (ZMod 2)) {m a b : Polynomial (ZMod 2)}
    (h : pcong m a b) : pcong m (c * a) (c * b) := by
  rw [pcong, ← mul_add]
  exact h.mul_left c

theorem pcong_mod {m : Polynomial (ZMod 2)} (hmon : m.Monic)
    (a : Polynomial (ZMod 2)) : pcong m a (a %ₘ m) :=
  poly2_dvd_add_modByMonic a m hmon

theorem pcong_mod_eq {m a b : Polynomial (ZMod 2)} (hmon : m.Monic)
    (h : pcong m a b) : a %ₘ m = b %ₘ m := by
  have h0 : (a + b) %ₘ m = 0 := (modByMonic_eq_zero_iff_dvd hmon).mpr h
  rw [add_modByMonic] at h0
  linear_combination h0 - poly2_add_self (b %ₘ m)

theorem modByMonic_self_of_natDegree_lt {m b : Polynomial (ZMod 2)}
    (hmon : m.Monic) (h : b.natDegree < m.natDegree) : b %ₘ m = b := by
  by_cases hb0 : b = 0
  · rw [hb0]
    exact zero_modByMonic m
  apply (modByMonic_eq_self_iff hmon).mpr
  rw [degree_eq_natDegree hb0, degree_eq_natDegree hmon.ne_zero]
  exact_mod_cast h

theorem pcong_mod_right {m a b : Polynomial (ZMod 2)} (hmon : m.Monic)
    (hdeg : b.natDegree < m.natDegree) (h : pcong m a b) : a %ₘ m = b := by
  rw [pcong_mod_eq hmon h]
  exact modByMonic_self_of_natDegree_lt hmon hdeg



/-! ### Table, step and fast_rem semantics -/

theorem precomputeGo_eq_remSteps (g : Nat) :
    ∀ (f r : Nat), precomputeGo g r f = remSteps g r f := by
  intro f
  induction f with
  | zero => intro r; rfl
  | succ f ih =>
    intro r
    exact ih ((r >>> 1) ^^^ (if r &&& 1 == 1 then g else 0))

theorem table_lt {c : CRC32} (hg : c.props_g < 2 ^ 32) (i : Nat) (hi : i < 256) :
    c.table i < 2 ^ 32 := by
  rw [CRC32.table, precompute_table, precomputeGo_eq_remSteps]
  exact remSteps_lt (reverse_u32 c.props_g) 32 (reverse_u32_lt _) 8 i
    (lt_of_lt_of_le hi (by norm_num))

theorem table_poly (c : CRC32) (i : Nat) (hi : i < 256) :
    ∃ q : Nat, q < 2 ^ 8 ∧
      X ^ 8 * natPoly (c.table i) =
        natPoly i + natPoly q * (1 + X * natPoly (reverse_u32 c.props_g)) := by
  obtain ⟨q, qr, hq, _, _, _, hpoly⟩ :=
    divSteps_spec (reverse_u32 c.props_g) 8 (by omega) i 0 (by norm_num)
  refine ⟨q, hq, ?_⟩
  rw [CRC32.table, precompute_table, precomputeGo_eq_remSteps]
  exact hpoly

theorem shr8_lt {v : Nat} (hv : v < 2 ^ 32) : v >>> 8 < 2 ^ 24 := by
  rw [Nat.shiftRight_eq_div_pow]
  exact (Nat.div_lt_iff_lt_mul (by positivity)).mpr
    (lt_of_lt_of_le hv (by norm_num))

theorem or24_lt {v b : Nat} (hv : v < 2 ^ 32) (hb : b < 256) :
    (v >>> 8) ||| (b <<< 24) < 2 ^ 32 := by
  rw [or_shift_add (shr8_lt hv)]
  have h1 := shr8_lt hv
  have h2 : b * 2 ^ 24 ≤ 255 * 2 ^ 24 := Nat.mul_le_mul_right _ (by omega)
  calc v >>> 8 + b * 2 ^ 24 < 2 ^ 24 + 255 * 2 ^ 24 := by omega
  _ = 2 ^ 32 := by norm_num

theorem mask8_lt (reg : Nat) : reg &&& 0xff < 256 :=
  lt_of_le_of_lt Nat.and_le_right (by norm_num)

theorem step_lt {c : CRC32} (hg : c.props_g < 2 ^ 32) {reg b : Nat}
    (hreg : reg < 2 ^ 32) (hb : b < 256) : c.step reg b < 2 ^ 32 := by
  rw [CRC32.step]
  exact Nat.xor_lt_two_pow (or24_lt hreg hb) (table_lt hg _ (mask8_lt reg))

theorem step_poly (c : CRC32) {reg : Nat} (b : Nat) (hreg : reg < 2 ^ 32)
    (hb : b < 256) :
    ∃ q : Nat, q < 2 ^ 8 ∧
      X ^ 8 * natPoly (c.step reg b) =
        natPoly reg + X ^ 32 * natPoly b +
          natPoly q * (1 + X * natPoly (reverse_u32 c.props_g)) := by
  obtain ⟨q, hq, htab⟩ := table_poly c (reg &&& 0xff) (mask8_lt reg)
  have h255 : reg &&& 0xff = reg % 2 ^ 8 := by
    rw [show (0xff : Nat) = 2 ^ 8 - 1 from by norm_num,
      Nat.and_pow_two_sub_one_eq_mod]
  rw [h255] at htab
  refine ⟨q, hq, ?_⟩
  rw [CRC32.step, h255, natPoly_xor, or_shift_add (shr8_lt hreg),
    show reg >>> 8 + b * 2 ^ 24 = 2 ^ 24 * b + reg >>> 8 from by ring,
    natPoly_two_pow_mul_add 24 b _ (shr8_lt hreg)]
  have hdecomp : natPoly reg =
      X ^ 8 * natPoly (reg / 2 ^ 8) + natPoly (reg % 2 ^ 8) := by
    have hsplit := natPoly_two_pow_mul_add 8 (reg / 2 ^ 8) (reg % 2 ^ 8)
      (Nat.mod_lt _ (by positivity))
    rw [Nat.div_add_mod reg (2 ^ 8)] at hsplit
    exact hsplit
  rw [Nat.shiftRight_eq_div_pow, hdecomp]
  linear_combination htab

theorem fold_step_poly (c : CRC32) (hg : c.props_g < 2 ^ 32) :
    ∀ (r : List Nat), (∀ b ∈ r, b < 256) → ∀ reg0 : Nat, reg0 < 2 ^ 32 →
    List.foldl c.step reg0 r < 2 ^ 32 ∧
    ∃ Q : Polynomial (ZMod 2),
      (Q = 0 ∨ Q.natDegree < 8 * r.length) ∧
      X ^ (8 * r.length) * natPoly (List.foldl c.step reg0 r) =
        natPoly reg0 + X ^ 32 * natPoly (natLE r) +
          Q * (1 + X * natPoly (reverse_u32 c.props_g)) := by
  intro r
  induction r with
  | nil =>
    intro _ reg0 h0
    refine ⟨h0, 0, Or.inl rfl, ?_⟩
    simp [natLE, natPoly_zero]
  | cons b r ih =>
    intro hb reg0 h0
    have hbb : b < 256 := hb b (List.mem_cons_self b r)
    have hbr : ∀ x ∈ r, x < 256 := fun x hx => hb x (List.mem_cons_of_mem b hx)
    have hstl : c.step reg0 b < 2 ^ 32 := step_lt hg h0 hbb
    obtain ⟨hlt, Q, hQdeg, hQ⟩ := ih hbr (c.step reg0 b) hstl
    obtain ⟨q, hq, hstep⟩ := step_poly c b h0 hbb
    refine ⟨by simpa using hlt, natPoly q + X ^ 8 * Q, Or.inr ?_, ?_⟩
    · apply lt_of_le_of_lt (natDegree_add_le _ _)
      rw [Nat.max_lt]
      constructor
      · have hd := natPoly_natDegree_lt (by omega) hq
        simp only [List.length_cons]
        omega
      · rcases hQdeg with h | h
        · rw [h, mul_zero, natDegree_zero]
          simp only [List.length_cons]
          omega
        · apply lt_of_le_of_lt natDegree_mul_le
          rw [natDegree_X_pow]
          simp only [List.length_cons]
          omega
    · simp only [List.foldl_cons, List.length_cons, natLE]
      rw [show 8 * (r.length + 1) = 8 * r.length + 8 from by ring, pow_add,
        show b + 2 ^ 8 * natLE r = 2 ^ 8 * natLE r + b from by ring,
        natPoly_two_pow_mul_add 8 (natLE r) b hbb]
      linear_combination (X ^ 8 : Polynomial (ZMod 2)) * hQ + hstep

/-- reflect of the one-plus-X-times-reflected-generator combination is the
true degree-32 generator polynomial. -/
theorem reflect_Rt {g : Nat} (hg : g < 2 ^ 32) :
    reflect 32 (1 + X * natPoly (reverse_u32 g)) = X ^ 32 + natPoly g := by
  rw [reflect_add]
  congr 1
  · rw [← C_1, reflect_C, C_1, one_mul]
  · rw [show (32 : Nat) = 31 + 1 from rfl,
      show (X : Polynomial (ZMod 2)) * natPoly (reverse_u32 g) =
        X ^ 1 * natPoly (reverse_u32 g) from by ring,
      reflect_shift_absorb 31 1 _ (natPoly_natDegree_le (by omega) (reverse_u32_lt g)),
      natPoly_reverse_u32 hg, reflect_reflect_self]



theorem fold_step_pval (c : CRC32) (hg : c.props_g < 2 ^ 32) (r : List Nat)
    (hr : ∀ b ∈ r, b < 256) (reg0 : Nat) (h0 : reg0 < 2 ^ 32) :
    pval 32 (List.foldl c.step reg0 r) =
      (X ^ (8 * r.length) * pval 32 reg0 + pval (8 * r.length) (natLE r)) %ₘ
        (X ^ 32 + natPoly c.props_g) := by
  obtain ⟨hlt, Q, hQdeg, hQ⟩ := fold_step_poly c hg r hr reg0 h0
  have hmon := monic_gpoly hg
  have hdegG := natDegree_gpoly hg
  have hFdeg : (pval 32 (List.foldl c.step reg0 r)).natDegree ≤ 31 :=
    pval_natDegree_le hlt
  have hrefl := congrArg (reflect (31 + 8 * r.length)) hQ
  rw [reflect_shift_absorb 31 (8 * r.length) _
      (natPoly_natDegree_le (by omega) hlt),
    reflect_add, reflect_add,
    reflect_shift_emit 31 (8 * r.length) _
      (natPoly_natDegree_le (by omega) h0)] at hrefl
  rcases Nat.eq_zero_or_pos r.length with hn | hn
  · have hrnil : r = [] := List.length_eq_zero.mp hn
    subst hrnil
    have hQ0 : Q = 0 := by
      rcases hQdeg with h | h
      · exact h
      · simp at h
    rw [hQ0] at hrefl
    simp only [List.length_nil, Nat.mul_zero, pow_zero, one_mul, natLE,
      natPoly_zero, mul_zero, zero_mul, reflect_zero, add_zero] at hrefl ⊢
    have hrefl2 : pval 32 (List.foldl c.step reg0 []) = pval 32 reg0 := hrefl
    rw [hrefl2, show pval 0 0 = 0 from pval_zero 0, add_zero]
    refine (modByMonic_self_of_natDegree_lt hmon ?_).symm
    rw [hdegG]
    have h1 := pval_natDegree_le h0
    omega
  · have hQle : Q.natDegree ≤ 8 * r.length - 1 := by
      rcases hQdeg with h | h
      · rw [h, natDegree_zero]
        omega
      · omega
    have hRdeg : (1 + X * natPoly (reverse_u32 c.props_g)).natDegree ≤ 32 := by
      apply le_trans (natDegree_add_le _ _)
      rw [natDegree_one]
      simp only [Nat.max_le]
      refine ⟨by omega, ?_⟩
      apply le_trans natDegree_mul_le
      rw [natDegree_X]
      have := natPoly_natDegree_le (w := 32) (by omega) (reverse_u32_lt c.props_g)
      omega
    have hsplit1 : reflect (31 + 8 * r.length) (X ^ 32 * natPoly (natLE r)) =
        pval (8 * r.length) (natLE r) := by
      rw [show 31 + 8 * r.length = 32 + (8 * r.length - 1) from by omega,
        reflect_mul (X ^ 32) (natPoly (natLE r)) (by rw [natDegree_X_pow])
          (natPoly_natDegree_le (by omega) (natLE_lt r hr)),
        reflect_monomial, revAt_le (le_refl 32), Nat.sub_self, pow_zero, one_mul,
        pval]
    have hsplit2 : reflect (31 + 8 * r.length)
        (Q * (1 + X * natPoly (reverse_u32 c.props_g))) =
        reflect (8 * r.length - 1) Q * (X ^ 32 + natPoly c.props_g) := by
      rw [show 31 + 8 * r.length = (8 * r.length - 1) + 32 from by omega,
        reflect_mul Q (1 + X * natPoly (reverse_u32 c.props_g)) hQle hRdeg,
        reflect_Rt hg]
    rw [hsplit1, hsplit2] at hrefl
    have hpc : pcong (X ^ 32 + natPoly c.props_g)
        (X ^ (8 * r.length) * pval 32 reg0 + pval (8 * r.length) (natLE r))
        (pval 32 (List.foldl c.step reg0 r)) := by
      refine ⟨reflect (8 * r.length - 1) Q, ?_⟩
      have hM := poly2_add_self
        (X ^ (8 * r.length) * pval 32 reg0 + pval (8 * r.length) (natLE r))
      have hconv : ∀ v : Nat, reflect 31 (natPoly v) = pval 32 v := fun v => rfl
      simp only [hconv] at hrefl
      linear_combination hrefl + hM
    refine (pcong_mod_right hmon ?_ hpc).symm
    rw [hdegG]
    omega


/-- The initial four-byte load of fast_rem (src/lib.rs lines 92-100), from an
arbitrary register value. -/
theorem load_acc : ∀ (t : List Nat) (v : Nat), (∀ b ∈ t, b < 256) →
    t.length ≤ 4 → v < 2 ^ 32 →
    t.foldl (fun reg b => (reg >>> 8) ||| (b <<< 24)) v =
      v >>> (8 * t.length) + natLE t * 2 ^ (8 * (4 - t.length)) := by
  intro t
  induction t with
  | nil =>
    intro v _ _ _
    simp [natLE]
  | cons b t ih =>
    intro v hb hlen hv
    have hbb : b < 256 := hb b (List.mem_cons_self b t)
    have hv' : (v >>> 8) ||| (b <<< 24) < 2 ^ 32 := or24_lt hv hbb
    rw [List.foldl_cons,
      ih _ (fun x hx => hb x (List.mem_cons_of_mem b hx))
        (by simp only [List.length_cons] at hlen; omega) hv',
      or_shift_add (shr8_lt hv)]
    have hm3 : t.length ≤ 3 := by
      simp only [List.length_cons] at hlen
      omega
    have hshift : (v >>> 8 + b * 2 ^ 24) >>> (8 * t.length) =
        v >>> (8 * (t.length + 1)) + b * 2 ^ (24 - 8 * t.length) := by
      rw [Nat.shiftRight_eq_div_pow, Nat.shiftRight_eq_div_pow,
        Nat.shiftRight_eq_div_pow,
        show b * 2 ^ 24 = b * 2 ^ (24 - 8 * t.length) * 2 ^ (8 * t.length) from by
          rw [mul_assoc, ← pow_add]
          congr 2
          omega,
        Nat.add_mul_div_right _ _ (by positivity),
        Nat.div_div_eq_div_mul, ← pow_add,
        show (8 : Nat) + 8 * t.length = 8 * (t.length + 1) from by ring]
    rw [hshift]
    simp only [natLE, List.length_cons]
    rw [show 8 * (4 - (t.length + 1)) = 24 - 8 * t.length from by omega,
      add_mul,
      show 2 ^ 8 * natLE t * 2 ^ (24 - 8 * t.length) =
        natLE t * 2 ^ (8 * (4 - t.length)) from by
        rw [mul_comm (2 ^ 8) (natLE t), mul_assoc, ← pow_add]
        congr 2
        omega]
    ring

theorem fast_rem_eq (c : CRC32) (data : List Nat) (register : Nat) :
    c.fast_rem data register = List.foldl c.step
      (((data.take 4).foldl (fun reg b => (reg >>> 8) ||| (b <<< 24)) 0) ^^^
        register) (data.drop 4) := rfl

/-- CRC32::fast_rem computes, in the 32-bit reflected view, the remainder of
the data polynomial plus the shifted initial register modulo the true
generator. -/
theorem fast_rem_spec (c : CRC32) (hg : c.props_g < 2 ^ 32) (bs : List Nat)
    (hbs : ∀ b ∈ bs, b < 256) (v : Nat) (hv : v < 2 ^ 32) :
    c.fast_rem bs v < 2 ^ 32 ∧
    pval 32 (c.fast_rem bs v) =
      (dataPoly bs + X ^ (8 * (bs.length - 4)) * pval 32 v) %ₘ
        (X ^ 32 + natPoly c.props_g) := by
  have hmon := monic_gpoly hg
  have hdegG := natDegree_gpoly hg
  rcases le_or_lt 4 bs.length with hlen | hlen
  · -- at least four bytes: full load of take 4, then the step fold
    have ht4 : (bs.take 4).length = 4 := by
      rw [List.length_take]
      omega
    have htb : ∀ b ∈ bs.take 4, b < 256 := fun b hb => hbs b (List.take_subset 4 bs hb)
    have hrb : ∀ b ∈ bs.drop 4, b < 256 := fun b hb => hbs b (List.drop_subset 4 bs hb)
    have hload : (bs.take 4).foldl (fun reg b => (reg >>> 8) ||| (b <<< 24)) 0 =
        natLE (bs.take 4) := by
      rw [load_acc _ 0 htb (by omega) (by positivity), ht4]
      simp
    have hlt4 : natLE (bs.take 4) < 2 ^ 32 := by
      have := natLE_lt (bs.take 4) htb
      rwa [ht4] at this
    have hreg0 : natLE (bs.take 4) ^^^ v < 2 ^ 32 := Nat.xor_lt_two_pow hlt4 hv
    have hrlen : (bs.drop 4).length = bs.length - 4 := List.length_drop 4 bs
    rw [fast_rem_eq, hload]
    obtain ⟨hblt, _, _, _⟩ := fold_step_poly c hg (bs.drop 4) hrb _ hreg0
    refine ⟨hblt, ?_⟩
    rw [fold_step_pval c hg (bs.drop 4) hrb _ hreg0]
    have hdata : dataPoly bs = X ^ (8 * (bs.length - 4)) * pval 32 (natLE (bs.take 4)) +
        pval (8 * (bs.length - 4)) (natLE (bs.drop 4)) := by
      conv_lhs => rw [← List.take_append_drop 4 bs]
      rw [dataPoly_append _ _ htb hrb, hrlen, dataPoly, dataPoly, ht4, hrlen]
    rw [hdata, hrlen]
    congr 1
    rw [pval_add]
    ring
  · -- fewer than four bytes: left-aligned load only
    have htake : bs.take 4 = bs := List.take_of_length_le (by omega)
    have hdrop : bs.drop 4 = [] := List.drop_eq_nil_of_le (by omega)
    have hload := load_acc bs 0 hbs (by omega) (by positivity)
    rw [Nat.zero_shiftRight, zero_add] at hload
    rw [fast_rem_eq, htake, hdrop, hload, List.foldl_nil]
    have hlelt : natLE bs * 2 ^ (8 * (4 - bs.length)) < 2 ^ 32 := by
      have h1 := natLE_lt bs hbs
      calc natLE bs * 2 ^ (8 * (4 - bs.length)) <
          2 ^ (8 * bs.length) * 2 ^ (8 * (4 - bs.length)) :=
            (Nat.mul_lt_mul_right (by positivity)).mpr h1
      _ = 2 ^ 32 := by
          rw [← pow_add]
          congr 1
          omega
    refine ⟨Nat.xor_lt_two_pow hlelt hv, ?_⟩
    rw [pval_add]
    have hlv : pval 32 (natLE bs * 2 ^ (8 * (4 - bs.length))) = dataPoly bs := by
      rcases Nat.eq_zero_or_pos bs.length with h0 | h0
      · have hnil : bs = [] := List.length_eq_zero.mp h0
        subst hnil
        simp only [natLE, List.length_nil, zero_mul, dataPoly_nil]
        rw [pval_zero]
      · rw [pval, show natLE bs * 2 ^ (8 * (4 - bs.length)) =
            2 ^ (8 * (4 - bs.length)) * natLE bs from by ring,
          natPoly_two_pow_mul,
          show (32 : Nat) - 1 = (8 * bs.length - 1) + 8 * (4 - bs.length)
            from by omega,
          reflect_shift_absorb _ _ _ (natPoly_natDegree_le (by omega)
            (natLE_lt bs hbs)),
          dataPoly, pval]
    rw [hlv, show 8 * (bs.length - 4) = 0 from by omega, pow_zero, one_mul]
    refine (modByMonic_self_of_natDegree_lt hmon ?_).symm
    apply lt_of_le_of_lt (natDegree_add_le _ _)
    rw [hdegG, Nat.max_lt]
    have h1 := dataPoly_natDegree_le bs hbs
    have h2 := pval_natDegree_le hv
    omega

/-- CRC32::checksum realizes the textbook reflected CRC32 definition: the
reflected remainder of data * X^32 plus the init polynomial shifted by the
message length, modulo the true generator, plus the final-xor polynomial. -/
theorem checksum_spec (c : CRC32) (hwf : c.wf) (d : List Nat)
    (hd : ∀ b ∈ d, b < 256) :
    c.checksum d < 2 ^ 32 ∧
    pval 32 (c.checksum d) =
      (X ^ 32 * dataPoly d + X ^ (8 * d.length) * pval 32 c.props_i) %ₘ
        (X ^ 32 + natPoly c.props_g) + pval 32 c.props_f := by
  have hz : ∀ b ∈ ([0, 0, 0, 0] : List Nat), b < 256 := by
    intro b hb
    simp only [List.mem_cons, List.not_mem_nil, or_false] at hb
    rcases hb with h | h | h | h <;> omega
  have hd' : ∀ b ∈ d ++ [0, 0, 0, 0], b < 256 := by
    intro b hb
    rcases List.mem_append.mp hb with h | h
    · exact hd b h
    · exact hz b h
  obtain ⟨hlt, hval⟩ := fast_rem_spec c hwf.hg (d ++ [0, 0, 0, 0]) hd'
    c.props_i hwf.hi
  rw [CRC32.checksum]
  refine ⟨Nat.xor_lt_two_pow hlt (lt_of_lt_of_le hwf.hf (by norm_num)), ?_⟩
  rw [pval_add, hval]
  have hlen : (d ++ [0, 0, 0, 0]).length - 4 = d.length := by
    rw [List.length_append]
    simp
  have hdp : dataPoly (d ++ [0, 0, 0, 0]) = X ^ 32 * dataPoly d := by
    rw [dataPoly_append d [0, 0, 0, 0] hd hz]
    have : dataPoly [0, 0, 0, 0] = 0 := by
      rw [dataPoly, natLE_zeros, pval_zero]
    rw [this, add_zero]
    norm_num
  rw [hlen, hdp]



/-! ### generator_remainder, 32x32 multiplication, compute_suffix -/

/-- The u128 product of two widened u32 polynomials has its low 64 bits clear:
the Mul<Polynomial<u32>> narrowing unwrap never fires. -/
theorem mul64_widen_low_bits {a b : Nat} (ha : a < 2 ^ 32) :
    mul64 (widen_32_64 a) (widen_32_64 b) % 2 ^ 64 = 0 := by
  apply mod_two_pow_eq_zero_of_testBit
  intro j hj
  have hA : widen_32_64 a < 2 ^ 64 := widen_32_64_lt ha
  have h1 : natPoly (mul64 (widen_32_64 a) (widen_32_64 b)) =
      X ^ 65 * (natPoly a * natPoly b) := by
    rw [mul64_eq (widen_32_64 b) hA, widen_32_64, widen_32_64,
      natPoly_shiftLeft, natPoly_shiftLeft]
    ring
  have hcoeff := congrArg (fun p => Polynomial.coeff p j) h1
  simp only at hcoeff
  rw [natPoly_coeff, coeff_X_pow_mul',
    if_neg (show ¬ (65 ≤ j) from by omega)] at hcoeff
  by_cases h : (mul64 (widen_32_64 a) (widen_32_64 b)).testBit j
  · rw [if_pos h] at hcoeff
    exact absurd hcoeff one_ne_zero
  · exact Bool.eq_false_iff.mpr h

theorem mul_32_32_spec {a b : Nat} (ha : a < 2 ^ 32) (hb : b < 2 ^ 32) :
    mul_32_32 a b < 2 ^ 64 ∧
    pval 64 (mul_32_32 a b) = pval 32 a * pval 32 b := by
  have hA : widen_32_64 a < 2 ^ 64 := widen_32_64_lt ha
  have hB : widen_32_64 b < 2 ^ 64 := widen_32_64_lt hb
  have hprod_lt : mul64 (widen_32_64 a) (widen_32_64 b) < 2 ^ 128 := mul64_lt hA hB
  have hlow := mul64_widen_low_bits (b := b) ha
  constructor
  · rw [mul_32_32, Nat.shiftRight_eq_div_pow]
    exact (Nat.div_lt_iff_lt_mul (by positivity)).mpr
      (lt_of_lt_of_le hprod_lt (by norm_num))
  · rw [mul_32_32, pval_unwiden_128_64 hprod_lt hlow, pval_mul64 hA hB,
      pval_widen_32_64 ha, pval_widen_32_64 hb]

theorem generator_remainder_spec (c : CRC32) (hwf : c.wf) (p : Nat)
    (hp : p < 2 ^ 128) :
    c.generator_remainder p < 2 ^ 32 ∧
    pval 32 (c.generator_remainder p) =
      pval 128 p %ₘ (X ^ 32 + natPoly c.props_g) := by
  have hglt : c.g < 2 ^ 64 := by
    rw [hwf.hfull]
    exact gfull_lt _
  have hdeg : deg 64 c.g = 32 := by
    rw [hwf.hfull]
    exact deg_gfull hwf.hg
  obtain ⟨hrlt, hrmod, hrval⟩ := rem_128_64_spec p c.g hp hglt (by omega)
  rw [hdeg] at hrmod
  constructor
  · rw [CRC32.generator_remainder, Nat.shiftRight_eq_div_pow]
    exact (Nat.div_lt_iff_lt_mul (by positivity)).mpr
      (lt_of_lt_of_le hrlt (by norm_num))
  · rw [CRC32.generator_remainder,
      pval_unwiden_64_32 hrlt (by rwa [show (64 : Nat) - 32 = 32 from rfl] at hrmod),
      hrval, hwf.hfull, pval_gfull hwf.hg]

/-- CRC32::compute_suffix_polynomial (src/lib.rs line 138), in the reflected
meaning: S = ((C' + F) * xn_inv mod G) + C + F. -/
theorem compute_suffix_polynomial_spec (c : CRC32) (hwf : c.wf) (d : List Nat)
    (hd : ∀ b ∈ d, b < 256) (t : Nat) (ht : t < 2 ^ 32) :
    c.compute_suffix_polynomial d t < 2 ^ 32 ∧
    pval 32 (c.compute_suffix_polynomial d t) =
      ((pval 32 t + pval 32 c.props_f) * pval 32 c.xn_inv) %ₘ
        (X ^ 32 + natPoly c.props_g) +
        pval 32 (c.checksum d) + pval 32 c.props_f := by
  have htf : t ^^^ c.props_f < 2 ^ 32 := Nat.xor_lt_two_pow ht hwf.hf
  obtain ⟨hmlt, hmval⟩ := mul_32_32_spec htf hwf.hxi
  have hwide : widen_64_128 (mul_32_32 (t ^^^ c.props_f) c.xn_inv) < 2 ^ 128 :=
    widen_64_128_lt hmlt
  obtain ⟨hglt, hgval⟩ := generator_remainder_spec c hwf _ hwide
  obtain ⟨hclt, _⟩ := checksum_spec c hwf d hd
  rw [CRC32.compute_suffix_polynomial]
  refine ⟨Nat.xor_lt_two_pow (Nat.xor_lt_two_pow hglt hclt) hwf.hf, ?_⟩
  rw [pval_add, pval_add, hgval, pval_widen_64_128 hmlt, hmval, pval_add]

/-- Core of claim C1: appending the four suffix bytes drives the checksum to
the requested target. -/
theorem compute_suffix_roundtrip (c : CRC32) (hwf : c.wf) (d : List Nat)
    (hd : ∀ b ∈ d, b < 256) (t : Nat) (ht : t < 2 ^ 32) :
    c.checksum (d ++ c.compute_suffix d t) = t := by
  have hmon := monic_gpoly hwf.hg
  have hdegG := natDegree_gpoly hwf.hg
  obtain ⟨hsplt, hspval⟩ := compute_suffix_polynomial_spec c hwf d hd t ht
  obtain ⟨hclt, hcval⟩ := checksum_spec c hwf d hd
  have hSbytes : ∀ b ∈ c.compute_suffix d t, b < 256 := toLEBytes4_bytes_lt _
  have hd2 : ∀ b ∈ d ++ c.compute_suffix d t, b < 256 := by
    intro b hb
    rcases List.mem_append.mp hb with h | h
    · exact hd b h
    · exact hSbytes b h
  obtain ⟨hlt2, hval2⟩ := checksum_spec c hwf (d ++ c.compute_suffix d t) hd2
  have hlen2 : (d ++ c.compute_suffix d t).length = d.length + 4 := by
    rw [List.length_append, CRC32.compute_suffix, toLEBytes4_length]
  have hdp2 : dataPoly (d ++ c.compute_suffix d t) =
      X ^ 32 * dataPoly d + pval 32 (c.compute_suffix_polynomial d t) := by
    rw [dataPoly_append d _ hd hSbytes, CRC32.compute_suffix, toLEBytes4_length,
      dataPoly_toLEBytes4 hsplt]
  rw [hlen2, hdp2] at hval2
  -- name the pieces
  set Gq : Polynomial (ZMod 2) := X ^ 32 + natPoly c.props_g with hGq
  set dP := dataPoly d with hdP
  set Tp := pval 32 t with hTp
  set Fp := pval 32 c.props_f with hFp
  set Ip := pval 32 c.props_i with hIp
  set Cp := pval 32 (c.checksum d) with hCp
  set Sp := pval 32 (c.compute_suffix_polynomial d t) with hSp
  set XnInv := pval 32 c.xn_inv with hXnInv
  -- the numerator in hval2, rewritten as X^32 * (W + Sp)
  have hnum : X ^ 32 * (X ^ 32 * dP + Sp) +
      X ^ (8 * (d.length + 4)) * Ip =
      X ^ 32 * ((X ^ 32 * dP + X ^ (8 * d.length) * Ip) + Sp) := by
    rw [show 8 * (d.length + 4) = 32 + 8 * d.length from by ring, pow_add]
    set Y := (X : Polynomial (ZMod 2)) ^ (8 * d.length) with hY
    ring
  rw [hnum] at hval2
  -- congruence chain for the numerator
  have hW : pcong Gq (X ^ 32 * dP + X ^ (8 * d.length) * Ip)
      (Cp + Fp) := by
    refine pcong_trans (pcong_mod hmon _) (pcong_of_eq ?_)
    have h2 := poly2_add_self Fp
    linear_combination -hcval - h2
  have hSp2 : pcong Gq Sp
      (((Tp + Fp) * XnInv) %ₘ Gq + Cp + Fp) := pcong_of_eq hspval
  have hstep1 : pcong Gq ((X ^ 32 * dP + X ^ (8 * d.length) * Ip) + Sp)
      ((Cp + Fp) + (((Tp + Fp) * XnInv) %ₘ Gq + Cp + Fp)) :=
    pcong_add hW hSp2
  have hstep2 : pcong Gq ((Cp + Fp) + (((Tp + Fp) * XnInv) %ₘ Gq + Cp + Fp))
      ((Tp + Fp) * XnInv) := by
    refine pcong_trans (pcong_of_eq ?_) (pcong_symm (pcong_mod hmon _))
    have h2 := poly2_add_self (Cp + Fp)
    linear_combination h2
  have hstep3 : pcong Gq ((X ^ 32 * dP + X ^ (8 * d.length) * Ip) + Sp)
      ((Tp + Fp) * XnInv) := pcong_trans hstep1 hstep2
  have hker : pcong Gq (X ^ 32 * XnInv) 1 := hwf.hinv
  have hstep4 : pcong Gq (X ^ 32 * ((X ^ 32 * dP + X ^ (8 * d.length) * Ip) + Sp))
      (Tp + Fp) := by
    refine pcong_trans (pcong_mul_left (X ^ 32) hstep3) ?_
    refine pcong_trans (pcong_of_eq (show X ^ 32 * ((Tp + Fp) * XnInv) =
      (Tp + Fp) * (X ^ 32 * XnInv) from by ring)) ?_
    refine pcong_trans (pcong_mul_left (Tp + Fp) hker) (pcong_of_eq (by ring))
  have hfinal : (X ^ 32 * ((X ^ 32 * dP + X ^ (8 * d.length) * Ip) + Sp)) %ₘ Gq =
      Tp + Fp := by
    refine pcong_mod_right hmon ?_ hstep4
    rw [hdegG]
    apply lt_of_le_of_lt (natDegree_add_le _ _)
    rw [Nat.max_lt, hTp, hFp]
    have h1 := pval_natDegree_le ht
    have h2 := pval_natDegree_le hwf.hf
    omega
  rw [hfinal] at hval2
  apply pval_inj (w := 32)
  rw [hval2, ← hTp]
  have h2 := poly2_add_self Fp
  linear_combination h2



/-! ### powMod, modular inverses of X^m, and the insertion algebra -/

theorem pcong_mul_right (c : Polynomial (ZMod 2)) {m a b : Polynomial (ZMod 2)}
    (h : pcong m a b) : pcong m (a * c) (b * c) := by
  rw [pcong, show a * c + b * c = c * (a + b) from by ring]
  exact h.mul_left c

theorem pcong_zero {m a : Polynomial (ZMod 2)} (h : m ∣ a) : pcong m a 0 := by
  rwa [pcong, add_zero]

/-- The spec-modelled Polynomial::pow reduced mod m: bound, cleared low bits
and meaning X-to-the-e mod m. -/
theorem powMod_spec (m : Nat) (hm : m < 2 ^ 64) (hdm : 1 ≤ deg 64 m) (x : Nat)
    (hx : x < 2 ^ 64) : ∀ e : Nat,
    powMod x e m < 2 ^ 64 ∧ powMod x e m % 2 ^ (64 - deg 64 m) = 0 ∧
    pval 64 (powMod x e m) = (pval 64 x) ^ e %ₘ pval 64 m := by
  have hm0 : m ≠ 0 := ne_zero_of_deg_pos hdm
  obtain ⟨hmon, hdeg⟩ := pval_monic 64 m (by omega) hm0 hm
  intro e
  induction e with
  | zero =>
    refine ⟨one64_lt, ?_, ?_⟩
    · rw [powMod, one64_eq]
      exact Nat.dvd_iff_mod_eq_zero.mp
        (pow_dvd_pow 2 (by have := deg_le 64 m; omega))
    · rw [powMod, pval_one64, pow_zero, one_modByMonic hmon (by omega)]
  | succ e ih =>
    obtain ⟨hlt, hmod, hval⟩ := ih
    have hmul_lt : mul64 (powMod x e m) x < 2 ^ 128 := mul64_lt hlt hx
    obtain ⟨h1, h2, h3⟩ := rem_128_64_spec (mul64 (powMod x e m) x) m hmul_lt hm hdm
    refine ⟨h1, h2, ?_⟩
    show pval 64 (rem_128_64 (mul64 (powMod x e m) x) m) = _
    rw [h3, pval_mul64 hlt hx, hval]
    apply pcong_mod_eq hmon
    refine pcong_trans (pcong_of_eq (mul_comm _ _)) ?_
    refine pcong_trans
      (pcong_mul_left (pval 64 x) (pcong_symm (pcong_mod hmon _))) ?_
    exact pcong_of_eq (by ring)

/-- The pure congruence algebra behind compute_inserted: with the two
inverse-kernel certificates, the final inserted polynomial splices to the
target checksum. -/
theorem insertion_algebra
    (Gq dPre dSuf Tp Fp Ip Cp Sp SufP FinP XnInv XmInv : Polynomial (ZMod 2))
    (hmon : Gq.Monic) (o s : Nat)
    (hCp : Cp = (X ^ 32 * (X ^ (8 * s) * dPre + dSuf) +
      X ^ (8 * (o + s)) * Ip) %ₘ Gq + Fp)
    (hSp : Sp = ((Tp + Fp) * XnInv) %ₘ Gq + Cp + Fp)
    (hSufP : SufP = dSuf %ₘ Gq)
    (hFin : FinP = ((Sp + SufP + (X ^ 32 * SufP) %ₘ Gq) * XmInv) %ₘ Gq)
    (hker1 : pcong Gq (X ^ 32 * XnInv) 1)
    (hker2 : pcong Gq (X ^ (8 * s) * XmInv) 1) :
    pcong Gq
      (X ^ 32 * (X ^ (8 * (s + 4)) * dPre + X ^ (8 * s) * FinP + dSuf) +
        X ^ (8 * (o + s + 4)) * Ip)
      (Tp + Fp) := by
  have h2 := poly2_add_self (1 : Polynomial (ZMod 2))
  set k : Polynomial (ZMod 2) := X ^ 32 with hk
  set y : Polynomial (ZMod 2) := X ^ (8 * s) with hy
  set u : Polynomial (ZMod 2) := X ^ (8 * (o + s)) with hu
  set W : Polynomial (ZMod 2) := k * (y * dPre + dSuf) + u * Ip with hW
  set R : Polynomial (ZMod 2) := ((Tp + Fp) * XnInv) %ₘ Gq with hR
  have hexp1 : (X : Polynomial (ZMod 2)) ^ (8 * (s + 4)) = y * k := by
    rw [show 8 * (s + 4) = 8 * s + 32 from by ring, hy, hk, ← pow_add]
  have hexp2 : (X : Polynomial (ZMod 2)) ^ (8 * (o + s + 4)) = u * k := by
    rw [show 8 * (o + s + 4) = 8 * (o + s) + 32 from by ring, hu, hk, ← pow_add]
  rw [hexp1, hexp2]
  -- step A: the suffix polynomial is congruent to the suffix data polynomial
  have hA : pcong Gq SufP dSuf := by
    rw [hSufP]
    exact pcong_symm (pcong_mod hmon dSuf)
  -- step B: the X^32-shifted reduced suffix polynomial
  have hB : pcong Gq ((k * SufP) %ₘ Gq) (k * dSuf) :=
    pcong_trans (pcong_symm (pcong_mod hmon (k * SufP))) (pcong_mul_left k hA)
  -- step C: the intermediate inserted value
  have hC : pcong Gq (Sp + SufP + (k * SufP) %ₘ Gq) (Sp + (1 + k) * dSuf) := by
    refine pcong_trans (pcong_add (pcong_add (pcong_refl Gq Sp) hA) hB)
      (pcong_of_eq (by ring))
  -- step D: the final inserted polynomial before the splice
  have hD : pcong Gq FinP ((Sp + (1 + k) * dSuf) * XmInv) := by
    refine pcong_trans ?_ (pcong_mul_right XmInv hC)
    rw [hFin]
    exact pcong_symm (pcong_mod hmon _)
  -- step F: the shifted final polynomial collapses through the X^m kernel
  have hF : pcong Gq (k * y * FinP) (k * Sp + k * (1 + k) * dSuf) := by
    refine pcong_trans (pcong_mul_left (k * y) hD) ?_
    refine pcong_trans (pcong_of_eq (show k * y * ((Sp + (1 + k) * dSuf) * XmInv) =
      (k * (Sp + (1 + k) * dSuf)) * (y * XmInv) from by ring)) ?_
    refine pcong_trans (pcong_mul_left (k * (Sp + (1 + k) * dSuf)) hker2)
      (pcong_of_eq (by ring))
  -- step G: absorb the checksum congruence
  have hzero : pcong Gq (k * W + k * (W %ₘ Gq)) 0 := by
    apply pcong_zero
    have hd := pcong_mul_left k (pcong_mod hmon W)
    exact hd
  have hkSp : k * W + k * Sp = (k * W + k * (W %ₘ Gq)) + k * R := by
    rw [hSp, hCp, hW]
    linear_combination (k * Fp) * h2
  have hG : pcong Gq (k * W + k * Sp) (k * R) := by
    rw [hkSp]
    refine pcong_trans (pcong_add hzero (pcong_refl Gq (k * R)))
      (pcong_of_eq (by ring))
  -- step H: the returned value meets the target through the X^32 kernel
  have hH : pcong Gq (k * R) (Tp + Fp) := by
    refine pcong_trans (pcong_mul_left k (pcong_symm (pcong_mod hmon _))) ?_
    refine pcong_trans (pcong_of_eq (show k * ((Tp + Fp) * XnInv) =
      (Tp + Fp) * (k * XnInv) from by ring)) ?_
    exact pcong_trans (pcong_mul_left (Tp + Fp) hker1) (pcong_of_eq (by ring))
  -- assembly
  have hE : k * (y * k * dPre + y * FinP + dSuf) + u * k * Ip =
      (k * W + k * y * FinP) + (k + k * k) * dSuf := by
    rw [hW]
    linear_combination (-(k * k * dSuf)) * h2
  rw [hE]
  refine pcong_trans (pcong_add (pcong_add (pcong_refl Gq (k * W)) hF)
    (pcong_refl Gq ((k + k * k) * dSuf))) ?_
  refine pcong_trans (pcong_of_eq ?_) (pcong_trans hG hH)
  linear_combination ((k + k * k) * dSuf) * h2



theorem narrow_64_32_ok {v : Nat} (hz : v % 2 ^ 32 = 0) :
    narrow_64_32 v = .ok (v >>> 32) := by
  rw [narrow_64_32, show (0xffffffff : Nat) = 2 ^ 32 - 1 from by norm_num,
    Nat.and_pow_two_sub_one_eq_mod, hz]
  simp

theorem shr32_lt {v : Nat} (hv : v < 2 ^ 64) : v >>> 32 < 2 ^ 32 := by
  rw [Nat.shiftRight_eq_div_pow]
  exact (Nat.div_lt_iff_lt_mul (by positivity)).mpr (lt_of_lt_of_le hv (by norm_num))

/-- X^e is coprime with the full generator whenever the engine holds an
inverse certificate for X^32. -/
theorem isCoprime_X_pow_G {c : CRC32} (hwf : c.wf) (e : Nat) :
    IsCoprime ((X : Polynomial (ZMod 2)) ^ e) (X ^ 32 + natPoly c.props_g) := by
  have h2 := poly2_add_self (1 : Polynomial (ZMod 2))
  have h32 : IsCoprime ((X : Polynomial (ZMod 2)) ^ 32)
      (X ^ 32 + natPoly c.props_g) := by
    obtain ⟨cc, hcc⟩ := hwf.hinv
    exact ⟨pval 32 c.xn_inv, cc,
      by linear_combination hcc + ((X ^ 32 + natPoly c.props_g) * cc - 1) * h2⟩
  have hX : IsCoprime (X : Polynomial (ZMod 2)) (X ^ 32 + natPoly c.props_g) :=
    (IsCoprime.pow_left_iff (by omega)).mp h32
  exact IsCoprime.pow_left hX

theorem isCoprime_mod {a m : Polynomial (ZMod 2)} (hmon : m.Monic)
    (h : IsCoprime a m) : IsCoprime (a %ₘ m) m := by
  have heq : a %ₘ m = a + m * (a /ₘ m) := by
    rw [modByMonic_eq_sub_mul_div a hmon, poly2_sub_eq_add]
  rw [heq]
  exact h.add_mul_left_left _



/-- Offsets beyond the data length make compute_inserted_polynomial fail with
the overflow error (the checked_sub().ok_or(OverflowError) path). -/
theorem compute_inserted_polynomial_err (c : CRC32) (d : List Nat)
    (offset t : Nat) (hoff : d.length < offset) :
    c.compute_inserted_polynomial d offset t = .error Error.OverflowError := by
  rw [CRC32.compute_inserted_polynomial]
  simp only [bind, Except.bind]
  rw [if_neg (by omega)]

theorem compute_inserted_err (c : CRC32) (d : List Nat) (offset t : Nat)
    (hoff : d.length < offset) :
    c.compute_inserted d offset t = .error Error.OverflowError := by
  rw [CRC32.compute_inserted]
  simp only [bind, Except.bind]
  rw [compute_inserted_polynomial_err c d offset t hoff]

theorem except_bind_ok {A B : Type} (a : A) (f : A → Except Error B) :
    Except.bind (Except.ok a) f = f a := rfl

/-- The checksum of data spliced with a 4-byte patch at position offset, in
terms of the three data-polynomial pieces. -/
theorem checksum_splice (c : CRC32) (hwf : c.wf) (d : List Nat)
    (hd : ∀ b ∈ d, b < 256) (offset : Nat) (hoff : offset ≤ d.length)
    (patch : List Nat) (hp4 : patch.length = 4) (hpb : ∀ b ∈ patch, b < 256) :
    pval 32 (c.checksum (d.take offset ++ patch ++ d.drop offset)) =
      (X ^ 32 * (X ^ (8 * (d.length - offset + 4)) * dataPoly (d.take offset) +
        X ^ (8 * (d.length - offset)) * dataPoly patch +
        dataPoly (d.drop offset)) +
        X ^ (8 * (offset + (d.length - offset) + 4)) * pval 32 c.props_i) %ₘ
        (X ^ 32 + natPoly c.props_g) + pval 32 c.props_f := by
  have hpreb : ∀ b ∈ d.take offset, b < 256 :=
    fun b hb => hd b (List.take_subset offset d hb)
  have hsufb : ∀ b ∈ d.drop offset, b < 256 :=
    fun b hb => hd b (List.drop_subset offset d hb)
  have hpsb : ∀ b ∈ patch ++ d.drop offset, b < 256 := by
    intro b hb
    rcases List.mem_append.mp hb with h | h
    · exact hpb b h
    · exact hsufb b h
  have hDb : ∀ b ∈ d.take offset ++ patch ++ d.drop offset, b < 256 := by
    intro b hb
    rcases List.mem_append.mp hb with h | h
    · rcases List.mem_append.mp h with h3 | h3
      · exact hpreb b h3
      · exact hpb b h3
    · exact hsufb b h
  obtain ⟨_, hval⟩ := checksum_spec c hwf _ hDb
  have hlen : (d.take offset ++ patch ++ d.drop offset).length =
      offset + (d.length - offset) + 4 := by
    simp only [List.length_append, List.length_take, List.length_drop, hp4]
    omega
  have hdp : dataPoly (d.take offset ++ patch ++ d.drop offset) =
      X ^ (8 * (d.length - offset + 4)) * dataPoly (d.take offset) +
      (X ^ (8 * (d.length - offset)) * dataPoly patch +
        dataPoly (d.drop offset)) := by
    rw [List.append_assoc, dataPoly_append _ _ hpreb hpsb,
      dataPoly_append _ _ hpb hsufb,
      List.length_append, List.length_drop, hp4,
      show 4 + (d.length - offset) = d.length - offset + 4 from by ring]
  rw [hval, hlen, hdp]
  congr 2
  ring

/-- Core of the corrected claim C2: for a valid offset the patch always comes
back, and splicing it at byte position `offset` counted from the START of the
data drives the checksum to the target. -/
theorem compute_inserted_roundtrip (c : CRC32) (hwf : c.wf) (d : List Nat)
    (hd : ∀ b ∈ d, b < 256) (offset : Nat) (hoff : offset ≤ d.length)
    (t : Nat) (ht : t < 2 ^ 32) :
    ∃ patch : List Nat, c.compute_inserted d offset t = .ok patch ∧
      patch.length = 4 ∧ (∀ b ∈ patch, b < 256) ∧
      c.checksum (d.take offset ++ patch ++ d.drop offset) = t := by
  have hmon := monic_gpoly hwf.hg
  have hdegG := natDegree_gpoly hwf.hg
  have hglt : c.g < 2 ^ 64 := by
    rw [hwf.hfull]
    exact gfull_lt _
  have hgdeg : deg 64 c.g = 32 := by
    rw [hwf.hfull]
    exact deg_gfull hwf.hg
  -- the X^(8 * end_offset) power and its narrowing
  obtain ⟨hxm_lt, hxm_mod, hxm_val⟩ := powMod_spec c.g hglt (by omega)
    (reverse_u64 2) (reverse_u64_lt 2) (8 * (d.length - offset))
  rw [hgdeg, show (64 : Nat) - 32 = 32 from rfl] at hxm_mod
  rw [pval_X_stored,
    show pval 64 c.g = X ^ 32 + natPoly c.props_g from by
      rw [hwf.hfull, pval_gfull hwf.hg]] at hxm_val
  have hnarrow1 := narrow_64_32_ok hxm_mod
  have hxm32 : powMod (reverse_u64 2) (8 * (d.length - offset)) c.g >>> 32 < 2 ^ 32 :=
    shr32_lt hxm_lt
  have hxm_pv : pval 32 (powMod (reverse_u64 2) (8 * (d.length - offset)) c.g >>> 32) =
      (X ^ (8 * (d.length - offset))) %ₘ (X ^ 32 + natPoly c.props_g) := by
    rw [pval_unwiden_64_32 hxm_lt hxm_mod, hxm_val]
  -- the inverse of X^(8 * end_offset)
  have hwxm_lt : widen_32_64 (powMod (reverse_u64 2) (8 * (d.length - offset)) c.g >>> 32)
      < 2 ^ 64 := widen_32_64_lt hxm32
  have hwxm_pv : pval 64 (widen_32_64
      (powMod (reverse_u64 2) (8 * (d.length - offset)) c.g >>> 32)) =
      (X ^ (8 * (d.length - offset))) %ₘ (X ^ 32 + natPoly c.props_g) := by
    rw [pval_widen_32_64 hxm32, hxm_pv]
  have hcop : IsCoprime (pval 64 (widen_32_64
      (powMod (reverse_u64 2) (8 * (d.length - offset)) c.g >>> 32)))
      (pval 64 c.g) := by
    rw [hwxm_pv, hwf.hfull, pval_gfull hwf.hg]
    exact isCoprime_mod hmon (isCoprime_X_pow_G hwf _)
  rcases hinv : inv_mod (widen_32_64
      (powMod (reverse_u64 2) (8 * (d.length - offset)) c.g >>> 32)) c.g with e | xmi
  · exact absurd hcop
      ((inv_mod_spec _ c.g hwxm_lt hglt (by omega)).1 e hinv).2
  obtain ⟨hxmi_lt, hxmi_mod, hxmi_dvd⟩ :=
    (inv_mod_spec _ c.g hwxm_lt hglt (by omega)).2 xmi hinv
  rw [hgdeg, show (64 : Nat) - 32 = 32 from rfl] at hxmi_mod
  have hnarrow2 := narrow_64_32_ok hxmi_mod
  have hxmi32 : xmi >>> 32 < 2 ^ 32 := shr32_lt hxmi_lt
  have hxmi_pv : pval 32 (xmi >>> 32) = pval 64 xmi :=
    pval_unwiden_64_32 hxmi_lt hxmi_mod
  -- the suffix polynomial
  have hsufb : ∀ b ∈ d.drop offset, b < 256 :=
    fun b hb => hd b (List.drop_subset offset d hb)
  obtain ⟨hsufp_lt, hsufp_val⟩ := fast_rem_spec c hwf.hg (d.drop offset) hsufb 0
    (by positivity)
  rw [pval_zero, mul_zero, add_zero] at hsufp_val
  -- the suffix compensation term
  have hmulA_lt : mul64 (reverse_u64 ((1 : Nat) <<< 32))
      (widen_32_64 (c.fast_rem (d.drop offset) 0)) < 2 ^ 128 :=
    mul64_lt (reverse_u64_lt _) (widen_32_64_lt hsufp_lt)
  obtain ⟨hgrt_lt, hgrt_val⟩ := generator_remainder_spec c hwf _ hmulA_lt
  rw [pval_mul64 (reverse_u64_lt _) (widen_32_64_lt hsufp_lt), pval_xn_stored,
    pval_widen_32_64 hsufp_lt] at hgrt_val
  -- the suffix polynomial of the original data
  obtain ⟨hsp_lt, hsp_val⟩ := compute_suffix_polynomial_spec c hwf d hd t ht
  -- the assembled inserted polynomial
  have hins3_lt : c.compute_suffix_polynomial d t ^^^ c.fast_rem (d.drop offset) 0 ^^^
      c.generator_remainder (mul64 (reverse_u64 ((1 : Nat) <<< 32))
        (widen_32_64 (c.fast_rem (d.drop offset) 0))) < 2 ^ 32 :=
    Nat.xor_lt_two_pow (Nat.xor_lt_two_pow hsp_lt hsufp_lt) hgrt_lt
  obtain ⟨hm32_lt, hm32_val⟩ := mul_32_32_spec hins3_lt hxmi32
  obtain ⟨hfin_lt, hfin_val⟩ := generator_remainder_spec c hwf
    (widen_64_128 (mul_32_32 _ (xmi >>> 32))) (widen_64_128_lt hm32_lt)
  rw [pval_widen_64_128 hm32_lt, hm32_val] at hfin_val
  -- the program takes the success path
  have hprog : c.compute_inserted_polynomial d offset t = .ok
      (c.generator_remainder (widen_64_128 (mul_32_32
        (c.compute_suffix_polynomial d t ^^^ c.fast_rem (d.drop offset) 0 ^^^
          c.generator_remainder (mul64 (reverse_u64 ((1 : Nat) <<< 32))
            (widen_32_64 (c.fast_rem (d.drop offset) 0))))
        (xmi >>> 32)))) := by
    rw [CRC32.compute_inserted_polynomial]
    simp only [bind, if_pos hoff, hnarrow1, hinv, hnarrow2, except_bind_ok]
  have hprog2 : c.compute_inserted d offset t = .ok (toLEBytes4
      (c.generator_remainder (widen_64_128 (mul_32_32
        (c.compute_suffix_polynomial d t ^^^ c.fast_rem (d.drop offset) 0 ^^^
          c.generator_remainder (mul64 (reverse_u64 ((1 : Nat) <<< 32))
            (widen_32_64 (c.fast_rem (d.drop offset) 0))))
        (xmi >>> 32))))) := by
    rw [CRC32.compute_inserted]
    simp only [bind, hprog, except_bind_ok]
  rw [pval_add, pval_add, hgrt_val] at hfin_val
  obtain ⟨hcd_lt, hcd_val⟩ := checksum_spec c hwf d hd
  have hpreb : ∀ b ∈ d.take offset, b < 256 :=
    fun b hb => hd b (List.take_subset offset d hb)
  have hdd : dataPoly d =
      X ^ (8 * (d.length - offset)) * dataPoly (d.take offset) +
        dataPoly (d.drop offset) := by
    conv_lhs => rw [← List.take_append_drop offset d]
    rw [dataPoly_append _ _ hpreb hsufb, List.length_drop]
  rw [hdd, show (8 : Nat) * d.length = 8 * (offset + (d.length - offset))
    from by omega] at hcd_val
  have hker2 : pcong (X ^ 32 + natPoly c.props_g)
      (X ^ (8 * (d.length - offset)) * pval 32 (xmi >>> 32)) 1 := by
    have hdvd : pcong (X ^ 32 + natPoly c.props_g)
        ((X ^ (8 * (d.length - offset)) %ₘ (X ^ 32 + natPoly c.props_g)) *
          pval 32 (xmi >>> 32)) 1 := by
      rw [pcong, ← hwxm_pv, hxmi_pv, ← pval_gfull hwf.hg, ← hwf.hfull]
      exact hxmi_dvd
    exact pcong_trans (pcong_mul_right _ (pcong_mod hmon _)) hdvd
  have halg := insertion_algebra _ _ _ _ _ _ _ _ _ _ _ _ hmon offset
    (d.length - offset) hcd_val hsp_val hsufp_val hfin_val hwf.hinv hker2
  refine ⟨_, hprog2, toLEBytes4_length _, toLEBytes4_bytes_lt _, ?_⟩
  apply pval_inj (w := 32)
  rw [checksum_splice c hwf d hd offset hoff _ (toLEBytes4_length _)
    (toLEBytes4_bytes_lt _), dataPoly_toLEBytes4 hfin_lt]
  have hdlt : (pval 32 t + pval 32 c.props_f).natDegree <
      (X ^ 32 + natPoly c.props_g).natDegree := by
    rw [natDegree_gpoly hwf.hg]
    apply lt_of_le_of_lt (natDegree_add_le _ _)
    rw [Nat.max_lt]
    have h1 := pval_natDegree_le ht
    have h2 := pval_natDegree_le hwf.hf
    omega
  rw [pcong_mod_right hmon hdlt halg]
  have h2 := poly2_add_self (pval 32 c.props_f)
  linear_combination h2


theorem narrow_128_64_ok {v : Nat} (hz : v % 2 ^ 64 = 0) :
    narrow_128_64 v = .ok (v >>> 64) := by
  rw [narrow_128_64, show (0xffffffffffffffff : Nat) = 2 ^ 64 - 1 from by norm_num,
    Nat.and_pow_two_sub_one_eq_mod, hz]
  simp

theorem stdEngine_new :
    CRC32.new 0x04C11DB7 0xFFFFFFFF 0xFFFFFFFF = .ok stdEngine := by decide


/-! ## Claim theorems -/

/-- C1: for every successfully constructed CRC32 engine, every byte sequence d
and every 32-bit target t, compute_suffix(d, t) returns 4 bytes S with
checksum(d ++ S) = t. -/
theorem c1_suffix_roundtrip (g i f : Nat) (c : CRC32) (hg : g < 2 ^ 32)
    (hi : i < 2 ^ 32) (hf : f < 2 ^ 32) (hnew : CRC32.new g i f = .ok c)
    (d : List Nat) (hd : ∀ b ∈ d, b < 256) (t : Nat) (ht : t < 2 ^ 32) :
    (c.compute_suffix d t).length = 4 ∧
    c.checksum (d ++ c.compute_suffix d t) = t := by
  obtain ⟨hwf, _, _, _⟩ := new_ok_wf hg hi hf hnew
  exact ⟨toLEBytes4_length _, compute_suffix_roundtrip c hwf d hd t ht⟩

theorem c1_suffix_roundtrip_witness :
    (stdEngine.compute_suffix [0x61] 0x12345678).length = 4 ∧
    stdEngine.checksum ([0x61] ++ stdEngine.compute_suffix [0x61] 0x12345678) =
      0x12345678 :=
  c1_suffix_roundtrip 0x04C11DB7 0xFFFFFFFF 0xFFFFFFFF stdEngine (by norm_num)
    (by norm_num) (by norm_num) stdEngine_new [0x61] (by decide) 0x12345678
    (by norm_num)

/-- C2 (amended): the original claim places the patch at byte position
len(d) - offset; the code in fact inserts it at byte position `offset`
counted from the start (offset is the number of LEADING bytes that stay
before the patch; the repository's own tests splice data[..offset] ++ patch ++
data[offset..]).  With that convention the round-trip holds: for every
successfully constructed engine, data d, offset <= len(d) and 32-bit target t,
compute_inserted returns 4 patch bytes whose splice at position `offset`
checksums to t. -/
theorem c2_insertion_roundtrip (g i f : Nat) (c : CRC32) (hg : g < 2 ^ 32)
    (hi : i < 2 ^ 32) (hf : f < 2 ^ 32) (hnew : CRC32.new g i f = .ok c)
    (d : List Nat) (hd : ∀ b ∈ d, b < 256) (offset : Nat)
    (hoff : offset ≤ d.length) (t : Nat) (ht : t < 2 ^ 32) :
    ∃ patch : List Nat, c.compute_inserted d offset t = .ok patch ∧
      patch.length = 4 ∧
      c.checksum (d.take offset ++ patch ++ d.drop offset) = t := by
  obtain ⟨hwf, _, _, _⟩ := new_ok_wf hg hi hf hnew
  obtain ⟨patch, h1, h2, _, h4⟩ :=
    compute_inserted_roundtrip c hwf d hd offset hoff t ht
  exact ⟨patch, h1, h2, h4⟩

/-- C2 counterexample to the original reading: for d = [0x61], offset = 0 and
target 0x42424242 the patch is [217, 15, 100, 220], but splicing it at byte
position len(d) - offset = 1 (as the claim prescribes) does NOT give the
target checksum (it lands at position 0 instead). -/
theorem c2_counterexample :
    CRC32.new 0x04C11DB7 0xFFFFFFFF 0xFFFFFFFF = .ok stdEngine ∧
    stdEngine.compute_inserted [0x61] 0 0x42424242 = .ok [217, 15, 100, 220] ∧
    stdEngine.checksum (List.take ([0x61].length - 0) [0x61] ++
      [217, 15, 100, 220] ++ List.drop ([0x61].length - 0) [0x61]) ≠
      0x42424242 ∧
    stdEngine.checksum (List.take 0 [0x61] ++ [217, 15, 100, 220] ++
      List.drop 0 [0x61]) = 0x42424242 :=
  ⟨stdEngine_new, by decide, by decide, by decide⟩

theorem c2_insertion_roundtrip_witness :
    ∃ patch : List Nat, stdEngine.compute_inserted [0x61] 0 0x42424242 =
      .ok patch ∧ patch.length = 4 ∧
      stdEngine.checksum (List.take 0 [0x61] ++ patch ++ List.drop 0 [0x61]) =
        0x42424242 :=
  c2_insertion_roundtrip 0x04C11DB7 0xFFFFFFFF 0xFFFFFFFF stdEngine
    (by norm_num) (by norm_num) (by norm_num) stdEngine_new [0x61] (by decide)
    0 (by decide) 0x42424242 (by norm_num)

/-- C3: with the standard CRC32 parameters the engine reproduces the golden
vectors: checksum("") = 0, checksum("a") = 0xE8B7BE43,
checksum("hello, world!") = 0x58988D13. -/
theorem c3_golden_vectors :
    CRC32.new 0x04C11DB7 0xFFFFFFFF 0xFFFFFFFF = .ok stdEngine ∧
    stdEngine.checksum [] = 0 ∧
    stdEngine.checksum [0x61] = 0xE8B7BE43 ∧
    stdEngine.checksum [0x68, 0x65, 0x6C, 0x6C, 0x6F, 0x2C, 0x20, 0x77, 0x6F,
      0x72, 0x6C, 0x64, 0x21] = 0x58988D13 :=
  ⟨stdEngine_new, by decide, by decide, by decide⟩

/-- C4: for every 64-bit stored polynomial p and modulus m of degree at least
one, inv_mod fails (necessarily with NonInvertibleError) exactly when p and m
are not coprime over GF(2), and a returned q satisfies (p * q) mod m = 1. -/
theorem c4_inv_mod (p m : Nat) (hp : p < 2 ^ 64) (hm : m < 2 ^ 64)
    (hd : 1 ≤ deg 64 m) :
    (inv_mod p m = .error Error.NonInvertibleError ↔
      ¬ IsCoprime (pval 64 p) (pval 64 m)) ∧
    (∀ q, inv_mod p m = .ok q → q < 2 ^ 64 ∧
      (pval 64 p * pval 64 q) %ₘ pval 64 m = 1) := by
  obtain ⟨herr, hok⟩ := inv_mod_spec p m hp hm hd
  have hm0 : m ≠ 0 := ne_zero_of_deg_pos hd
  obtain ⟨hmon, hdeg⟩ := pval_monic 64 m (by omega) hm0 hm
  constructor
  · constructor
    · intro h
      exact (herr _ h).2
    · intro hnc
      rcases hcase : inv_mod p m with e | q
      · rw [(herr e hcase).1]
      · exact absurd (inv_mod_ok_coprime hp hm hd hcase) hnc
  · intro q hq
    obtain ⟨hlt, _, hdvd⟩ := hok q hq
    exact ⟨hlt, modByMonic_eq_one_of_dvd hmon (by omega) hdvd⟩

theorem c4_inv_mod_witness :
    ((reverse_u64 ((1 : Nat) <<< 32) < 2 ^ 64) ∧
      (0xEDB8832080000000 : Nat) < 2 ^ 64 ∧
      1 ≤ deg 64 0xEDB8832080000000) ∧
    ((inv_mod (reverse_u64 ((1 : Nat) <<< 32)) 0xEDB8832080000000 =
        .error Error.NonInvertibleError ↔
      ¬ IsCoprime (pval 64 (reverse_u64 ((1 : Nat) <<< 32)))
        (pval 64 0xEDB8832080000000)) ∧
    (∀ q, inv_mod (reverse_u64 ((1 : Nat) <<< 32)) 0xEDB8832080000000 =
        .ok q → q < 2 ^ 64 ∧
      (pval 64 (reverse_u64 ((1 : Nat) <<< 32)) * pval 64 q) %ₘ
        pval 64 0xEDB8832080000000 = 1)) :=
  ⟨⟨by decide, by norm_num, by decide⟩,
    c4_inv_mod _ _ (by decide) (by norm_num) (by decide)⟩

/-- C5: the table-driven checksum refines the textbook definition: its
reflected 32-bit meaning is (poly(d) * X^32 + I * X^(8L)) mod G plus F, where
G = X^32 + g is the true generator and poly, I, F are the reflected readings
of the data and the two xor parameters. -/
theorem c5_checksum_refinement (g i f : Nat) (c : CRC32) (hg : g < 2 ^ 32)
    (hi : i < 2 ^ 32) (hf : f < 2 ^ 32) (hnew : CRC32.new g i f = .ok c)
    (d : List Nat) (hd : ∀ b ∈ d, b < 256) :
    c.checksum d < 2 ^ 32 ∧
    pval 32 (c.checksum d) =
      (dataPoly d * X ^ 32 + pval 32 i * X ^ (8 * d.length)) %ₘ
        (X ^ 32 + natPoly g) + pval 32 f := by
  obtain ⟨hwf, hg', hi', hf'⟩ := new_ok_wf hg hi hf hnew
  obtain ⟨h1, h2⟩ := checksum_spec c hwf d hd
  rw [hg', hi', hf'] at h2
  refine ⟨h1, ?_⟩
  rw [h2]
  congr 2
  ring

theorem c5_checksum_refinement_witness :
    stdEngine.checksum [0x61] < 2 ^ 32 ∧
    pval 32 (stdEngine.checksum [0x61]) =
      (dataPoly [0x61] * X ^ 32 +
        pval 32 0xFFFFFFFF * X ^ (8 * ([0x61] : List Nat).length)) %ₘ
        (X ^ 32 + natPoly 0x04C11DB7) + pval 32 0xFFFFFFFF :=
  c5_checksum_refinement 0x04C11DB7 0xFFFFFFFF 0xFFFFFFFF stdEngine
    (by norm_num) (by norm_num) (by norm_num) stdEngine_new [0x61] (by decide)

/-- C6 (amended): compute_suffix outputs the 4-byte little-endian encoding of
the INTERNAL (reflected) representation of the suffix polynomial
S = ((C' + F) * xn_inv) mod G + C + F, not of its normal (un-reflected)
representation as the original claim stated: the normal representation of S is
the bit-reversal of the emitted 32-bit value. -/
theorem c6_suffix_encoding (g i f : Nat) (c : CRC32) (hg : g < 2 ^ 32)
    (hi : i < 2 ^ 32) (hf : f < 2 ^ 32) (hnew : CRC32.new g i f = .ok c)
    (d : List Nat) (hd : ∀ b ∈ d, b < 256) (t : Nat) (ht : t < 2 ^ 32) :
    c.compute_suffix d t = toLEBytes4 (c.compute_suffix_polynomial d t) ∧
    c.compute_suffix_polynomial d t < 2 ^ 32 ∧
    natPoly (reverse_u32 (c.compute_suffix_polynomial d t)) =
      ((pval 32 t + pval 32 f) * pval 32 c.xn_inv) %ₘ (X ^ 32 + natPoly g) +
        pval 32 (c.checksum d) + pval 32 f := by
  obtain ⟨hwf, hg', hi', hf'⟩ := new_ok_wf hg hi hf hnew
  obtain ⟨hlt, hval⟩ := compute_suffix_polynomial_spec c hwf d hd t ht
  refine ⟨rfl, hlt, ?_⟩
  rw [natPoly_reverse_u32 hlt, ← hg', ← hf']
  exact hval

/-- C6 counterexample to the original reading: for the standard engine with
d = [] and t = 0, the emitted bytes differ from the little-endian encoding of
the normal (bit-reversed) representation of the suffix polynomial. -/
theorem c6_counterexample :
    CRC32.new 0x04C11DB7 0xFFFFFFFF 0xFFFFFFFF = .ok stdEngine ∧
    stdEngine.compute_suffix [] 0 = [157, 10, 217, 109] ∧
    stdEngine.compute_suffix [] 0 ≠
      toLEBytes4 (reverse_u32 (stdEngine.compute_suffix_polynomial [] 0)) :=
  ⟨stdEngine_new, by decide, by decide⟩

theorem c6_suffix_encoding_witness :
    stdEngine.compute_suffix [] 0 =
      toLEBytes4 (stdEngine.compute_suffix_polynomial [] 0) ∧
    stdEngine.compute_suffix_polynomial [] 0 < 2 ^ 32 ∧
    natPoly (reverse_u32 (stdEngine.compute_suffix_polynomial [] 0)) =
      ((pval 32 0 + pval 32 0xFFFFFFFF) * pval 32 stdEngine.xn_inv) %ₘ
        (X ^ 32 + natPoly 0x04C11DB7) + pval 32 (stdEngine.checksum []) +
        pval 32 0xFFFFFFFF :=
  c6_suffix_encoding 0x04C11DB7 0xFFFFFFFF 0xFFFFFFFF stdEngine (by norm_num)
    (by norm_num) (by norm_num) stdEngine_new [] (by decide) 0 (by norm_num)

/-- C7: the 256-entry lookup table built for generator 0x04C11DB7 is
bit-for-bit the published canonical reflected CRC32 table, each entry being
the 8-step one-bit reflected division of its index by the reflected
generator. -/
theorem c7_table_canonical :
    CRC32.new 0x04C11DB7 0xFFFFFFFF 0xFFFFFFFF = .ok stdEngine ∧
    (List.range 256).map stdEngine.table = canonical_crc32_table ∧
    (∀ i, i < 256 → stdEngine.table i =
      precompute_table i (reverse_u32 0x04C11DB7)) :=
  ⟨stdEngine_new, by decide, by decide⟩

/-- C8: for every dividend a (up to 128 bits) and divisor b of degree at least
one, the Div and Rem operators satisfy (a / b) * b + (a % b) = a with
degree(a % b) < degree(b), read through the reflected meaning map. -/
theorem c8_euclidean (a b : Nat) (ha : a < 2 ^ 128) (hb : b < 2 ^ 128)
    (hd : 1 ≤ deg 128 b) :
    pval 128 (div128 a b) * pval 128 b + pval 128 (rem128 a b) = pval 128 a ∧
    (pval 128 (rem128 a b)).natDegree < (pval 128 b).natDegree := by
  have hb0 : b ≠ 0 := ne_zero_of_deg_pos hd
  obtain ⟨hid, hmod, hrlt, hdeg, _⟩ := rem128_core a b ha hb hb0 hd
  obtain ⟨hmon, hmdeg⟩ := pval_monic 128 b (by omega) hb0 hb
  refine ⟨hid.symm, ?_⟩
  rw [hmdeg]
  omega

theorem c8_euclidean_witness :
    ((0x1234567890ABCDEF : Nat) < 2 ^ 128 ∧ (6 : Nat) < 2 ^ 128 ∧
      1 ≤ deg 128 6) ∧
    (pval 128 (div128 0x1234567890ABCDEF 6) * pval 128 6 +
      pval 128 (rem128 0x1234567890ABCDEF 6) = pval 128 0x1234567890ABCDEF ∧
    (pval 128 (rem128 0x1234567890ABCDEF 6)).natDegree <
      (pval 128 6).natDegree) :=
  ⟨⟨by norm_num, by norm_num, by decide⟩,
    c8_euclidean _ _ (by norm_num) (by norm_num) (by decide)⟩

/-- C9: compute_inserted rejects any offset strictly beyond the data length
with the typed overflow error, for every engine value. -/
theorem c9_offset_overflow (c : CRC32) (d : List Nat) (offset t : Nat)
    (hoff : d.length < offset) :
    c.compute_inserted d offset t = .error Error.OverflowError :=
  compute_inserted_err c d offset t hoff

theorem c9_offset_overflow_witness :
    stdEngine.compute_inserted [0x61] 2 0 = .error Error.OverflowError :=
  c9_offset_overflow stdEngine [0x61] 2 0 (by decide)

/-- C10: the narrowing unwraps are unreachable for engines built by new: the
remainder by the degree-32 generator always narrows u64 -> u32 (its meaning
has degree at most 31), and the u128 product of two widened u32 polynomials
always narrows u128 -> u64. -/
theorem c10_unreachable_narrowings (g i f : Nat) (c : CRC32) (hg : g < 2 ^ 32)
    (hi : i < 2 ^ 32) (hf : f < 2 ^ 32) (hnew : CRC32.new g i f = .ok c)
    (p : Nat) (hp : p < 2 ^ 128) (a b : Nat) (ha : a < 2 ^ 32)
    (hb : b < 2 ^ 32) :
    narrow_64_32 (rem_128_64 p c.g) = .ok (c.generator_remainder p) ∧
    (pval 32 (c.generator_remainder p)).natDegree ≤ 31 ∧
    narrow_128_64 (mul64 (widen_32_64 a) (widen_32_64 b)) =
      .ok (mul_32_32 a b) := by
  obtain ⟨hwf, _, _, _⟩ := new_ok_wf hg hi hf hnew
  have hglt : c.g < 2 ^ 64 := by
    rw [hwf.hfull]
    exact gfull_lt _
  have hgdeg : deg 64 c.g = 32 := by
    rw [hwf.hfull]
    exact deg_gfull hwf.hg
  obtain ⟨hrlt, hrmod, _⟩ := rem_128_64_spec p c.g hp hglt (by omega)
  rw [hgdeg, show (64 : Nat) - 32 = 32 from rfl] at hrmod
  refine ⟨narrow_64_32_ok hrmod, ?_,
    narrow_128_64_ok (mul64_widen_low_bits ha)⟩
  exact pval_natDegree_le (generator_remainder_spec c hwf p hp).1

theorem c10_unreachable_narrowings_witness :
    narrow_64_32 (rem_128_64 0xDEADBEEF stdEngine.g) =
      .ok (stdEngine.generator_remainder 0xDEADBEEF) ∧
    (pval 32 (stdEngine.generator_remainder 0xDEADBEEF)).natDegree ≤ 31 ∧
    narrow_128_64 (mul64 (widen_32_64 3) (widen_32_64 5)) =
      .ok (mul_32_32 3 5) :=
  c10_unreachable_narrowings 0x04C11DB7 0xFFFFFFFF 0xFFFFFFFF stdEngine
    (by norm_num) (by norm_num) (by norm_num) stdEngine_new 0xDEADBEEF
    (by norm_num) 3 5 (by norm_num) (by norm_num)


end CRCForge
